import Mathlib

/-!
# GLideNHQ texture checksums (`GLideN64/src/GLideNHQ/TxUtil.cpp`)

A shallow embedding of the portable C++ path of `TxUtil.cpp` (the branch taken
when `WIN32_ASM` is not defined) and theorems about it.

Conventions of the embedding.

* A pointer is an address of type `Int`; the null pointer is address `0`.
  Memory is a total map from addresses to bytes (`Mem`); a byte read reduces
  the stored number modulo 256.  The source buffers belong to the caller, so
  reads are never out of bounds in the model; the only buffer whose extent the
  code itself fixes is the local vector of `StrongCRC32`, and writing past its
  end is reported as `none`: the checksum then has no determined value.  The
  maximum index that `StrongCRC32_CI4` and `StrongCRC32_CI8` store is computed
  from the source bytes alone and is reported in every case.
* `int` and `uint32` values are `Int` and `Nat`; conversions and wrap-around
  are written out (`toU32`, `toS32`, `% 4294967296`).
* A 32-bit word is read little-endian, as on every platform the library is
  built for.
* `XXH3_64bits` lives in `xxHash/xxhash.h`, outside this file; it is a
  parameter of the strong engine, a function from the byte sequence to a
  number that is reduced to 64 bits where it is used.
* In the checksum functions no operation inside a `try` block throws, so
  their `catch` clauses have no counterpart.  In `TxMemBuf` the `std::bad_alloc`
  of a vector that has to grow is modelled: an argument of `init` and
  `getThreadBuf` tells whether that allocation succeeds.
* `malloc` and `free` act on an explicit allocator state (`Heap`) that lists
  the answers of the coming `malloc` calls and the blocks currently held.
-/

namespace TxUtil

/-! ## Machine integers and memory -/

/-- Byte-addressed memory: the byte stored at an address is `mem a % 256`. -/
abbrev Mem := Int → Nat

/-- Conversion of an integer to `uint32` (reduction modulo 2^32). -/
def toU32 (i : Int) : Nat := (i % 4294967296).toNat

/-- Conversion of a `uint32` to `int` (two's complement reading). -/
def toS32 (n : Nat) : Int :=
  if n % 4294967296 < 2147483648 then ((n % 4294967296 : Nat) : Int)
  else ((n % 4294967296 : Nat) : Int) - 4294967296

/-- Result of an `int` computation kept to 32 bits (two's complement wrap). -/
def wrapInt (i : Int) : Int := toS32 (toU32 i)

/-- The `int` expression `a << n`.  C++ leaves a count outside `0..31` and an
overflowing result undefined; the embedding takes what the shift instruction of
x86-64 and AArch64 computes: the count is reduced modulo 32 and the result
modulo 2^32.  The caller documented above `RiceCRC32` passes
`format << 8 | size` as `size`, so counts above 31 do reach this shift. -/
def shlInt (a n : Int) : Int := toS32 (toU32 a * 2 ^ (n % 32).toNat)

/-- The `int` expression `a >> 1` (arithmetic shift: floor division by 2). -/
def sarInt1 (a : Int) : Int := a / 2

/-- Memory whose bytes at addresses `0, 1, 2, ...` are the elements of a list
and 0 everywhere else; used for concrete inputs. -/
def memOfList (l : List Nat) : Mem := fun a => if 0 ≤ a then l.getD a.toNat 0 else 0

/-- Read of one `uint8` through a pointer. -/
def readU8 (mem : Mem) (a : Int) : Nat := mem a % 256

/-- Read `*(uint32*)a`: four bytes, little-endian. -/
def readU32 (mem : Mem) (a : Int) : Nat :=
  readU8 mem a + 256 * readU8 mem (a + 1) + 65536 * readU8 mem (a + 2)
    + 16777216 * readU8 mem (a + 3)

/-- The `n` bytes starting at address `a`, in address order (the source of a
`memcpy`). -/
def readBytes (mem : Mem) (a : Int) : Nat → List Nat
  | 0 => []
  | n + 1 => readU8 mem a :: readBytes mem (a + 1) n

/-! ## Utilities -/

/-- Function `Uint64ToUint32`: `(t & 0xFFFFFFFF) ^ (t >> 32)` on a `uint64_t` argument,
cast to `uint32`. -/
def Uint64ToUint32 (t : Nat) : Nat :=
  (((t % 18446744073709551616) &&& 0xFFFFFFFF) ^^^ ((t % 18446744073709551616) >>> 32))
    % 4294967296

/-- The values of the five `graphics::internalcolorFormat` constants that
`sizeofTx` compares with.  They are defined outside this file, so they are a
parameter. -/
structure InternalColorFormat where
  COLOR_INDEX8 : Nat
  RGBA4 : Nat
  RGB5_A1 : Nat
  RGB8 : Nat
  RGBA8 : Nat

/-- Function `TxUtil::sizeofTx`; `int` arithmetic wraps to 32 bits. -/
def sizeofTx (fmt : InternalColorFormat) (width height : Int) (format : Nat) : Int :=
  if format = fmt.COLOR_INDEX8 then
    wrapInt (width * height)
  else if format = fmt.RGBA4 ∨ format = fmt.RGB5_A1 ∨ format = fmt.RGB8 then
    shlInt (wrapInt (width * height)) 1
  else if format = fmt.RGBA8 then
    shlInt (wrapInt (width * height)) 2
  else
    0

/-! ## Rice CRC32 -/

/-- The `int` expression `width << size >> 1` that initialises `bytesPerLine`. -/
def bytesPerLineInt (width size : Int) : Int := sarInt1 (shlInt width size)

/-- The variable `const uint32 bytesPerLine = width << size >> 1`. -/
def bytesPerLine (width size : Int) : Nat := toU32 (bytesPerLineInt width size)

/-- The statement `crc32Ret = (crc32Ret << 4) + ((crc32Ret >> 28) & 15)` on a
`uint32`. -/
def riceRotate (crc32Ret : Nat) : Nat :=
  ((crc32Ret <<< 4) % 4294967296 + ((crc32Ret >>> 28) &&& 15)) % 4294967296

/-- Body of the inner `do` loop of `RiceCRC32` at column offset `x`: returns
the new `crc32Ret` and the new `esi`. -/
def riceStep (mem : Mem) (src x : Int) (crc32Ret : Nat) : Nat × Nat :=
  let esi := readU32 mem (src + x) ^^^ toU32 x
  let crc := riceRotate crc32Ret
  ((crc + esi) % 4294967296, esi)

/-- The inner `do { ... x -= 4; } while (x >= 0)` loop.  The first argument
bounds how many more times the back edge may be taken; `x.toNat / 4` is exactly
the number of times it is taken (`riceInner_fuel`). -/
def riceInner (mem : Mem) (src : Int) : Nat → Int → Nat → Nat × Nat
  | 0, x, crc32Ret => riceStep mem src x crc32Ret
  | fuel + 1, x, crc32Ret =>
    let r := riceStep mem src x crc32Ret
    if 0 ≤ x - 4 then riceInner mem src fuel (x - 4) r.1 else r

/-- One pass of the body of the outer `do` loop for row counter `y` with the
row pointer at `src`: the inner loop from `x = bytesPerLine - 4` (an unsigned
subtraction stored in an `int`), then `esi ^= y; crc32Ret += esi`. -/
def riceRow (mem : Mem) (bytesPerLine : Nat) (src y : Int) (crc32Ret : Nat) : Nat :=
  let x := toS32 (bytesPerLine + 4294967296 - 4)
  let r := riceInner mem src (x.toNat / 4) x crc32Ret
  let esi := r.2 ^^^ toU32 y
  (r.1 + esi) % 4294967296

/-- The outer `do { ... src += rowStride; --y; } while (y >= 0)` loop.  The
first argument bounds how many more times the back edge may be taken;
`y.toNat` is exactly the number of times it is taken (`riceOuter_fuel`). -/
def riceOuter (mem : Mem) (bytesPerLine : Nat) (rowStride : Int) : Nat → Int → Int → Nat → Nat
  | 0, src, y, crc32Ret => riceRow mem bytesPerLine src y crc32Ret
  | fuel + 1, src, y, crc32Ret =>
    let crc := riceRow mem bytesPerLine src y crc32Ret
    if 0 ≤ y - 1 then riceOuter mem bytesPerLine rowStride fuel (src + rowStride) (y - 1) crc
    else crc

/-- Function `TxUtil::RiceCRC32`. -/
def RiceCRC32 (mem : Mem) (src width height size rowStride : Int) : Nat :=
  let y := height - 1
  riceOuter mem (bytesPerLine width size) rowStride y.toNat src y 0

/-! ## Maximum colour index -/

/-- Inner `for` loop of `CalculateMaxCI8b` over one row: the first argument is
the number of iterations left, `x` the column.  `Except.error v` is the early
`return v`, `Except.ok val` the value of `val` when the loop ends. -/
def maxCI8bCols (mem : Mem) (buf : Int) : Nat → Nat → Nat → Except Nat Nat
  | 0, _, val => .ok val
  | n + 1, x, val =>
    let val := if readU8 mem (buf + x) > val then readU8 mem (buf + x) else val
    if val = 0xFF then .error 0xFF else maxCI8bCols mem buf n (x + 1) val

/-- Outer `for` loop of `CalculateMaxCI8b`: the first argument is the number
of rows left, `y` the row; `rowStride * y` is a `uint32` product. -/
def maxCI8bRows (mem : Mem) (src : Int) (width rowStride : Nat) : Nat → Nat → Nat → Nat
  | 0, _, val => val
  | n + 1, y, val =>
    let buf := src + ((rowStride * y % 4294967296 : Nat) : Int)
    match maxCI8bCols mem buf width 0 val with
    | .error v => v
    | .ok val => maxCI8bRows mem src width rowStride n (y + 1) val

/-- Function `CalculateMaxCI8b` (its `uint32` parameters are natural numbers). -/
def CalculateMaxCI8b (mem : Mem) (src : Int) (width height rowStride : Nat) : Nat :=
  maxCI8bRows mem src width rowStride height 0 0

/-- Inner `for` loop of `CalculateMaxCI4b` over the bytes of one row. -/
def maxCI4bCols (mem : Mem) (buf : Int) : Nat → Nat → Nat → Except Nat Nat
  | 0, _, val => .ok val
  | n + 1, x, val =>
    let val1 := readU8 mem (buf + x) >>> 4
    let val2 := readU8 mem (buf + x) &&& 0xF
    let val := if val1 > val then val1 else val
    let val := if val2 > val then val2 else val
    if val = 0xF then .error 0xF else maxCI4bCols mem buf n (x + 1) val

/-- Outer `for` loop of `CalculateMaxCI4b`; `width` is already halved. -/
def maxCI4bRows (mem : Mem) (src : Int) (width rowStride : Nat) : Nat → Nat → Nat → Nat
  | 0, _, val => val
  | n + 1, y, val =>
    let buf := src + ((rowStride * y % 4294967296 : Nat) : Int)
    match maxCI4bCols mem buf width 0 val with
    | .error v => v
    | .ok val => maxCI4bRows mem src width rowStride n (y + 1) val

/-- Function `CalculateMaxCI4b`: `width >>= 1`, then the scan of `width` bytes per row. -/
def CalculateMaxCI4b (mem : Mem) (src : Int) (width height rowStride : Nat) : Nat :=
  maxCI4bRows mem src (width >>> 1) rowStride height 0 0

/-- What an indexed checksum hands back: the `boolean` it returns and the two
values stored through `crc32` and `cimax`. -/
structure CIResult where
  ret : Bool
  crc32 : Nat
  cimax : Nat
deriving DecidableEq

/-- Function `TxUtil::RiceCRC32_CI4`; the `int` arguments convert to the `uint32`
parameters of `CalculateMaxCI4b`. -/
def RiceCRC32_CI4 (mem : Mem) (src width height rowStride : Int) : CIResult :=
  let crc32Ret := RiceCRC32 mem src width height 0 rowStride
  let cimaxRet := CalculateMaxCI4b mem src (toU32 width) (toU32 height) (toU32 rowStride)
  { ret := true, crc32 := crc32Ret, cimax := cimaxRet }

/-- Function `TxUtil::RiceCRC32_CI8`. -/
def RiceCRC32_CI8 (mem : Mem) (src width height rowStride : Int) : CIResult :=
  let crc32Ret := RiceCRC32 mem src width height 1 rowStride
  let cimaxRet := CalculateMaxCI8b mem src (toU32 width) (toU32 height) (toU32 rowStride)
  { ret := true, crc32 := crc32Ret, cimax := cimaxRet }

/-! ## Strong CRC32 -/

/-- The allocated length of the local vector of `StrongCRC32`:
`static_cast<uint32>(height) * std::max(bytesPerLine, static_cast<uint32>(rowStride))`,
a `uint32` product. -/
def strongBufSize (width height size rowStride : Int) : Nat :=
  toU32 height * max (bytesPerLine width size) (toU32 rowStride) % 4294967296

/-- What one iteration of the `for` loop of `StrongCRC32` copies to `pData`:
four bytes from `src - 4 + bytesPerLine` when `bytesPerLine < 4`, otherwise
`bytesPerLine` bytes from `src`. -/
def strongRowBytes (mem : Mem) (bytesPerLine : Nat) (src : Int) : List Nat :=
  if bytesPerLine < 4 then readBytes mem (src - 4 + (bytesPerLine : Int)) 4
  else readBytes mem src bytesPerLine

/-- The `for (int y = 0; y < height; ++y)` loop of `StrongCRC32`: the first
argument is the number of iterations left, `data` the bytes written so far
(the vector from `buf.data()` up to `pData`). -/
def strongCopy (mem : Mem) (bytesPerLine : Nat) (rowStride : Int) : Nat → Int → List Nat → List Nat
  | 0, _, data => data
  | n + 1, src, data =>
    strongCopy mem bytesPerLine rowStride n (src + rowStride)
      (data ++ strongRowBytes mem bytesPerLine src)

/-- Function `TxUtil::StrongCRC32`.  The result is `none` when the loop writes past
the last element of the vector (undefined behaviour); otherwise the hash runs
over the `pData - buf.data()` bytes written. -/
def StrongCRC32 (XXH3_64bits : List Nat → Nat) (mem : Mem)
    (src width height size rowStride : Int) : Option Nat :=
  let data := strongCopy mem (bytesPerLine width size) rowStride height.toNat src []
  if data.length ≤ strongBufSize width height size rowStride then
    some (Uint64ToUint32 (XXH3_64bits data))
  else
    none

/-- What a strong indexed checksum hands back: the `boolean` it returns and the
two values stored through `crc32` and `cimax`.  The value of `crc32` is the
result of `StrongCRC32`, which is `none` when that call writes past its vector;
the value of `cimax` is computed afterwards by `CalculateMaxCI4b` or
`CalculateMaxCI8b`, which read the source bytes only. -/
structure StrongCIResult where
  ret : Bool
  crc32 : Option Nat
  cimax : Nat
deriving DecidableEq

/-- Function `TxUtil::StrongCRC32_CI4`. -/
def StrongCRC32_CI4 (XXH3_64bits : List Nat → Nat) (mem : Mem)
    (src width height rowStride : Int) : StrongCIResult :=
  let crc32Ret := StrongCRC32 XXH3_64bits mem src width height 0 rowStride
  let cimaxRet := CalculateMaxCI4b mem src (toU32 width) (toU32 height) (toU32 rowStride)
  { ret := true, crc32 := crc32Ret, cimax := cimaxRet }

/-- Function `TxUtil::StrongCRC32_CI8`. -/
def StrongCRC32_CI8 (XXH3_64bits : List Nat → Nat) (mem : Mem)
    (src width height rowStride : Int) : StrongCIResult :=
  let crc32Ret := StrongCRC32 XXH3_64bits mem src width height 1 rowStride
  let cimaxRet := CalculateMaxCI8b mem src (toU32 width) (toU32 height) (toU32 rowStride)
  { ret := true, crc32 := crc32Ret, cimax := cimaxRet }

/-! ## Composite 64-bit checksums -/

/-- The three statements `crc64Ret = p; crc64Ret <<= 32; crc64Ret |= crc32` on
a `uint64`. -/
def compose64 (p crc32 : Nat) : Nat :=
  ((p <<< 32) % 18446744073709551616) ||| crc32

/-- Function `TxUtil::checksum64`. -/
def checksum64 (mem : Mem) (src width height size rowStride palette : Int) : Nat :=
  if src = 0 then 0
  else
    let crc64Ret :=
      if palette ≠ 0 then
        match toU32 size &&& 0xff with
        | 1 =>
          let r := RiceCRC32_CI8 mem src width height rowStride
          if r.ret then compose64 (RiceCRC32 mem palette (r.cimax + 1) 1 2 512) r.crc32 else 0
        | 0 =>
          let r := RiceCRC32_CI4 mem src width height rowStride
          if r.ret then compose64 (RiceCRC32 mem palette (r.cimax + 1) 1 2 32) r.crc32 else 0
        | _ => 0
      else 0
    if crc64Ret = 0 then RiceCRC32 mem src width height size rowStride else crc64Ret

/-- The `if (palette) { ... }` block of `checksum64strong`: the value of
`crc64Ret` after it, `none` when a `StrongCRC32` call that feeds it writes past
its vector. -/
def strongPaletteBlock (XXH3_64bits : List Nat → Nat) (mem : Mem)
    (src width height size rowStride palette : Int) : Option Nat :=
  if palette ≠ 0 then
    match toU32 size &&& 0xff with
    | 1 =>
      let r := StrongCRC32_CI8 XXH3_64bits mem src width height rowStride
      if r.ret then
        r.crc32.bind fun crc32 =>
          (StrongCRC32 XXH3_64bits mem palette (r.cimax + 1) 1 2 512).map fun p =>
            compose64 p crc32
      else some 0
    | 0 =>
      let r := StrongCRC32_CI4 XXH3_64bits mem src width height rowStride
      if r.ret then
        r.crc32.bind fun crc32 =>
          (StrongCRC32 XXH3_64bits mem palette (r.cimax + 1) 1 2 32).map fun p =>
            compose64 p crc32
      else some 0
    | _ => some 0
  else some 0

/-- Function `TxUtil::checksum64strong`; `none` when one of its `StrongCRC32` calls
writes past its vector. -/
def checksum64strong (XXH3_64bits : List Nat → Nat) (mem : Mem)
    (src width height size rowStride palette : Int) : Option Nat :=
  if src = 0 then some 0
  else
    (strongPaletteBlock XXH3_64bits mem src width height size rowStride palette).bind
      fun crc64Ret =>
        if crc64Ret = 0 then StrongCRC32 XXH3_64bits mem src width height size rowStride
        else some crc64Ret

/-! ## Memory buffers for texture manipulations -/

/-- Function `TxUtil::getNumberofProcessors`; the macro `MAX_NUMCORE` is
defined outside this file and is a parameter. -/
def getNumberofProcessors (MAX_NUMCORE : Nat) : Nat :=
  let numcore := 1
  if numcore > MAX_NUMCORE then MAX_NUMCORE else numcore

/-- The C allocator as the pool sees it: `pending` lists the pointers that the
next calls of `malloc` return (0 is a failed call, and so is a call on an
exhausted list), `live` the blocks obtained from `malloc` and not yet freed. -/
structure Heap where
  pending : List Int
  live : List Int
deriving DecidableEq

/-- One call of `malloc`: the pointer returned and the allocator afterwards. -/
def malloc (h : Heap) : Int × Heap :=
  match h.pending with
  | [] => (0, h)
  | p :: rest => (p, { pending := rest, live := if p = 0 then h.live else p :: h.live })

/-- One call of `free(p)`. -/
def free (p : Int) (h : Heap) : Heap := { h with live := h.live.erase p }

/-- Element `i` of a two-element array. -/
def get2 {α : Type} (a : α × α) (i : Nat) : α := if i = 0 then a.1 else a.2

/-- Assignment to element `i` of a two-element array. -/
def set2 {α : Type} (a : α × α) (i : Nat) (v : α) : α × α := if i = 0 then (v, a.2) else (a.1, v)

/-- The call `v.resize(n, fill)` of a `std::vector`.  The result `none` is
`std::bad_alloc`: it can occur only when the vector has to grow, and `ok` tells
whether the allocation for the growth succeeds. -/
def vectorResize {α : Type} (ok : Bool) (n : Nat) (fill : α) (v : List α) : Option (List α) :=
  if n ≤ v.length then some (v.take n)
  else if ok then some (v ++ List.replicate (n - v.length) fill)
  else none

/-- The data members of `TxMemBuf`: the two fixed buffers `_tex`, their
recorded sizes `_size`, and the per-thread vectors `_bufs`. -/
structure TxMemBuf where
  _tex : Int × Int
  _size : Nat × Nat
  _bufs : List (List Nat)
deriving DecidableEq

/-- The constructor `TxMemBuf::TxMemBuf`: both pointers null, both sizes 0,
and the default-constructed empty `_bufs`. -/
def TxMemBuf.construct : TxMemBuf := { _tex := (0, 0), _size := (0, 0), _bufs := [] }

/-- The `for (int i = 0; i < 2; i++)` loop of `TxMemBuf::shutdown` from index
`i`; the first argument is the number of iterations left. -/
def shutdownLoop : Nat → Nat → TxMemBuf × Heap → TxMemBuf × Heap
  | 0, _, st => st
  | n + 1, i, (s, h) =>
    let h1 := if get2 s._tex i ≠ 0 then free (get2 s._tex i) h else h
    shutdownLoop n (i + 1) ({ s with _tex := set2 s._tex i 0, _size := set2 s._size i 0 }, h1)

/-- Function `TxMemBuf::shutdown`. -/
def TxMemBuf.shutdown (st : TxMemBuf × Heap) : TxMemBuf × Heap :=
  let r := shutdownLoop 2 0 st
  ({ r.1 with _bufs := [] }, r.2)

/-- The first statement of the loop body of `TxMemBuf::init` for index `i`:
`if (_tex[i] == nullptr) { _tex[i] = malloc(...); _size[i] = ...; }`, the size
being the `int` product `maxwidth * maxheight * 4` stored in a `uint32`. -/
def initAlloc (maxwidth maxheight : Int) (i : Nat) (st : TxMemBuf × Heap) : TxMemBuf × Heap :=
  if get2 st.1._tex i = 0 then
    ({ st.1 with
        _tex := set2 st.1._tex i (malloc st.2).1,
        _size := set2 st.1._size i (toU32 (wrapInt (wrapInt (maxwidth * maxheight) * 4))) },
      (malloc st.2).2)
  else st

/-- The `for (uint32 i = 0; i < 2; i++)` loop of `TxMemBuf::init` from index
`i`; the first argument is the number of iterations left.  The boolean is
`false` when the loop body ran `shutdown(); return 0;`. -/
def initLoop (maxwidth maxheight : Int) : Nat → Nat → TxMemBuf × Heap → Bool × (TxMemBuf × Heap)
  | 0, _, st => (true, st)
  | n + 1, i, st =>
    if get2 (initAlloc maxwidth maxheight i st).1._tex i = 0 then
      (false, TxMemBuf.shutdown (initAlloc maxwidth maxheight i st))
    else initLoop maxwidth maxheight n (i + 1) (initAlloc maxwidth maxheight i st)

/-- Function `TxMemBuf::init`: the value returned and the pool and allocator
afterwards.  The argument `resizeOk` tells whether the allocation made by
`_bufs.resize` succeeds; when it does not, `std::bad_alloc` is caught. -/
def TxMemBuf.init (MAX_NUMCORE : Nat) (resizeOk : Bool) (maxwidth maxheight : Int)
    (st : TxMemBuf × Heap) : Bool × (TxMemBuf × Heap) :=
  let r := initLoop maxwidth maxheight 2 0 st
  if r.1 = false then r
  else if r.2.1._bufs.isEmpty then
    let numcore := getNumberofProcessors MAX_NUMCORE
    let numBuffers := numcore * 2
    match vectorResize resizeOk numBuffers [] r.2.1._bufs with
    | some bufs => (true, ({ r.2.1 with _bufs := bufs }, r.2.2))
    | none => (false, TxMemBuf.shutdown r.2)
  else (true, r.2)

/-- Function `TxMemBuf::get`; `none` when `assert(num < 2)` fails. -/
def TxMemBuf.get (s : TxMemBuf) (num : Nat) : Option Int :=
  if num < 2 then some (get2 s._tex num) else none

/-- Function `TxMemBuf::size_of`; `none` when `assert(num < 2)` fails. -/
def TxMemBuf.size_of (s : TxMemBuf) (num : Nat) : Option Nat :=
  if num < 2 then some (get2 s._size num) else none

/-- Function `TxMemBuf::getThreadBuf`.  The outer `none` is a failed
`assert(num < 2)` or an index outside `_bufs` (undefined behaviour).  Otherwise
the result is the pointer returned and the pool afterwards: `none` for
`nullptr` after `std::bad_alloc`, and `some idx` for `buf.data()` of slot
`idx`.  The slot index is a `uint32` expression. -/
def TxMemBuf.getThreadBuf (resizeOk : Bool) (threadIdx num size : Nat) (s : TxMemBuf) :
    Option (Option Nat × TxMemBuf) :=
  if num < 2 then
    let idx := (threadIdx * 2 + num) % 4294967296
    if idx < s._bufs.length then
      let buf := s._bufs.getD idx []
      if buf.length < size then
        match vectorResize resizeOk size 0 buf with
        | some buf1 => some (some idx, { s with _bufs := s._bufs.set idx buf1 })
        | none => some (none, s)
      else some (some idx, s)
    else none
  else none

/-! ## Reference definitions, following the specification -/

/-- Rotation of a 32-bit value to the left by `n` bits (`n ≤ 32`). -/
def rotateLeft32 (a n : Nat) : Nat := ((a <<< n) ||| (a >>> (32 - n))) % 4294967296

/-- The column offsets of one row of the reference fold:
`bytesPerLine-4, bytesPerLine-8, ...` while the offset is at least 0. -/
def refOffsets (bytesPerLine : Nat) : List Nat :=
  (List.range (bytesPerLine / 4)).map fun i => bytesPerLine - 4 - 4 * i

/-- One step of the reference fold within a row: the word at offset `x` XOR
`x`, and `acc = rotateLeft32(acc, 4) + word`; the state is the accumulator and
the last word. -/
def refWordStep (mem : Mem) (row : Int) (s : Nat × Nat) (x : Nat) : Nat × Nat :=
  let word := readU32 mem (row + (x : Int)) ^^^ x
  ((rotateLeft32 s.1 4 + word) % 4294967296, word)

/-- One row of the reference fold: the steps over the offsets, then
`acc = acc + (last word XOR y)`. -/
def refRow (mem : Mem) (row : Int) (bytesPerLine y acc : Nat) : Nat :=
  let r := (refOffsets bytesPerLine).foldl (refWordStep mem row) (acc, 0)
  (r.1 + (r.2 ^^^ y)) % 4294967296

/-- The reference fold for the fast checksum: rows `k = 0..height-1` in memory
order, row `k` at `src + k*rowStride` with `y = height-1-k`, accumulator
starting at 0. -/
def riceReference (mem : Mem) (src : Int) (bytesPerLine height : Nat) (rowStride : Int) : Nat :=
  (List.range height).foldl
    (fun (acc k : Nat) => refRow mem (src + (k : Int) * rowStride) bytesPerLine (height - 1 - k) acc) 0

/-- The byte of an 8-bit indexed region at row `y`, column `x`:
`src[rowStride*y + x]`, the product taken in `uint32` as in the code. -/
def ci8Index (mem : Mem) (src : Int) (rowStride y x : Nat) : Nat :=
  readU8 mem (src + ((rowStride * y % 4294967296 : Nat) : Int) + (x : Int))

/-- The index of pixel `p` of row `y` of a 4-bit indexed region: byte `p / 2`
of the row, high nibble for even `p`, low nibble for odd `p`. -/
def ci4Index (mem : Mem) (src : Int) (rowStride y p : Nat) : Nat :=
  if p % 2 = 0 then
    readU8 mem (src + ((rowStride * y % 4294967296 : Nat) : Int) + ((p / 2 : Nat) : Int)) >>> 4
  else
    readU8 mem (src + ((rowStride * y % 4294967296 : Nat) : Int) + ((p / 2 : Nat) : Int)) &&& 0xF

/-- The value `c` is the maximum of `idx y x` over `x < w`, `y < h`, and 0 when
there is no such pair: it bounds every value, and is 0 or attained. -/
def IsMaxIndex (idx : Nat → Nat → Nat) (w h c : Nat) : Prop :=
  (∀ y, y < h → ∀ x, x < w → idx y x ≤ c) ∧ (c = 0 ∨ ∃ y, y < h ∧ ∃ x, x < w ∧ idx y x = c)

/-- Format constants used for concrete inputs: the OpenGL enumerants
`GL_COLOR_INDEX8_EXT`, `GL_RGBA4`, `GL_RGB5_A1`, `GL_RGB8`, `GL_RGBA8`. -/
def glFormats : InternalColorFormat :=
  { COLOR_INDEX8 := 0x80E5, RGBA4 := 0x8056, RGB5_A1 := 0x8057, RGB8 := 0x8051, RGBA8 := 0x8058 }

/-- The linear byte sequence of a region: for `k = 0..height-1` in order, the
`bytesPerLine` bytes `src[k*rowStride .. k*rowStride + bytesPerLine)`. -/
def linearRows (mem : Mem) (src : Int) (bytesPerLine height : Nat) (rowStride : Int) : List Nat :=
  (List.range height).foldl
    (fun (l : List Nat) (k : Nat) => l ++ readBytes mem (src + (k : Int) * rowStride) bytesPerLine) []

/-- Folding a 64-bit value to 32 bits: `(t mod 2^32) XOR (t >> 32)`. -/
def fold32 (t : Nat) : Nat := (t % 4294967296) ^^^ (t >>> 32)

/-- The maximum index that the indexed path of the composite checksums
discovers for a pixel region: that of the 8-bit scan when the low byte of
`size` is 1, that of the 4-bit scan otherwise. -/
def compositeCimax (mem : Mem) (src width height size rowStride : Int) : Nat :=
  if toU32 size &&& 0xff = 1 then
    CalculateMaxCI8b mem src (toU32 width) (toU32 height) (toU32 rowStride)
  else
    CalculateMaxCI4b mem src (toU32 width) (toU32 height) (toU32 rowStride)

/-- A memory holding an all-zero 4x1 8-bit region at address 20 and three
palettes, at addresses 4, 10 and 16, with the same first entry (7, 7); the two
bytes before the palette are (0, 0) at 4 and 16, and (1, 0) at 10.  Used for
concrete inputs. -/
def palettesMem : Mem :=
  memOfList [0, 0, 0, 0, 7, 7, 0, 0, 1, 0, 7, 7, 0, 0, 0, 0, 7, 7, 0, 0, 0, 0, 0, 0]

/-- A memory holding a palette of four entries at address 4 (bytes 7, 7, 8, 8,
9, 9, 10, 10) and four pixel bytes 1, 2, 0, 3 at address 12: as 8-bit indices
the largest is 3, and as eight packed 4-bit indices the largest is 3 as well.
Used for concrete inputs. -/
def indexedMem : Mem :=
  memOfList [0, 0, 0, 0, 7, 7, 8, 8, 9, 9, 10, 10, 1, 2, 0, 3]

/-- The pinned fixture: a memory whose 64 bytes at addresses 0..63 (a 4x4
region of 32-bit pixels with `rowStride = 16`) are zero. -/
def zeroFixture : Mem := memOfList (List.replicate 64 0)

/-- The address of the four bytes that the specification names for row `k` in
the degenerate case `bytesPerLine < 4`: `src + k*rowStride - (4 - bytesPerLine)`. -/
def degenerateAddr (src : Int) (bytesPerLine : Nat) (rowStride : Int) (k : Nat) : Int :=
  src + (k : Int) * rowStride - (4 - (bytesPerLine : Int))

/-- The fast checksum written for the degenerate case: one word per row, read
at `degenerateAddr`, XORed with the offset `bytesPerLine - 4` (as a `uint32`),
accumulated as in the reference fold and then added once more XORed with
`y = height-1-k`. -/
def riceSingleWord (mem : Mem) (src : Int) (bytesPerLine height : Nat) (rowStride : Int) : Nat :=
  (List.range height).foldl
    (fun (acc k : Nat) =>
      (((rotateLeft32 acc 4
            + (readU32 mem (degenerateAddr src bytesPerLine rowStride k)
                ^^^ toU32 ((bytesPerLine : Int) - 4))) % 4294967296)
          + ((readU32 mem (degenerateAddr src bytesPerLine rowStride k)
                ^^^ toU32 ((bytesPerLine : Int) - 4)) ^^^ (height - 1 - k))) % 4294967296) 0

/-- The bytes that the specification says the strong engine copies in the
degenerate case: for `k = 0..height-1` in order, the four bytes at
`degenerateAddr`. -/
def degenerateRows (mem : Mem) (src : Int) (bytesPerLine height : Nat) (rowStride : Int) :
    List Nat :=
  (List.range height).foldl
    (fun (l : List Nat) (k : Nat) =>
      l ++ readBytes mem (degenerateAddr src bytesPerLine rowStride k) 4) []

/-- The accumulator component of `refWordStep`: `rotateLeft32(acc, 4) + word`
for the word at offset `x` of the row. -/
def refAccStep (mem : Mem) (row : Int) (a x : Nat) : Nat :=
  (rotateLeft32 a 4 + (readU32 mem (row + (x : Int)) ^^^ x)) % 4294967296

/-- The single-byte changes of the pinned fixture that leave its fast checksum
unchanged, as pairs (byte position, new value). -/
def fixtureCollisions : List (Nat × Nat) :=
  [(0, 1), (0, 2), (0, 3), (3, 128), (16, 2), (19, 128), (32, 1), (35, 128), (51, 128)]

/-! ## Machine-integer facts -/

theorem toU32_of_nat (n : Nat) (h : n < 4294967296) : toU32 (n : Int) = n := by
  unfold toU32; omega

theorem toU32_lt (i : Int) : toU32 i < 4294967296 := by
  unfold toU32; omega

theorem toS32_of_lt (n : Nat) (h : n < 2147483648) : toS32 n = n := by
  unfold toS32; split <;> omega

theorem toS32_bounds (n : Nat) : -2147483648 ≤ toS32 n ∧ toS32 n < 2147483648 := by
  unfold toS32; split <;> omega

theorem bytesPerLineInt_lt (width size : Int) : bytesPerLineInt width size < 1073741824 := by
  have := toS32_bounds (toU32 width * 2 ^ (size % 32).toNat)
  unfold bytesPerLineInt sarInt1 shlInt; omega

theorem riceRotate_eq (acc : Nat) (h : acc < 4294967296) : riceRotate acc = rotateLeft32 acc 4 := by
  unfold riceRotate rotateLeft32
  have h1 : acc >>> 28 < 2 ^ 4 := by
    rw [Nat.shiftRight_eq_div_pow]; omega
  have h2 : (acc >>> 28) &&& 15 = acc >>> 28 :=
    Nat.and_pow_two_sub_one_of_lt_two_pow h1
  have h3 : acc <<< 4 ||| acc >>> 28 = 2 ^ 4 * acc + acc >>> 28 := by
    rw [Nat.mul_add_lt_is_or h1, Nat.shiftLeft_eq, Nat.mul_comm]
  rw [h2, show 32 - 4 = 28 from rfl, h3]
  simp only [Nat.shiftLeft_eq, Nat.shiftRight_eq_div_pow] at *
  omega



theorem refOffsets_cons (b : Nat) (h : 4 ≤ b) :
    refOffsets b = (b - 4) :: refOffsets (b - 4) := by
  unfold refOffsets
  obtain ⟨n, hn⟩ : ∃ n, b / 4 = n + 1 := ⟨b / 4 - 1, by omega⟩
  have h4 : (b - 4) / 4 = n := by omega
  rw [hn, h4, List.range_succ_eq_map, List.map_cons, List.map_map]
  simp only [Nat.mul_zero, Nat.sub_zero, List.cons.injEq, true_and]
  apply List.map_congr_left
  intro i _
  simp only [Function.comp, Nat.succ_eq_add_one]
  omega

theorem refOffsets_nil (b : Nat) (h : b < 4) : refOffsets b = [] := by
  unfold refOffsets
  have : b / 4 = 0 := by omega
  rw [this]; rfl

theorem refWordStep_eq (mem : Mem) (src : Int) (s : Nat × Nat) (x : Nat) (hx : x < 4294967296) :
    refWordStep mem src s x = riceStep mem src x s.1 ∨ 4294967296 ≤ s.1 := by
  by_cases h : s.1 < 4294967296
  · left
    unfold refWordStep riceStep
    simp only [riceRotate_eq _ h, toU32_of_nat x hx]
  · right; omega

theorem riceStep_lt (mem : Mem) (src x : Int) (crc : Nat) :
    (riceStep mem src x crc).1 < 4294967296 := by
  unfold riceStep; simp only; omega

/-- The inner loop, started at a non-negative offset, is the fold over the offsets -/
theorem riceInner_eq_foldl (mem : Mem) (src : Int) :
    ∀ (fuel x : Nat) (crc last : Nat), x / 4 = fuel → x < 4294967296 → crc < 4294967296 →
      riceInner mem src fuel (x : Int) crc
        = (refOffsets (x + 4)).foldl (refWordStep mem src) (crc, last) := by
  intro fuel
  induction fuel with
  | zero =>
    intro x crc last hf hx hc
    have hx4 : x < 4 := by omega
    rw [refOffsets_cons (x + 4) (by omega), Nat.add_sub_cancel, refOffsets_nil x hx4]
    simp only [List.foldl_cons, List.foldl_nil, riceInner]
    rcases refWordStep_eq mem src (crc, last) x hx with h | h
    · exact h.symm
    · simp at h; omega
  | succ n ih =>
    intro x crc last hf hx hc
    have hx4 : 4 ≤ x := by omega
    rw [refOffsets_cons (x + 4) (by omega), Nat.add_sub_cancel]
    simp only [List.foldl_cons, riceInner]
    have hstep : refWordStep mem src (crc, last) x = riceStep mem src x crc := by
      rcases refWordStep_eq mem src (crc, last) x hx with h | h
      · exact h
      · simp at h; omega
    rw [hstep]
    have hc : (0 : Int) ≤ (x : Int) - 4 := by omega
    rw [if_pos hc]
    have hcast : ((x : Int) - 4) = ((x - 4 : Nat) : Int) := by omega
    rw [hcast, ih (x - 4) _ (riceStep mem src x crc).2 (by omega) (by omega) (riceStep_lt _ _ _ _)]
    have : x - 4 + 4 = x := by omega
    rw [this]



/-- More fuel than the number of back edges taken changes nothing. -/
theorem riceInner_fuel (mem : Mem) (src : Int) :
    ∀ (fuel : Nat) (x : Int) (crc : Nat), x.toNat / 4 ≤ fuel →
      riceInner mem src fuel x crc = riceInner mem src (x.toNat / 4) x crc := by
  intro fuel
  induction fuel with
  | zero =>
    intro x crc h
    have : x.toNat / 4 = 0 := by omega
    rw [this]
  | succ n ih =>
    intro x crc h
    by_cases hx : 0 ≤ x - 4
    · obtain ⟨m, hm⟩ : ∃ m, x.toNat / 4 = m + 1 := ⟨x.toNat / 4 - 1, by omega⟩
      have hm2 : (x - 4).toNat / 4 = m := by omega
      rw [hm]
      simp only [riceInner, if_pos hx]
      rw [ih (x - 4) _ (by omega), hm2]
    · have : x.toNat / 4 = 0 := by omega
      rw [this]
      simp only [riceInner, if_neg hx]

theorem riceRow_lt (mem : Mem) (b : Nat) (src y : Int) (crc : Nat) :
    riceRow mem b src y crc < 4294967296 := by
  unfold riceRow; simp only; omega

theorem riceOuter_fuel (mem : Mem) (b : Nat) (rs : Int) :
    ∀ (fuel : Nat) (src y : Int) (crc : Nat), y.toNat ≤ fuel →
      riceOuter mem b rs fuel src y crc = riceOuter mem b rs y.toNat src y crc := by
  intro fuel
  induction fuel with
  | zero =>
    intro src y crc h
    have : y.toNat = 0 := by omega
    rw [this]
  | succ n ih =>
    intro src y crc h
    by_cases hy : 0 ≤ y - 1
    · obtain ⟨m, hm⟩ : ∃ m, y.toNat = m + 1 := ⟨y.toNat - 1, by omega⟩
      have hm2 : (y - 1).toNat = m := by omega
      rw [hm]
      simp only [riceOuter, if_pos hy]
      rw [ih _ (y - 1) _ (by omega), hm2]
    · have : y.toNat = 0 := by omega
      rw [this]
      simp only [riceOuter, if_neg hy]

theorem riceRow_eq_refRow (mem : Mem) (b : Nat) (src : Int) (y crc : Nat)
    (hb : 4 ≤ b) (hb2 : b < 2147483648) (hy : y < 4294967296) (hc : crc < 4294967296) :
    riceRow mem b src (y : Int) crc = refRow mem src b y crc := by
  unfold riceRow refRow
  have hx : toS32 (b + 4294967296 - 4) = ((b - 4 : Nat) : Int) := by
    unfold toS32; split <;> omega
  have ht : (((b - 4 : Nat) : Int)).toNat / 4 = (b - 4) / 4 := by omega
  simp only [hx, ht]
  rw [riceInner_eq_foldl mem src ((b - 4) / 4) (b - 4) crc 0 rfl (by omega) hc]
  have : b - 4 + 4 = b := by omega
  rw [this, toU32_of_nat y hy]

theorem riceOuter_eq_foldl (mem : Mem) (b : Nat) (rs : Int) (hb : 4 ≤ b) (hb2 : b < 2147483648) :
    ∀ (fuel : Nat) (src : Int) (crc : Nat), fuel < 2147483648 → crc < 4294967296 →
      riceOuter mem b rs fuel src (fuel : Int) crc
        = (List.range (fuel + 1)).foldl
            (fun (acc k : Nat) => refRow mem (src + (k : Int) * rs) b (fuel + 1 - 1 - k) acc) crc := by
  intro fuel
  induction fuel with
  | zero =>
    intro src crc _ hc
    simp only [riceOuter, List.range_succ, List.range_zero, List.nil_append, List.foldl_cons,
      List.foldl_nil]
    rw [show ((0 : Nat) : Int) = ((0 : Nat) : Int) from rfl,
      riceRow_eq_refRow mem b src 0 crc hb hb2 (by omega) hc]
    simp
  | succ n ih =>
    intro src crc hf hc
    have hy : (0 : Int) ≤ ((n + 1 : Nat) : Int) - 1 := by omega
    simp only [riceOuter, if_pos hy]
    rw [riceRow_eq_refRow mem b src (n + 1) crc hb hb2 (by omega) hc]
    have hcast : ((n + 1 : Nat) : Int) - 1 = (n : Int) := by omega
    rw [hcast, ih (src + rs) _ (by omega) (by unfold refRow; simp only; omega)]
    rw [List.range_succ_eq_map (n + 1), List.foldl_cons, List.foldl_map]
    simp only [Nat.cast_zero, zero_mul, add_zero, Nat.sub_zero, Nat.add_sub_cancel]
    congr 1
    funext acc k
    have h1 : src + rs + (k : Int) * rs = src + ((k.succ : Nat) : Int) * rs := by
      push_cast; ring
    have h2 : n - k = n + 1 - k.succ := by omega
    rw [h1, h2]



theorem bytesPerLine_of_int (width size : Int) (h : 0 ≤ bytesPerLineInt width size) :
    ((bytesPerLine width size : Nat) : Int) = bytesPerLineInt width size := by
  have := bytesPerLineInt_lt width size
  unfold bytesPerLine toU32; omega

theorem RiceCRC32_eq_riceReference (mem : Mem) (src width height size rowStride : Int)
    (hh : 1 ≤ height) (hh2 : height < 2147483648) (hb : 4 ≤ bytesPerLineInt width size) :
    RiceCRC32 mem src width height size rowStride
      = riceReference mem src (bytesPerLine width size) height.toNat rowStride := by
  have hbl := bytesPerLine_of_int width size (by omega)
  have hlt := bytesPerLineInt_lt width size
  obtain ⟨n, hn⟩ : ∃ n : Nat, height = (n : Int) + 1 := ⟨(height - 1).toNat, by omega⟩
  subst hn
  unfold RiceCRC32 riceReference
  have h1 : ((n : Int) + 1 - 1) = (n : Int) := by omega
  have h2 : ((n : Int) + 1).toNat = n + 1 := by omega
  simp only [h1, h2, Int.toNat_ofNat]
  exact riceOuter_eq_foldl mem _ rowStride (by omega) (by omega) n src 0 (by omega) (by omega)

/-- C1: for `height ≥ 1` (an `int`) and `(width << size) >> 1 ≥ 4`, `RiceCRC32`
equals the reference fold over the rows in memory order and the offsets
`bytesPerLine-4, bytesPerLine-8, ...`, and the C expression
`(acc << 4) + ((acc >> 28) & 15)` is `rotateLeft32(acc, 4)`. -/
theorem C1_RiceCRC32_eq_reference_fold (mem : Mem) (src width height size rowStride : Int)
    (hh : 1 ≤ height) (hh2 : height < 2147483648) (hb : 4 ≤ bytesPerLineInt width size) :
    RiceCRC32 mem src width height size rowStride
        = riceReference mem src (bytesPerLine width size) height.toNat rowStride
      ∧ ∀ acc : Nat, acc < 4294967296 → riceRotate acc = rotateLeft32 acc 4 :=
  ⟨RiceCRC32_eq_riceReference mem src width height size rowStride hh hh2 hb, riceRotate_eq⟩

theorem C1_witness :
    (1 : Int) ≤ 2 ∧ (2 : Int) < 2147483648 ∧ 4 ≤ bytesPerLineInt 4 2 ∧
    (RiceCRC32 (memOfList [1, 2, 3, 4, 5, 6, 7, 8, 9, 10, 11, 12, 13, 14, 15, 16]) 0 4 2 2 8
        = riceReference (memOfList [1, 2, 3, 4, 5, 6, 7, 8, 9, 10, 11, 12, 13, 14, 15, 16]) 0
            (bytesPerLine 4 2) (2 : Int).toNat 8
      ∧ ∀ acc : Nat, acc < 4294967296 → riceRotate acc = rotateLeft32 acc 4) :=
  ⟨by decide, by decide, by decide,
    C1_RiceCRC32_eq_reference_fold _ 0 4 2 2 8 (by decide) (by decide) (by decide)⟩

/-! ## The composite checksums: null guard and fallback -/

theorem RiceCRC32_lt (mem : Mem) (src width height size rowStride : Int) :
    RiceCRC32 mem src width height size rowStride < 4294967296 := by
  unfold RiceCRC32
  simp only
  cases (height - 1).toNat with
  | zero => simp only [riceOuter]; exact riceRow_lt _ _ _ _ _
  | succ n =>
    simp only [riceOuter]
    split
    · generalize riceRow mem (bytesPerLine width size) src (height - 1) 0 = c
      generalize src + rowStride = s
      generalize height - 1 - 1 = y
      induction n generalizing c s y with
      | zero => simp only [riceOuter]; exact riceRow_lt _ _ _ _ _
      | succ m ih =>
        simp only [riceOuter]
        split
        · exact ih _ _ _
        · exact riceRow_lt _ _ _ _ _
    · exact riceRow_lt _ _ _ _ _

theorem Uint64ToUint32_lt (t : Nat) : Uint64ToUint32 t < 4294967296 := by
  unfold Uint64ToUint32; omega

theorem StrongCRC32_lt (xxh : List Nat → Nat) (mem : Mem) (src width height size rowStride : Int)
    (v : Nat) (h : StrongCRC32 xxh mem src width height size rowStride = some v) :
    v < 4294967296 := by
  unfold StrongCRC32 at h
  simp only at h
  split at h
  · simp only [Option.some.injEq] at h
    rw [← h]; exact Uint64ToUint32_lt _
  · simp at h

/-- C3: with a non-null `src`, when the palette is null, or the low byte of
`size` is neither 0 nor 1, `checksum64` is `RiceCRC32` of the same arguments
zero-extended (a value below 2^32), and `checksum64strong` is `StrongCRC32` of
the same arguments, zero-extended likewise. -/
theorem C3_checksum64_fallback (xxh : List Nat → Nat) (mem : Mem)
    (src width height size rowStride palette : Int) (hs : src ≠ 0)
    (hp : palette = 0 ∨ (toU32 size &&& 0xff ≠ 0 ∧ toU32 size &&& 0xff ≠ 1)) :
    (checksum64 mem src width height size rowStride palette
        = RiceCRC32 mem src width height size rowStride
      ∧ checksum64 mem src width height size rowStride palette / 4294967296 = 0)
    ∧ (checksum64strong xxh mem src width height size rowStride palette
        = StrongCRC32 xxh mem src width height size rowStride
      ∧ ∀ v, checksum64strong xxh mem src width height size rowStride palette = some v →
          v / 4294967296 = 0) := by
  have hR : checksum64 mem src width height size rowStride palette
      = RiceCRC32 mem src width height size rowStride := by
    unfold checksum64
    rw [if_neg hs]
    rcases hp with hp | ⟨h0, h1⟩
    · simp [hp]
    · by_cases hpal : palette = 0
      · simp [hpal]
      · simp [hpal, h0, h1]
  have hS : checksum64strong xxh mem src width height size rowStride palette
      = StrongCRC32 xxh mem src width height size rowStride := by
    unfold checksum64strong strongPaletteBlock
    rw [if_neg hs]
    rcases hp with hp | ⟨h0, h1⟩
    · simp [hp]
    · by_cases hpal : palette = 0
      · simp [hpal]
      · simp [hpal, h0, h1]
  refine ⟨⟨hR, ?_⟩, hS, ?_⟩
  · rw [hR]; exact Nat.div_eq_of_lt (RiceCRC32_lt _ _ _ _ _ _)
  · intro v hv
    rw [hS] at hv
    exact Nat.div_eq_of_lt (StrongCRC32_lt _ _ _ _ _ _ _ _ hv)

theorem C3_witness :
    (1 : Int) ≠ 0 ∧ ((0 : Int) = 0 ∨ (toU32 3 &&& 0xff ≠ 0 ∧ toU32 3 &&& 0xff ≠ 1)) ∧
    ((checksum64 (memOfList [0, 1, 2, 3, 4, 5, 6, 7, 8]) 1 2 1 3 4 0
        = RiceCRC32 (memOfList [0, 1, 2, 3, 4, 5, 6, 7, 8]) 1 2 1 3 4
      ∧ checksum64 (memOfList [0, 1, 2, 3, 4, 5, 6, 7, 8]) 1 2 1 3 4 0 / 4294967296 = 0)
    ∧ (checksum64strong List.sum (memOfList [0, 1, 2, 3, 4, 5, 6, 7, 8]) 1 2 1 3 4 0
        = StrongCRC32 List.sum (memOfList [0, 1, 2, 3, 4, 5, 6, 7, 8]) 1 2 1 3 4
      ∧ ∀ v, checksum64strong List.sum (memOfList [0, 1, 2, 3, 4, 5, 6, 7, 8]) 1 2 1 3 4 0
          = some v → v / 4294967296 = 0)) :=
  ⟨by decide, Or.inl rfl,
    C3_checksum64_fallback List.sum _ 1 2 1 3 4 0 (by decide) (Or.inl rfl)⟩

/-- C4: with a null `src`, `checksum64` returns 0 and `checksum64strong`
returns 0, whatever the other arguments and whatever the memory holds. -/
theorem C4_checksum64_null_src (xxh : List Nat → Nat) (mem : Mem)
    (width height size rowStride palette : Int) :
    checksum64 mem 0 width height size rowStride palette = 0
      ∧ checksum64strong xxh mem 0 width height size rowStride palette = some 0 := by
  constructor
  · unfold checksum64; rw [if_pos rfl]
  · unfold checksum64strong; rw [if_pos rfl]

/-! ## The size table -/

theorem shlInt_wrapInt_one (a : Int) : shlInt (wrapInt a) 1 = wrapInt (2 * a) := by
  have h : ((1 : Int) % 32).toNat = 1 := by decide
  unfold shlInt wrapInt
  rw [h]
  unfold toS32 toU32
  split <;> split <;> split <;> omega

theorem shlInt_wrapInt_two (a : Int) : shlInt (wrapInt a) 2 = wrapInt (4 * a) := by
  have h : ((2 : Int) % 32).toNat = 2 := by decide
  unfold shlInt wrapInt
  rw [h]
  unfold toS32 toU32
  split <;> split <;> split <;> omega

/-- C5: provided the format constants that select different sizes are
different values, `sizeofTx` returns `w*h` for `COLOR_INDEX8`, `2*w*h` for
`RGBA4`, `RGB5_A1` and `RGB8`, `4*w*h` for `RGBA8` (each in 32-bit `int`
arithmetic) and 0 for every other format. -/
theorem C5_sizeofTx_table (fmt : InternalColorFormat) (w h : Int) (format : Nat)
    (hci : fmt.COLOR_INDEX8 ≠ fmt.RGBA4 ∧ fmt.COLOR_INDEX8 ≠ fmt.RGB5_A1
      ∧ fmt.COLOR_INDEX8 ≠ fmt.RGB8 ∧ fmt.COLOR_INDEX8 ≠ fmt.RGBA8)
    (h32 : fmt.RGBA8 ≠ fmt.RGBA4 ∧ fmt.RGBA8 ≠ fmt.RGB5_A1 ∧ fmt.RGBA8 ≠ fmt.RGB8) :
    (format = fmt.COLOR_INDEX8 → sizeofTx fmt w h format = wrapInt (w * h))
    ∧ (format = fmt.RGBA4 ∨ format = fmt.RGB5_A1 ∨ format = fmt.RGB8 →
        sizeofTx fmt w h format = wrapInt (2 * (w * h)))
    ∧ (format = fmt.RGBA8 → sizeofTx fmt w h format = wrapInt (4 * (w * h)))
    ∧ (format ≠ fmt.COLOR_INDEX8 → format ≠ fmt.RGBA4 → format ≠ fmt.RGB5_A1 →
        format ≠ fmt.RGB8 → format ≠ fmt.RGBA8 → sizeofTx fmt w h format = 0) := by
  obtain ⟨c1, c2, c3, c4⟩ := hci
  obtain ⟨d1, d2, d3⟩ := h32
  refine ⟨?_, ?_, ?_, ?_⟩
  · intro hf
    unfold sizeofTx; rw [if_pos hf]
  · intro hf
    have hne : format ≠ fmt.COLOR_INDEX8 := by
      rcases hf with hf | hf | hf <;> rw [hf] <;> exact fun e => absurd e.symm ‹_›
    unfold sizeofTx
    rw [if_neg hne, if_pos hf, shlInt_wrapInt_one]
  · intro hf
    have hne : format ≠ fmt.COLOR_INDEX8 := by rw [hf]; exact fun e => c4 e.symm
    have hne2 : ¬ (format = fmt.RGBA4 ∨ format = fmt.RGB5_A1 ∨ format = fmt.RGB8) := by
      rw [hf]; rintro (e | e | e)
      · exact d1 e
      · exact d2 e
      · exact d3 e
    unfold sizeofTx
    rw [if_neg hne, if_neg hne2, if_pos hf, shlInt_wrapInt_two]
  · intro e1 e2 e3 e4 e5
    unfold sizeofTx
    rw [if_neg e1, if_neg (by rintro (e | e | e) <;> contradiction), if_neg e5]

theorem C5_witness :
    (glFormats.COLOR_INDEX8 ≠ glFormats.RGBA4 ∧ glFormats.COLOR_INDEX8 ≠ glFormats.RGB5_A1
      ∧ glFormats.COLOR_INDEX8 ≠ glFormats.RGB8 ∧ glFormats.COLOR_INDEX8 ≠ glFormats.RGBA8)
    ∧ (glFormats.RGBA8 ≠ glFormats.RGBA4 ∧ glFormats.RGBA8 ≠ glFormats.RGB5_A1
      ∧ glFormats.RGBA8 ≠ glFormats.RGB8)
    ∧ sizeofTx glFormats 320 240 glFormats.RGBA8 = wrapInt (4 * (320 * 240)) :=
  ⟨by decide, by decide,
    (C5_sizeofTx_table glFormats 320 240 glFormats.RGBA8 (by decide) (by decide)).2.2.1 rfl⟩

/-! ## The maximum colour index -/

theorem readU8_le (mem : Mem) (a : Int) : readU8 mem a ≤ 255 := by
  unfold readU8; omega

theorem maxCI8bCols_ok (mem : Mem) (buf : Int) :
    ∀ (n x val v : Nat), val < 255 → maxCI8bCols mem buf n x val = .ok v →
      val ≤ v ∧ v < 255 ∧ (∀ i, x ≤ i → i < x + n → readU8 mem (buf + (i : Int)) ≤ v)
        ∧ (v = val ∨ ∃ i, x ≤ i ∧ i < x + n ∧ readU8 mem (buf + (i : Int)) = v) := by
  intro n
  induction n with
  | zero =>
    intro x val v hval h
    simp only [maxCI8bCols, Except.ok.injEq] at h
    subst h
    exact ⟨le_refl _, hval, fun i h1 h2 => by omega, Or.inl rfl⟩
  | succ n ih =>
    intro x val v hval h
    have hb := readU8_le mem (buf + (x : Int))
    by_cases hgt : readU8 mem (buf + (x : Int)) > val
    · simp only [maxCI8bCols, if_pos hgt] at h
      by_cases h255 : readU8 mem (buf + (x : Int)) = 255
      · rw [if_pos h255] at h; simp at h
      · rw [if_neg h255] at h
        obtain ⟨h1, h2, h3, h4⟩ := ih (x + 1) _ v (by omega) h
        refine ⟨by omega, h2, ?_, ?_⟩
        · intro i hi1 hi2
          by_cases hix : i = x
          · subst hix; exact h1
          · exact h3 i (by omega) (by omega)
        · right
          rcases h4 with h4 | ⟨i, hi1, hi2, hi3⟩
          · exact ⟨x, le_refl _, by omega, h4.symm⟩
          · exact ⟨i, by omega, by omega, hi3⟩
    · simp only [maxCI8bCols, if_neg hgt] at h
      rw [if_neg (by omega)] at h
      obtain ⟨h1, h2, h3, h4⟩ := ih (x + 1) _ v hval h
      refine ⟨h1, h2, ?_, ?_⟩
      · intro i hi1 hi2
        by_cases hix : i = x
        · subst hix; omega
        · exact h3 i (by omega) (by omega)
      · rcases h4 with h4 | ⟨i, hi1, hi2, hi3⟩
        · exact Or.inl h4
        · exact Or.inr ⟨i, by omega, by omega, hi3⟩

theorem maxCI8bCols_error (mem : Mem) (buf : Int) :
    ∀ (n x val v : Nat), val < 255 → maxCI8bCols mem buf n x val = .error v →
      v = 255 ∧ ∃ i, x ≤ i ∧ i < x + n ∧ readU8 mem (buf + (i : Int)) = 255 := by
  intro n
  induction n with
  | zero =>
    intro x val v _ h
    simp [maxCI8bCols] at h
  | succ n ih =>
    intro x val v hval h
    have hb := readU8_le mem (buf + (x : Int))
    by_cases hgt : readU8 mem (buf + (x : Int)) > val
    · simp only [maxCI8bCols, if_pos hgt] at h
      by_cases h255 : readU8 mem (buf + (x : Int)) = 255
      · rw [if_pos h255] at h
        simp only [Except.error.injEq] at h
        exact ⟨h.symm, x, le_refl _, by omega, h255⟩
      · rw [if_neg h255] at h
        obtain ⟨h1, i, hi1, hi2, hi3⟩ := ih (x + 1) _ v (by omega) h
        exact ⟨h1, i, by omega, by omega, hi3⟩
    · simp only [maxCI8bCols, if_neg hgt] at h
      rw [if_neg (by omega)] at h
      obtain ⟨h1, i, hi1, hi2, hi3⟩ := ih (x + 1) _ v hval h
      exact ⟨h1, i, by omega, by omega, hi3⟩

theorem maxCI8bRows_spec (mem : Mem) (src : Int) (w rs : Nat) :
    ∀ (n y val : Nat), val < 255 →
      val ≤ maxCI8bRows mem src w rs n y val
      ∧ (∀ j, y ≤ j → j < y + n → ∀ i, i < w →
          ci8Index mem src rs j i ≤ maxCI8bRows mem src w rs n y val)
      ∧ (maxCI8bRows mem src w rs n y val = val
          ∨ ∃ j, y ≤ j ∧ j < y + n ∧ ∃ i, i < w ∧
              ci8Index mem src rs j i = maxCI8bRows mem src w rs n y val) := by
  intro n
  induction n with
  | zero =>
    intro y val _
    exact ⟨le_refl _, fun j h1 h2 => by omega, Or.inl rfl⟩
  | succ n ih =>
    intro y val hval
    simp only [maxCI8bRows]
    cases hc : maxCI8bCols mem (src + ((rs * y % 4294967296 : Nat) : Int)) w 0 val with
    | error v =>
      obtain ⟨h1, i, _, hi2, hi3⟩ := maxCI8bCols_error mem _ w 0 val v hval hc
      subst h1
      simp only
      refine ⟨by omega, fun j _ _ i _ => readU8_le _ _, Or.inr ⟨y, le_refl _, by omega, i, by omega, ?_⟩⟩
      exact hi3
    | ok v =>
      obtain ⟨h1, h2, h3, h4⟩ := maxCI8bCols_ok mem _ w 0 val v hval hc
      obtain ⟨g1, g2, g3⟩ := ih (y + 1) v h2
      simp only
      refine ⟨by omega, ?_, ?_⟩
      · intro j hj1 hj2 i hi
        by_cases hjy : j = y
        · subst hjy
          exact le_trans (h3 i (by omega) (by omega)) g1
        · exact g2 j (by omega) (by omega) i hi
      · rcases g3 with g3 | ⟨j, hj1, hj2, i, hi, hji⟩
        · rcases h4 with h4 | ⟨i, _, hi2, hi3⟩
          · left; rw [g3, h4]
          · right
            refine ⟨y, le_refl _, by omega, i, by omega, ?_⟩
            rw [g3]; exact hi3
        · exact Or.inr ⟨j, by omega, by omega, i, hi, hji⟩

/-- C6: the `cimax` of `RiceCRC32_CI8` and the `cimax` of `StrongCRC32_CI8` are,
for every region, the maximum of the bytes `src[rowStride*y + x]` over
`x < width`, `y < height` (0 for an empty region), the early return on 0xFF
included; a buffer holding 3, 255, 10 gives 255 with both variants. -/
theorem C6_cimax_CI8_is_region_max (xxh : List Nat → Nat) (mem : Mem)
    (src width height rowStride : Int) :
    IsMaxIndex (ci8Index mem src (toU32 rowStride)) (toU32 width) (toU32 height)
        (RiceCRC32_CI8 mem src width height rowStride).cimax
      ∧ IsMaxIndex (ci8Index mem src (toU32 rowStride)) (toU32 width) (toU32 height)
        (StrongCRC32_CI8 xxh mem src width height rowStride).cimax
      ∧ (RiceCRC32_CI8 (memOfList [3, 255, 10]) 0 3 1 3).cimax = 255
      ∧ (StrongCRC32_CI8 List.sum (memOfList [3, 255, 10]) 0 3 1 3).cimax = 255 := by
  have key : IsMaxIndex (ci8Index mem src (toU32 rowStride)) (toU32 width) (toU32 height)
      (CalculateMaxCI8b mem src (toU32 width) (toU32 height) (toU32 rowStride)) := by
    obtain ⟨_, h2, h3⟩ :=
      maxCI8bRows_spec mem src (toU32 width) (toU32 rowStride) (toU32 height) 0 0 (by omega)
    unfold CalculateMaxCI8b
    refine ⟨fun y hy x hx => h2 y (by omega) (by omega) x hx, ?_⟩
    rcases h3 with h3 | ⟨j, _, hj, i, hi, hji⟩
    · exact Or.inl h3
    · exact Or.inr ⟨j, by omega, i, hi, hji⟩
  exact ⟨key, key, by decide, by decide⟩

/-! ### Four-bit indices -/

theorem nibble_hi_le (mem : Mem) (a : Int) : readU8 mem a >>> 4 ≤ 15 := by
  have := readU8_le mem a
  rw [Nat.shiftRight_eq_div_pow]; omega

theorem nibble_lo_le (mem : Mem) (a : Int) : readU8 mem a &&& 0xF ≤ 15 := by
  have h := Nat.and_pow_two_sub_one_eq_mod (readU8 mem a) 4
  have h2 : readU8 mem a &&& 0xF = readU8 mem a % 16 := h
  omega

/-- The value of `val` after the two comparisons of `CalculateMaxCI4b`. -/
theorem ci4_update (val a b : Nat) :
    ∃ m, (if b > (if a > val then a else val) then b else (if a > val then a else val)) = m
      ∧ val ≤ m ∧ a ≤ m ∧ b ≤ m ∧ (m = val ∨ m = a ∨ m = b) := by
  refine ⟨_, rfl, ?_⟩
  split <;> split <;> omega

theorem maxCI4bCols_ok (mem : Mem) (buf : Int) :
    ∀ (n x val v : Nat), val < 15 → maxCI4bCols mem buf n x val = .ok v →
      val ≤ v ∧ v < 15
        ∧ (∀ i, x ≤ i → i < x + n →
            readU8 mem (buf + (i : Int)) >>> 4 ≤ v ∧ readU8 mem (buf + (i : Int)) &&& 0xF ≤ v)
        ∧ (v = val ∨ ∃ i, x ≤ i ∧ i < x + n ∧
            (readU8 mem (buf + (i : Int)) >>> 4 = v ∨ readU8 mem (buf + (i : Int)) &&& 0xF = v)) := by
  intro n
  induction n with
  | zero =>
    intro x val v hval h
    simp only [maxCI4bCols, Except.ok.injEq] at h
    subst h
    exact ⟨le_refl _, hval, fun i h1 h2 => by omega, Or.inl rfl⟩
  | succ n ih =>
    intro x val v hval h
    have hhi := nibble_hi_le mem (buf + (x : Int))
    have hlo := nibble_lo_le mem (buf + (x : Int))
    obtain ⟨m, hm, m1, m2, m3, m4⟩ :=
      ci4_update val (readU8 mem (buf + (x : Int)) >>> 4) (readU8 mem (buf + (x : Int)) &&& 0xF)
    simp only [maxCI4bCols, hm] at h
    by_cases h15 : m = 15
    · rw [if_pos h15] at h; simp at h
    · rw [if_neg h15] at h
      obtain ⟨h1, h2, h3, h4⟩ := ih (x + 1) m v (by omega) h
      refine ⟨by omega, h2, ?_, ?_⟩
      · intro i hi1 hi2
        by_cases hix : i = x
        · subst hix; exact ⟨by omega, by omega⟩
        · exact h3 i (by omega) (by omega)
      · rcases h4 with h4 | ⟨i, hi1, hi2, hi3⟩
        · by_cases hv : v = val
          · exact Or.inl hv
          · right
            refine ⟨x, le_refl _, by omega, ?_⟩
            omega
        · exact Or.inr ⟨i, by omega, by omega, hi3⟩

theorem maxCI4bCols_error (mem : Mem) (buf : Int) :
    ∀ (n x val v : Nat), val < 15 → maxCI4bCols mem buf n x val = .error v →
      v = 15 ∧ ∃ i, x ≤ i ∧ i < x + n ∧
        (readU8 mem (buf + (i : Int)) >>> 4 = 15 ∨ readU8 mem (buf + (i : Int)) &&& 0xF = 15) := by
  intro n
  induction n with
  | zero =>
    intro x val v _ h
    simp [maxCI4bCols] at h
  | succ n ih =>
    intro x val v hval h
    have hhi := nibble_hi_le mem (buf + (x : Int))
    have hlo := nibble_lo_le mem (buf + (x : Int))
    obtain ⟨m, hm, m1, m2, m3, m4⟩ :=
      ci4_update val (readU8 mem (buf + (x : Int)) >>> 4) (readU8 mem (buf + (x : Int)) &&& 0xF)
    simp only [maxCI4bCols, hm] at h
    by_cases h15 : m = 15
    · rw [if_pos h15] at h
      simp only [Except.error.injEq] at h
      refine ⟨h.symm, x, le_refl _, by omega, ?_⟩
      omega
    · rw [if_neg h15] at h
      obtain ⟨h1, i, hi1, hi2, hi3⟩ := ih (x + 1) m v (by omega) h
      exact ⟨h1, i, by omega, by omega, hi3⟩

theorem maxCI4bRows_spec (mem : Mem) (src : Int) (w rs : Nat) :
    ∀ (n y val : Nat), val < 15 →
      val ≤ maxCI4bRows mem src w rs n y val
      ∧ (∀ j, y ≤ j → j < y + n → ∀ p, p < 2 * w →
          ci4Index mem src rs j p ≤ maxCI4bRows mem src w rs n y val)
      ∧ (maxCI4bRows mem src w rs n y val = val
          ∨ ∃ j, y ≤ j ∧ j < y + n ∧ ∃ p, p < 2 * w ∧
              ci4Index mem src rs j p = maxCI4bRows mem src w rs n y val) := by
  intro n
  induction n with
  | zero =>
    intro y val _
    exact ⟨le_refl _, fun j h1 h2 => by omega, Or.inl rfl⟩
  | succ n ih =>
    intro y val hval
    simp only [maxCI4bRows]
    have hidx : ∀ p, ci4Index mem src rs y p
        = if p % 2 = 0 then
            readU8 mem (src + ((rs * y % 4294967296 : Nat) : Int) + ((p / 2 : Nat) : Int)) >>> 4
          else
            readU8 mem (src + ((rs * y % 4294967296 : Nat) : Int) + ((p / 2 : Nat) : Int)) &&& 0xF :=
      fun p => rfl
    cases hc : maxCI4bCols mem (src + ((rs * y % 4294967296 : Nat) : Int)) w 0 val with
    | error v =>
      obtain ⟨h1, i, _, hi2, hi3⟩ := maxCI4bCols_error mem _ w 0 val v hval hc
      subst h1
      simp only
      refine ⟨by omega, ?_, Or.inr ⟨y, le_refl _, by omega, ?_⟩⟩
      · intro j _ _ p _
        unfold ci4Index
        split
        · exact nibble_hi_le _ _
        · exact nibble_lo_le _ _
      · rcases hi3 with hi3 | hi3
        · refine ⟨2 * i, by omega, ?_⟩
          rw [hidx, if_pos (by omega), show 2 * i / 2 = i by omega]
          exact hi3
        · refine ⟨2 * i + 1, by omega, ?_⟩
          rw [hidx, if_neg (by omega), show (2 * i + 1) / 2 = i by omega]
          exact hi3
    | ok v =>
      obtain ⟨h1, h2, h3, h4⟩ := maxCI4bCols_ok mem _ w 0 val v hval hc
      obtain ⟨g1, g2, g3⟩ := ih (y + 1) v h2
      simp only
      refine ⟨by omega, ?_, ?_⟩
      · intro j hj1 hj2 p hp
        by_cases hjy : j = y
        · subst hjy
          have := h3 (p / 2) (by omega) (by omega)
          rw [hidx]
          split
          · exact le_trans this.1 g1
          · exact le_trans this.2 g1
        · exact g2 j (by omega) (by omega) p hp
      · rcases g3 with g3 | ⟨j, hj1, hj2, p, hp, hjp⟩
        · rcases h4 with h4 | ⟨i, _, hi2, hi3⟩
          · left; rw [g3, h4]
          · right
            refine ⟨y, le_refl _, by omega, ?_⟩
            rw [g3]
            rcases hi3 with hi3 | hi3
            · refine ⟨2 * i, by omega, ?_⟩
              rw [hidx, if_pos (by omega), show 2 * i / 2 = i by omega]
              exact hi3
            · refine ⟨2 * i + 1, by omega, ?_⟩
              rw [hidx, if_neg (by omega), show (2 * i + 1) / 2 = i by omega]
              exact hi3
        · exact Or.inr ⟨j, by omega, by omega, p, hp, hjp⟩

/-- C7, as stated, fails: a region of one row of one pixel whose byte is 0x99
holds the index 9, and the scan, which covers `width >> 1 = 0` bytes, yields
`cimax = 0`. -/
theorem C7_counterexample_odd_width :
    ¬ IsMaxIndex (ci4Index (memOfList [0x99]) 0 1) 1 1
        (RiceCRC32_CI4 (memOfList [0x99]) 0 1 1 1).cimax := by
  intro h
  have h1 := h.1 0 (by decide) 0 (by decide)
  revert h1
  decide

/-- C7, amended: the `cimax` of `RiceCRC32_CI4` and the `cimax` of
`StrongCRC32_CI4` are, for every region, the maximum of the `2 * (width / 2)`
indices packed in the first `width / 2` bytes of each row (all `width` indices
of the row when `width` is even; the last index of an odd-width row is not
scanned); a buffer whose largest nibble is 9 gives 9 with both variants, and
the one-pixel region holding 0x99 gives 0 with both. -/
theorem C7_cimax_CI4_is_max_of_scanned (xxh : List Nat → Nat) (mem : Mem)
    (src width height rowStride : Int) :
    IsMaxIndex (ci4Index mem src (toU32 rowStride)) (2 * (toU32 width / 2)) (toU32 height)
        (RiceCRC32_CI4 mem src width height rowStride).cimax
      ∧ IsMaxIndex (ci4Index mem src (toU32 rowStride)) (2 * (toU32 width / 2)) (toU32 height)
        (StrongCRC32_CI4 xxh mem src width height rowStride).cimax
      ∧ (RiceCRC32_CI4 (memOfList [0x19, 0x23]) 0 4 1 2).cimax = 9
      ∧ (StrongCRC32_CI4 List.sum (memOfList [0x19, 0x23]) 0 4 1 2).cimax = 9
      ∧ (RiceCRC32_CI4 (memOfList [0x99]) 0 1 1 1).cimax = 0
      ∧ (StrongCRC32_CI4 List.sum (memOfList [0x99]) 0 1 1 1).cimax = 0 := by
  have key : IsMaxIndex (ci4Index mem src (toU32 rowStride)) (2 * (toU32 width / 2))
      (toU32 height) (CalculateMaxCI4b mem src (toU32 width) (toU32 height) (toU32 rowStride)) := by
    obtain ⟨_, h2, h3⟩ :=
      maxCI4bRows_spec mem src (toU32 width / 2) (toU32 rowStride) (toU32 height) 0 0 (by omega)
    unfold CalculateMaxCI4b
    rw [Nat.shiftRight_eq_div_pow, show 2 ^ 1 = 2 from rfl]
    refine ⟨fun y hy x hx => h2 y (by omega) (by omega) x hx, ?_⟩
    rcases h3 with h3 | ⟨j, _, hj, i, hi, hji⟩
    · exact Or.inl h3
    · exact Or.inr ⟨j, by omega, i, hi, hji⟩
  exact ⟨key, key, by decide, by decide, by decide, by decide⟩

/-! ## The strong checksum -/

theorem readBytes_length (mem : Mem) : ∀ (n : Nat) (a : Int), (readBytes mem a n).length = n := by
  intro n
  induction n with
  | zero => intro a; rfl
  | succ n ih => intro a; simp only [readBytes, List.length_cons, ih]

theorem strongRowBytes_length (mem : Mem) (b : Nat) (src : Int) :
    (strongRowBytes mem b src).length = if b < 4 then 4 else b := by
  unfold strongRowBytes
  split <;> exact readBytes_length _ _ _

theorem strongCopy_length (mem : Mem) (b : Nat) (rs : Int) :
    ∀ (n : Nat) (src : Int) (data : List Nat),
      (strongCopy mem b rs n src data).length = data.length + n * (if b < 4 then 4 else b) := by
  intro n
  induction n with
  | zero => intro src data; simp [strongCopy]
  | succ n ih =>
    intro src data
    simp only [strongCopy, ih, List.length_append, strongRowBytes_length]
    ring

theorem strongCopy_eq_foldl (mem : Mem) (b : Nat) (rs : Int) (hb : 4 ≤ b) :
    ∀ (n : Nat) (src : Int) (data : List Nat),
      strongCopy mem b rs n src data
        = (List.range n).foldl
            (fun (l : List Nat) (k : Nat) => l ++ readBytes mem (src + (k : Int) * rs) b) data := by
  intro n
  induction n with
  | zero => intro src data; rfl
  | succ n ih =>
    intro src data
    have hrow : strongRowBytes mem b src = readBytes mem src b := by
      unfold strongRowBytes; rw [if_neg (by omega)]
    simp only [strongCopy, hrow]
    rw [ih, List.range_succ_eq_map, List.foldl_cons, List.foldl_map]
    simp only [Nat.cast_zero, zero_mul, add_zero]
    congr 1
    funext l k
    have h1 : src + rs + (k : Int) * rs = src + ((k.succ : Nat) : Int) * rs := by
      push_cast; ring
    rw [h1]

theorem Uint64ToUint32_eq_fold32 (t : Nat) :
    Uint64ToUint32 t = fold32 (t % 18446744073709551616) := by
  unfold Uint64ToUint32 fold32
  have ht : t % 18446744073709551616 < 18446744073709551616 := Nat.mod_lt _ (by omega)
  generalize t % 18446744073709551616 = u at ht
  have h1 : u &&& 0xFFFFFFFF = u % 4294967296 := Nat.and_pow_two_sub_one_eq_mod u 32
  have h2 : u >>> 32 < 2 ^ 32 := by
    rw [Nat.shiftRight_eq_div_pow]; omega
  have h3 : u % 4294967296 < 2 ^ 32 := by omega
  rw [h1]
  exact Nat.mod_eq_of_lt (Nat.xor_lt_two_pow h3 h2)

/-- The rows fit the vector whenever the `uint32` product that sizes it does
not wrap (and `height` is a non-negative `int`). -/
theorem strong_rows_fit_of_no_wrap (width height size rowStride : Int)
    (hh : 0 ≤ height) (hh2 : height < 2147483648)
    (hnw : height.toNat * max (bytesPerLine width size) (toU32 rowStride) < 4294967296) :
    height.toNat * bytesPerLine width size ≤ strongBufSize width height size rowStride := by
  have hu : toU32 height = height.toNat := by unfold toU32; omega
  unfold strongBufSize
  rw [hu, Nat.mod_eq_of_lt hnw]
  exact Nat.mul_le_mul_left _ (Nat.le_max_left _ _)

/-- Wherever the copied rows fit the allocated vector (`height * bytesPerLine`
is at most the `uint32` product `height * max(bytesPerLine, rowStride)`), and
`bytesPerLine ≥ 4`, `StrongCRC32` returns `fold32` of the 64-bit hash of the
rows laid end to end (`height.toNat` rows: none when `height ≤ 0`). -/
theorem StrongCRC32_eq_fold32_of_rows (xxh : List Nat → Nat) (mem : Mem)
    (src width height size rowStride : Int) (hb : 4 ≤ bytesPerLine width size)
    (hfit : height.toNat * bytesPerLine width size ≤ strongBufSize width height size rowStride) :
    StrongCRC32 xxh mem src width height size rowStride
      = some (fold32 (xxh (linearRows mem src (bytesPerLine width size) height.toNat rowStride)
                % 18446744073709551616)) := by
  unfold StrongCRC32
  simp only
  have hlen := strongCopy_length mem (bytesPerLine width size) rowStride height.toNat src []
  rw [if_neg (by omega)] at hlen
  simp only [List.length_nil, Nat.zero_add] at hlen
  rw [if_pos (by rw [hlen]; exact hfit), Uint64ToUint32_eq_fold32,
    strongCopy_eq_foldl mem _ rowStride hb]
  rfl

/-- The value of `StrongCRC32_eq_fold32_of_rows` on two rows of four bytes laid
out with a row stride of 6. -/
theorem StrongCRC32_two_rows :
    StrongCRC32 List.sum (memOfList [1, 2, 3, 4, 0, 0, 5, 6, 7, 8]) 0 4 2 1 6
      = some (fold32 (List.sum
          (linearRows (memOfList [1, 2, 3, 4, 0, 0, 5, 6, 7, 8]) 0 (bytesPerLine 4 1)
            (2 : Int).toNat 6) % 18446744073709551616)) :=
  StrongCRC32_eq_fold32_of_rows List.sum _ 0 4 2 1 6 (by decide) (by decide)

/-- C8, the code at the failing input: for a 4x4 region of 32-bit pixels at
address 64 with a row stride of 2^30 the conditions of the claim hold
(`height = 4 ≥ 0`, `bytesPerLine = 16 ≥ 4`), the rows to hash are 64 bytes, the
`uint32` product that sizes the vector wraps to 0, and the copy of the first
row already writes past the empty vector, so that `StrongCRC32` has no value
where the claim gives `fold32` of the hash of the 64 bytes. -/
theorem C8_vector_size_wraps_at_failing_input :
    (0 : Int) ≤ 4 ∧ 4 ≤ bytesPerLine 4 3
      ∧ (linearRows (memOfList []) 64 (bytesPerLine 4 3) 4 1073741824).length = 64
      ∧ toU32 4 * max (bytesPerLine 4 3) (toU32 1073741824) = 4294967296
      ∧ strongBufSize 4 4 3 1073741824 = 0
      ∧ (strongCopy (memOfList []) (bytesPerLine 4 3) 1073741824 (4 : Int).toNat 64 []).length
          = 64
      ∧ StrongCRC32 List.sum (memOfList []) 64 4 4 3 1073741824 = none
      ∧ StrongCRC32 List.sum (memOfList []) 64 4 4 3 1073741824
          ≠ some (fold32 (List.sum (linearRows (memOfList []) 64 (bytesPerLine 4 3) 4 1073741824)
                    % 18446744073709551616)) :=
  ⟨by decide, by decide, by decide, by decide, by decide, by decide, by decide, by decide⟩

/-! ## Row padding is not read -/

theorem readBytes_congr (mem1 mem2 : Mem) :
    ∀ (n : Nat) (a1 a2 : Int),
      (∀ j : Nat, j < n → readU8 mem1 (a1 + (j : Int)) = readU8 mem2 (a2 + (j : Int))) →
      readBytes mem1 a1 n = readBytes mem2 a2 n := by
  intro n
  induction n with
  | zero => intro a1 a2 _; rfl
  | succ n ih =>
    intro a1 a2 h
    simp only [readBytes]
    have h0 := h 0 (by omega)
    simp only [Nat.cast_zero, add_zero] at h0
    rw [h0, ih (a1 + 1) (a2 + 1)]
    intro j hj
    have := h (j + 1) (by omega)
    have e1 : a1 + 1 + (j : Int) = a1 + ((j + 1 : Nat) : Int) := by push_cast; ring
    have e2 : a2 + 1 + (j : Int) = a2 + ((j + 1 : Nat) : Int) := by push_cast; ring
    rw [e1, e2]; exact this

theorem readU32_congr (mem1 mem2 : Mem) (a1 a2 : Int)
    (h : ∀ j : Nat, j < 4 → readU8 mem1 (a1 + (j : Int)) = readU8 mem2 (a2 + (j : Int))) :
    readU32 mem1 a1 = readU32 mem2 a2 := by
  have h0 := h 0 (by omega)
  have h1 := h 1 (by omega)
  have h2 := h 2 (by omega)
  have h3 := h 3 (by omega)
  simp only [Nat.cast_zero, add_zero, Nat.cast_one, Nat.cast_ofNat] at h0 h1 h2 h3
  unfold readU32
  rw [h0, h1, h2, h3]

theorem refOffsets_mem (b x : Nat) (h : x ∈ refOffsets b) : x + 4 ≤ b := by
  unfold refOffsets at h
  simp only [List.mem_map, List.mem_range] at h
  obtain ⟨i, hi, rfl⟩ := h
  omega

theorem refRow_congr (mem1 mem2 : Mem) (row1 row2 : Int) (b y acc : Nat)
    (h : ∀ j : Nat, j < b → readU8 mem1 (row1 + (j : Int)) = readU8 mem2 (row2 + (j : Int))) :
    refRow mem1 row1 b y acc = refRow mem2 row2 b y acc := by
  unfold refRow
  have hf : (refOffsets b).foldl (refWordStep mem1 row1) (acc, 0)
      = (refOffsets b).foldl (refWordStep mem2 row2) (acc, 0) := by
    apply List.foldl_ext
    intro s x hx
    have hx4 := refOffsets_mem b x hx
    unfold refWordStep
    have : readU32 mem1 (row1 + (x : Int)) = readU32 mem2 (row2 + (x : Int)) := by
      apply readU32_congr
      intro j hj
      have := h (x + j) (by omega)
      have e1 : row1 + (x : Int) + (j : Int) = row1 + ((x + j : Nat) : Int) := by push_cast; ring
      have e2 : row2 + (x : Int) + (j : Int) = row2 + ((x + j : Nat) : Int) := by push_cast; ring
      rw [e1, e2]; exact this
    rw [this]
  rw [hf]

theorem riceReference_congr (mem1 mem2 : Mem) (src1 src2 : Int) (b n : Nat) (rs : Int)
    (h : ∀ k : Nat, k < n → ∀ j : Nat, j < b →
      readU8 mem1 (src1 + (k : Int) * rs + (j : Int)) = readU8 mem2 (src2 + (k : Int) * rs + (j : Int))) :
    riceReference mem1 src1 b n rs = riceReference mem2 src2 b n rs := by
  unfold riceReference
  apply List.foldl_ext
  intro acc k hk
  exact refRow_congr _ _ _ _ _ _ _ (h k (List.mem_range.mp hk))

theorem linearRows_congr (mem1 mem2 : Mem) (src1 src2 : Int) (b n : Nat) (rs : Int)
    (h : ∀ k : Nat, k < n → ∀ j : Nat, j < b →
      readU8 mem1 (src1 + (k : Int) * rs + (j : Int)) = readU8 mem2 (src2 + (k : Int) * rs + (j : Int))) :
    linearRows mem1 src1 b n rs = linearRows mem2 src2 b n rs := by
  unfold linearRows
  apply List.foldl_ext
  intro l k hk
  rw [readBytes_congr mem1 mem2 b _ _ (h k (List.mem_range.mp hk))]

theorem StrongCRC32_congr (xxh : List Nat → Nat) (mem1 mem2 : Mem)
    (src1 src2 width height size rowStride : Int) (hb : 4 ≤ bytesPerLine width size)
    (h : ∀ k : Nat, k < height.toNat → ∀ j : Nat, j < bytesPerLine width size →
      readU8 mem1 (src1 + (k : Int) * rowStride + (j : Int))
        = readU8 mem2 (src2 + (k : Int) * rowStride + (j : Int))) :
    StrongCRC32 xxh mem1 src1 width height size rowStride
      = StrongCRC32 xxh mem2 src2 width height size rowStride := by
  unfold StrongCRC32
  simp only [strongCopy_eq_foldl _ _ rowStride hb]
  have := linearRows_congr mem1 mem2 src1 src2 _ _ rowStride h
  unfold linearRows at this
  rw [this]

theorem RiceCRC32_congr (mem1 mem2 : Mem) (src1 src2 width height size rowStride : Int)
    (hh : 1 ≤ height) (hh2 : height < 2147483648) (hb : 4 ≤ bytesPerLineInt width size)
    (h : ∀ k : Nat, k < height.toNat → ∀ j : Nat, j < bytesPerLine width size →
      readU8 mem1 (src1 + (k : Int) * rowStride + (j : Int))
        = readU8 mem2 (src2 + (k : Int) * rowStride + (j : Int))) :
    RiceCRC32 mem1 src1 width height size rowStride
      = RiceCRC32 mem2 src2 width height size rowStride := by
  rw [RiceCRC32_eq_riceReference mem1 src1 width height size rowStride hh hh2 hb,
    RiceCRC32_eq_riceReference mem2 src2 width height size rowStride hh hh2 hb]
  exact riceReference_congr _ _ _ _ _ _ _ h

/-- C9: for `height ≥ 1` and `(width << size) >> 1 ≥ 4`, two source buffers
that agree on the first `bytesPerLine` bytes of each of the `height` rows give
the same `RiceCRC32` and the same `StrongCRC32`, whatever the bytes between
the rows are and whatever `rowStride` is. -/
theorem C9_row_padding_not_hashed (xxh : List Nat → Nat) (mem1 mem2 : Mem)
    (src1 src2 width height size rowStride : Int)
    (hh : 1 ≤ height) (hh2 : height < 2147483648) (hb : 4 ≤ bytesPerLineInt width size)
    (h : ∀ k : Nat, k < height.toNat → ∀ j : Nat, j < bytesPerLine width size →
      readU8 mem1 (src1 + (k : Int) * rowStride + (j : Int))
        = readU8 mem2 (src2 + (k : Int) * rowStride + (j : Int))) :
    RiceCRC32 mem1 src1 width height size rowStride
        = RiceCRC32 mem2 src2 width height size rowStride
      ∧ StrongCRC32 xxh mem1 src1 width height size rowStride
        = StrongCRC32 xxh mem2 src2 width height size rowStride := by
  have hbl := bytesPerLine_of_int width size (by omega)
  exact ⟨RiceCRC32_congr mem1 mem2 src1 src2 width height size rowStride hh hh2 hb h,
    StrongCRC32_congr xxh mem1 mem2 src1 src2 width height size rowStride (by omega) h⟩

theorem C9_witness :
    (1 : Int) ≤ 2 ∧ (2 : Int) < 2147483648 ∧ 4 ≤ bytesPerLineInt 4 1
    ∧ (∀ k : Nat, k < (2 : Int).toNat → ∀ j : Nat, j < bytesPerLine 4 1 →
        readU8 (memOfList [1, 2, 3, 4, 9, 9, 5, 6, 7, 8]) (0 + (k : Int) * 6 + (j : Int))
          = readU8 (memOfList [1, 2, 3, 4, 0, 0, 5, 6, 7, 8]) (0 + (k : Int) * 6 + (j : Int)))
    ∧ (RiceCRC32 (memOfList [1, 2, 3, 4, 9, 9, 5, 6, 7, 8]) 0 4 2 1 6
          = RiceCRC32 (memOfList [1, 2, 3, 4, 0, 0, 5, 6, 7, 8]) 0 4 2 1 6
        ∧ StrongCRC32 List.sum (memOfList [1, 2, 3, 4, 9, 9, 5, 6, 7, 8]) 0 4 2 1 6
          = StrongCRC32 List.sum (memOfList [1, 2, 3, 4, 0, 0, 5, 6, 7, 8]) 0 4 2 1 6) :=
  ⟨by decide, by decide, by decide, by decide,
    C9_row_padding_not_hashed List.sum _ _ 0 0 4 2 1 6 (by decide) (by decide) (by decide)
      (by decide)⟩

/-! ## The indexed composite path -/

theorem compose64_eq (p c : Nat) (hp : p < 4294967296) (hc : c < 4294967296) :
    compose64 p c = p * 4294967296 + c := by
  unfold compose64
  have h1 : (p <<< 32) % 18446744073709551616 = 2 ^ 32 * p := by
    rw [Nat.shiftLeft_eq]; omega
  have hc2 : c < 2 ^ 32 := by omega
  rw [h1, ← Nat.mul_add_lt_is_or hc2]
  omega

theorem lowByte_one (size : Int) (h : toU32 size &&& 0xff = 1) : (size % 32).toNat = 1 := by
  have h2 : toU32 size &&& 0xff = toU32 size % 256 := Nat.and_pow_two_sub_one_eq_mod _ 8
  rw [h2] at h
  unfold toU32 at h
  omega

theorem lowByte_zero (size : Int) (h : toU32 size &&& 0xff = 0) : (size % 32).toNat = 0 := by
  have h2 : toU32 size &&& 0xff = toU32 size % 256 := Nat.and_pow_two_sub_one_eq_mod _ 8
  rw [h2] at h
  unfold toU32 at h
  omega

theorem bytesPerLine_lowByte_one (width size : Int) (h : toU32 size &&& 0xff = 1) :
    bytesPerLine width size = bytesPerLine width 1 := by
  unfold bytesPerLine bytesPerLineInt shlInt
  rw [lowByte_one size h]; rfl

theorem bytesPerLine_lowByte_zero (width size : Int) (h : toU32 size &&& 0xff = 0) :
    bytesPerLine width size = bytesPerLine width 0 := by
  unfold bytesPerLine bytesPerLineInt shlInt
  rw [lowByte_zero size h]; rfl

theorem RiceCRC32_size_congr (mem : Mem) (src width height s1 s2 rowStride : Int)
    (h : bytesPerLine width s1 = bytesPerLine width s2) :
    RiceCRC32 mem src width height s1 rowStride = RiceCRC32 mem src width height s2 rowStride := by
  unfold RiceCRC32; rw [h]

theorem StrongCRC32_size_congr (xxh : List Nat → Nat) (mem : Mem)
    (src width height s1 s2 rowStride : Int)
    (h : bytesPerLine width s1 = bytesPerLine width s2) :
    StrongCRC32 xxh mem src width height s1 rowStride
      = StrongCRC32 xxh mem src width height s2 rowStride := by
  unfold StrongCRC32 strongBufSize; rw [h]

theorem checksum64_ci8 (mem : Mem) (src width height size rowStride palette : Int)
    (hs : src ≠ 0) (hp : palette ≠ 0) (h1 : toU32 size &&& 0xff = 1) :
    checksum64 mem src width height size rowStride palette
      = if compose64
            (RiceCRC32 mem palette
              (((RiceCRC32_CI8 mem src width height rowStride).cimax : Int) + 1) 1 2 512)
            (RiceCRC32_CI8 mem src width height rowStride).crc32 = 0
        then RiceCRC32 mem src width height size rowStride
        else compose64
            (RiceCRC32 mem palette
              (((RiceCRC32_CI8 mem src width height rowStride).cimax : Int) + 1) 1 2 512)
            (RiceCRC32_CI8 mem src width height rowStride).crc32 := by
  have hret : (RiceCRC32_CI8 mem src width height rowStride).ret = true := rfl
  unfold checksum64
  rw [if_neg hs, if_pos hp, h1]
  simp only [hret, if_true]

theorem checksum64_ci4 (mem : Mem) (src width height size rowStride palette : Int)
    (hs : src ≠ 0) (hp : palette ≠ 0) (h0 : toU32 size &&& 0xff = 0) :
    checksum64 mem src width height size rowStride palette
      = if compose64
            (RiceCRC32 mem palette
              (((RiceCRC32_CI4 mem src width height rowStride).cimax : Int) + 1) 1 2 32)
            (RiceCRC32_CI4 mem src width height rowStride).crc32 = 0
        then RiceCRC32 mem src width height size rowStride
        else compose64
            (RiceCRC32 mem palette
              (((RiceCRC32_CI4 mem src width height rowStride).cimax : Int) + 1) 1 2 32)
            (RiceCRC32_CI4 mem src width height rowStride).crc32 := by
  have hret : (RiceCRC32_CI4 mem src width height rowStride).ret = true := rfl
  unfold checksum64
  rw [if_neg hs, if_pos hp, h0]
  simp only [hret, if_true]

theorem composite_split (p c fallback : Nat) (hp : p < 4294967296) (hc : c < 4294967296)
    (hfb : fallback = c) :
    (if compose64 p c = 0 then fallback else compose64 p c) / 4294967296 = p
      ∧ (if compose64 p c = 0 then fallback else compose64 p c) % 4294967296 = c := by
  rw [compose64_eq p c hp hc]
  split
  · subst hfb; omega
  · omega

theorem StrongCRC32_palette_some (xxh : List Nat → Nat) (mem : Mem) (palette width stride : Int)
    (h4 : 4 ≤ stride) (hlt : stride < 4294967296) :
    ∃ p, StrongCRC32 xxh mem palette width 1 2 stride = some p := by
  unfold StrongCRC32
  simp only
  have hlen := strongCopy_length mem (bytesPerLine width 2) stride (1 : Int).toNat palette []
  have hb : bytesPerLine width 2 < 4294967296 := toU32_lt _
  have h1 : (1 : Int).toNat = 1 := rfl
  have hu1 : toU32 1 = 1 := by decide
  have hus : toU32 stride = stride.toNat := by unfold toU32; omega
  rw [if_pos]
  · exact ⟨_, rfl⟩
  · rw [hlen, h1]
    unfold strongBufSize
    rw [hu1, hus]
    simp only [List.length_nil, Nat.zero_add, Nat.one_mul]
    by_cases hc : bytesPerLine width 2 < 4
    · rw [if_pos hc]
      have : max (bytesPerLine width 2) stride.toNat = stride.toNat := by
        apply Nat.max_eq_right; omega
      rw [this]; omega
    · rw [if_neg hc]
      rcases Nat.le_total (bytesPerLine width 2) stride.toNat with hle | hle
      · rw [Nat.max_eq_right hle]; omega
      · rw [Nat.max_eq_left hle]; omega

/-- The strong engine returns whenever the bytes it copies, `height` rows of
`bytesPerLine` bytes (of 4 bytes when `bytesPerLine < 4`), fit the allocated
vector; its value is then the folded hash of the copied bytes. -/
theorem StrongCRC32_some_of_fit (xxh : List Nat → Nat) (mem : Mem)
    (src width height size rowStride : Int)
    (hfit : height.toNat * (if bytesPerLine width size < 4 then 4 else bytesPerLine width size)
      ≤ strongBufSize width height size rowStride) :
    StrongCRC32 xxh mem src width height size rowStride
      = some (Uint64ToUint32
          (xxh (strongCopy mem (bytesPerLine width size) rowStride height.toNat src []))) := by
  unfold StrongCRC32
  simp only
  rw [if_pos]
  rw [strongCopy_length]
  simpa using hfit

theorem checksum64strong_ci8 (xxh : List Nat → Nat) (mem : Mem)
    (src width height size rowStride palette : Int)
    (hs : src ≠ 0) (hp : palette ≠ 0) (h1 : toU32 size &&& 0xff = 1) :
    checksum64strong xxh mem src width height size rowStride palette
      = ((StrongCRC32 xxh mem src width height 1 rowStride).bind fun c =>
          (StrongCRC32 xxh mem palette
            (((CalculateMaxCI8b mem src (toU32 width) (toU32 height) (toU32 rowStride) : Nat)
              : Int) + 1) 1 2 512).map fun p => compose64 p c).bind fun crc64Ret =>
          if crc64Ret = 0 then StrongCRC32 xxh mem src width height size rowStride
          else some crc64Ret := by
  unfold checksum64strong strongPaletteBlock
  rw [if_neg hs, if_pos hp, h1]
  simp only [StrongCRC32_CI8, if_true]

theorem checksum64strong_ci4 (xxh : List Nat → Nat) (mem : Mem)
    (src width height size rowStride palette : Int)
    (hs : src ≠ 0) (hp : palette ≠ 0) (h0 : toU32 size &&& 0xff = 0) :
    checksum64strong xxh mem src width height size rowStride palette
      = ((StrongCRC32 xxh mem src width height 0 rowStride).bind fun c =>
          (StrongCRC32 xxh mem palette
            (((CalculateMaxCI4b mem src (toU32 width) (toU32 height) (toU32 rowStride) : Nat)
              : Int) + 1) 1 2 32).map fun p => compose64 p c).bind fun crc64Ret =>
          if crc64Ret = 0 then StrongCRC32 xxh mem src width height size rowStride
          else some crc64Ret := by
  unfold checksum64strong strongPaletteBlock
  rw [if_neg hs, if_pos hp, h0]
  simp only [StrongCRC32_CI4, if_true]

/-- The strong composite in closed form: with the palette checksum `p` and the
pixel checksum `crc` (an optional value, equal to the fallback checksum), the
composite is `p * 2^32 + c` whenever the pixel checksum is `c`, and has no
value when the pixel checksum has none. -/
theorem strong_composite_closed (p : Nat) (crc fallback : Option Nat) (hp : p < 4294967296)
    (hc : ∀ c, crc = some c → c < 4294967296) (hfb : fallback = crc) :
    ((crc.bind fun c => (some p).map fun q => compose64 q c).bind fun crc64Ret =>
        if crc64Ret = 0 then fallback else some crc64Ret)
      = crc.map fun c => p * 4294967296 + c := by
  cases crc with
  | none => rfl
  | some c =>
    have hc2 := hc c rfl
    simp only [Option.some_bind, Option.map_some']
    rw [compose64_eq p c hp hc2]
    split
    · rw [hfb]; congr 1; omega
    · rfl

theorem strong_halves (p : Nat) (crc r : Option Nat)
    (hc : ∀ c, crc = some c → c < 4294967296)
    (hr : r = crc.map fun c => p * 4294967296 + c) :
    r.map (fun v => v / 4294967296) = crc.map (fun _ => p)
      ∧ r.map (fun v => v % 4294967296) = crc := by
  subst hr
  cases crc with
  | none => exact ⟨rfl, rfl⟩
  | some c =>
    have hc2 := hc c rfl
    simp only [Option.map_some', Option.some.injEq]
    constructor <;> omega

/-- C2: with non-null `src` and `palette` and the low byte of `size` equal to
1 (resp. 0), the upper 32 bits of `checksum64` are `RiceCRC32` of the palette
alone over `cimax + 1` entries with stride 512 (resp. 32) and its lower 32 bits
are the checksum of `RiceCRC32_CI8` (resp. `RiceCRC32_CI4`).  Likewise for
`checksum64strong`: the palette `StrongCRC32` over `cimax + 1` entries always
returns, say `p`; the composite is `p * 2^32 + c` for the pixel checksum `c` of
`StrongCRC32_CI8` (resp. `StrongCRC32_CI4`), so its upper 32 bits are `p` and
its lower 32 bits are `c`; the composite has a value exactly when the pixel
checksum has one, and both have one whenever the copied pixel rows fit the
vector of `StrongCRC32`. -/
theorem C2_composite_halves (xxh : List Nat → Nat) (mem : Mem)
    (src width height size rowStride palette : Int) (hs : src ≠ 0) (hp : palette ≠ 0) :
    (toU32 size &&& 0xff = 1 →
      (checksum64 mem src width height size rowStride palette / 4294967296
          = RiceCRC32 mem palette
              (((RiceCRC32_CI8 mem src width height rowStride).cimax : Int) + 1) 1 2 512
        ∧ checksum64 mem src width height size rowStride palette % 4294967296
          = (RiceCRC32_CI8 mem src width height rowStride).crc32)
      ∧ ∃ p, StrongCRC32 xxh mem palette
              (((StrongCRC32_CI8 xxh mem src width height rowStride).cimax : Int) + 1) 1 2 512
            = some p
          ∧ checksum64strong xxh mem src width height size rowStride palette
            = (StrongCRC32_CI8 xxh mem src width height rowStride).crc32.map
                (fun c => p * 4294967296 + c)
          ∧ (checksum64strong xxh mem src width height size rowStride palette).map
                (fun v => v / 4294967296)
            = (StrongCRC32_CI8 xxh mem src width height rowStride).crc32.map (fun _ => p)
          ∧ (checksum64strong xxh mem src width height size rowStride palette).map
                (fun v => v % 4294967296)
            = (StrongCRC32_CI8 xxh mem src width height rowStride).crc32
          ∧ (height.toNat * (if bytesPerLine width 1 < 4 then 4 else bytesPerLine width 1)
                ≤ strongBufSize width height 1 rowStride →
              ∃ c v, (StrongCRC32_CI8 xxh mem src width height rowStride).crc32 = some c
                ∧ checksum64strong xxh mem src width height size rowStride palette = some v
                ∧ v / 4294967296 = p ∧ v % 4294967296 = c))
    ∧ (toU32 size &&& 0xff = 0 →
      (checksum64 mem src width height size rowStride palette / 4294967296
          = RiceCRC32 mem palette
              (((RiceCRC32_CI4 mem src width height rowStride).cimax : Int) + 1) 1 2 32
        ∧ checksum64 mem src width height size rowStride palette % 4294967296
          = (RiceCRC32_CI4 mem src width height rowStride).crc32)
      ∧ ∃ p, StrongCRC32 xxh mem palette
              (((StrongCRC32_CI4 xxh mem src width height rowStride).cimax : Int) + 1) 1 2 32
            = some p
          ∧ checksum64strong xxh mem src width height size rowStride palette
            = (StrongCRC32_CI4 xxh mem src width height rowStride).crc32.map
                (fun c => p * 4294967296 + c)
          ∧ (checksum64strong xxh mem src width height size rowStride palette).map
                (fun v => v / 4294967296)
            = (StrongCRC32_CI4 xxh mem src width height rowStride).crc32.map (fun _ => p)
          ∧ (checksum64strong xxh mem src width height size rowStride palette).map
                (fun v => v % 4294967296)
            = (StrongCRC32_CI4 xxh mem src width height rowStride).crc32
          ∧ (height.toNat * (if bytesPerLine width 0 < 4 then 4 else bytesPerLine width 0)
                ≤ strongBufSize width height 0 rowStride →
              ∃ c v, (StrongCRC32_CI4 xxh mem src width height rowStride).crc32 = some c
                ∧ checksum64strong xxh mem src width height size rowStride palette = some v
                ∧ v / 4294967296 = p ∧ v % 4294967296 = c)) := by
  constructor
  · intro h1
    have hsz := bytesPerLine_lowByte_one width size h1
    constructor
    · rw [checksum64_ci8 mem src width height size rowStride palette hs hp h1]
      exact composite_split _ _ _ (RiceCRC32_lt _ _ _ _ _ _) (RiceCRC32_lt _ _ _ _ _ _)
        (RiceCRC32_size_congr mem src width height size 1 rowStride hsz)
    · have hcrc : (StrongCRC32_CI8 xxh mem src width height rowStride).crc32
          = StrongCRC32 xxh mem src width height 1 rowStride := rfl
      have hcim : (StrongCRC32_CI8 xxh mem src width height rowStride).cimax
          = CalculateMaxCI8b mem src (toU32 width) (toU32 height) (toU32 rowStride) := rfl
      obtain ⟨p, hpal⟩ := StrongCRC32_palette_some xxh mem palette
        (((StrongCRC32_CI8 xxh mem src width height rowStride).cimax : Int) + 1) 512
        (by omega) (by omega)
      have hplt := StrongCRC32_lt _ _ _ _ _ _ _ _ hpal
      have hclt : ∀ c, StrongCRC32 xxh mem src width height 1 rowStride = some c →
          c < 4294967296 := fun c hc => StrongCRC32_lt _ _ _ _ _ _ _ _ hc
      have hcomp : checksum64strong xxh mem src width height size rowStride palette
          = (StrongCRC32 xxh mem src width height 1 rowStride).map
              (fun c => p * 4294967296 + c) := by
        rw [checksum64strong_ci8 xxh mem src width height size rowStride palette hs hp h1]
        rw [hcim] at hpal
        rw [hpal]
        exact strong_composite_closed p _ _ hplt hclt
          (StrongCRC32_size_congr xxh mem src width height size 1 rowStride hsz)
      obtain ⟨hup, hlow⟩ := strong_halves p _ _ hclt hcomp
      refine ⟨p, hpal, by rw [hcrc]; exact hcomp, by rw [hcrc]; exact hup,
        by rw [hcrc]; exact hlow, ?_⟩
      intro hfit
      have hsome := StrongCRC32_some_of_fit xxh mem src width height 1 rowStride hfit
      have hult := Uint64ToUint32_lt
        (xxh (strongCopy mem (bytesPerLine width 1) rowStride height.toNat src []))
      generalize Uint64ToUint32
        (xxh (strongCopy mem (bytesPerLine width 1) rowStride height.toNat src [])) = u
        at hsome hult
      exact ⟨u, p * 4294967296 + u, by rw [hcrc]; exact hsome, by rw [hcomp, hsome]; rfl,
        by omega, by omega⟩
  · intro h0
    have hsz := bytesPerLine_lowByte_zero width size h0
    constructor
    · rw [checksum64_ci4 mem src width height size rowStride palette hs hp h0]
      exact composite_split _ _ _ (RiceCRC32_lt _ _ _ _ _ _) (RiceCRC32_lt _ _ _ _ _ _)
        (RiceCRC32_size_congr mem src width height size 0 rowStride hsz)
    · have hcrc : (StrongCRC32_CI4 xxh mem src width height rowStride).crc32
          = StrongCRC32 xxh mem src width height 0 rowStride := rfl
      have hcim : (StrongCRC32_CI4 xxh mem src width height rowStride).cimax
          = CalculateMaxCI4b mem src (toU32 width) (toU32 height) (toU32 rowStride) := rfl
      obtain ⟨p, hpal⟩ := StrongCRC32_palette_some xxh mem palette
        (((StrongCRC32_CI4 xxh mem src width height rowStride).cimax : Int) + 1) 32
        (by omega) (by omega)
      have hplt := StrongCRC32_lt _ _ _ _ _ _ _ _ hpal
      have hclt : ∀ c, StrongCRC32 xxh mem src width height 0 rowStride = some c →
          c < 4294967296 := fun c hc => StrongCRC32_lt _ _ _ _ _ _ _ _ hc
      have hcomp : checksum64strong xxh mem src width height size rowStride palette
          = (StrongCRC32 xxh mem src width height 0 rowStride).map
              (fun c => p * 4294967296 + c) := by
        rw [checksum64strong_ci4 xxh mem src width height size rowStride palette hs hp h0]
        rw [hcim] at hpal
        rw [hpal]
        exact strong_composite_closed p _ _ hplt hclt
          (StrongCRC32_size_congr xxh mem src width height size 0 rowStride hsz)
      obtain ⟨hup, hlow⟩ := strong_halves p _ _ hclt hcomp
      refine ⟨p, hpal, by rw [hcrc]; exact hcomp, by rw [hcrc]; exact hup,
        by rw [hcrc]; exact hlow, ?_⟩
      intro hfit
      have hsome := StrongCRC32_some_of_fit xxh mem src width height 0 rowStride hfit
      have hult := Uint64ToUint32_lt
        (xxh (strongCopy mem (bytesPerLine width 0) rowStride height.toNat src []))
      generalize Uint64ToUint32
        (xxh (strongCopy mem (bytesPerLine width 0) rowStride height.toNat src [])) = u
        at hsome hult
      exact ⟨u, p * 4294967296 + u, by rw [hcrc]; exact hsome, by rw [hcomp, hsome]; rfl,
        by omega, by omega⟩

theorem C2_witness :
    (12 : Int) ≠ 0 ∧ (4 : Int) ≠ 0 ∧ toU32 0x101 &&& 0xff = 1 ∧ toU32 0x100 &&& 0xff = 0
    ∧ (checksum64 indexedMem 12 4 1 0x101 4 4 / 4294967296
        = RiceCRC32 indexedMem 4
            (((RiceCRC32_CI8 indexedMem 12 4 1 4).cimax : Int) + 1) 1 2 512
      ∧ checksum64 indexedMem 12 4 1 0x101 4 4 % 4294967296
        = (RiceCRC32_CI8 indexedMem 12 4 1 4).crc32)
    ∧ (∃ p c v,
        StrongCRC32 List.sum indexedMem 4
            (((StrongCRC32_CI8 List.sum indexedMem 12 4 1 4).cimax : Int) + 1) 1 2 512 = some p
        ∧ (StrongCRC32_CI8 List.sum indexedMem 12 4 1 4).crc32 = some c
        ∧ checksum64strong List.sum indexedMem 12 4 1 0x101 4 4 = some v
        ∧ v / 4294967296 = p ∧ v % 4294967296 = c)
    ∧ (checksum64 indexedMem 12 8 1 0x100 4 4 / 4294967296
        = RiceCRC32 indexedMem 4
            (((RiceCRC32_CI4 indexedMem 12 8 1 4).cimax : Int) + 1) 1 2 32
      ∧ checksum64 indexedMem 12 8 1 0x100 4 4 % 4294967296
        = (RiceCRC32_CI4 indexedMem 12 8 1 4).crc32)
    ∧ (∃ p c v,
        StrongCRC32 List.sum indexedMem 4
            (((StrongCRC32_CI4 List.sum indexedMem 12 8 1 4).cimax : Int) + 1) 1 2 32 = some p
        ∧ (StrongCRC32_CI4 List.sum indexedMem 12 8 1 4).crc32 = some c
        ∧ checksum64strong List.sum indexedMem 12 8 1 0x100 4 4 = some v
        ∧ v / 4294967296 = p ∧ v % 4294967296 = c)
    ∧ (StrongCRC32_CI8 List.sum indexedMem 12 4 1 4).cimax = 3
    ∧ StrongCRC32 List.sum indexedMem 4 (3 + 1) 1 2 512 = some 68
    ∧ (StrongCRC32_CI8 List.sum indexedMem 12 4 1 4).crc32 = some 6
    ∧ checksum64strong List.sum indexedMem 12 4 1 0x101 4 4 = some (68 * 4294967296 + 6) := by
  have h8 := (C2_composite_halves List.sum indexedMem 12 4 1 0x101 4 4
    (by decide) (by decide)).1 (by decide)
  have h4 := (C2_composite_halves List.sum indexedMem 12 8 1 0x100 4 4
    (by decide) (by decide)).2 (by decide)
  obtain ⟨p8, hp8, _, _, _, hf8⟩ := h8.2
  obtain ⟨c8, v8, hc8, hv8, hu8, hl8⟩ := hf8 (by decide)
  obtain ⟨p4, hp4, _, _, _, hf4⟩ := h4.2
  obtain ⟨c4, v4, hc4, hv4, hu4, hl4⟩ := hf4 (by decide)
  exact ⟨by decide, by decide, by decide, by decide, h8.1,
    ⟨p8, c8, v8, hp8, hc8, hv8, hu8, hl8⟩, h4.1, ⟨p4, c4, v4, hp4, hc4, hv4, hu4, hl4⟩,
    by decide, by decide, by decide, by decide⟩

/-! ## The live prefix of the palette -/

theorem CalculateMaxCI8b_le (mem : Mem) (src : Int) (w h rs : Nat) :
    CalculateMaxCI8b mem src w h rs ≤ 255 := by
  obtain ⟨_, _, h3⟩ := maxCI8bRows_spec mem src w rs h 0 0 (by omega)
  unfold CalculateMaxCI8b
  rcases h3 with h3 | ⟨j, _, _, i, _, hji⟩
  · omega
  · rw [← hji]; exact readU8_le _ _

theorem CalculateMaxCI4b_le (mem : Mem) (src : Int) (w h rs : Nat) :
    CalculateMaxCI4b mem src w h rs ≤ 255 := by
  obtain ⟨_, _, h3⟩ := maxCI4bRows_spec mem src (w >>> 1) rs h 0 0 (by omega)
  unfold CalculateMaxCI4b
  rcases h3 with h3 | ⟨j, _, _, p, _, hjp⟩
  · omega
  · rw [← hjp]
    unfold ci4Index
    split
    · exact le_trans (nibble_hi_le _ _) (by omega)
    · exact le_trans (nibble_lo_le _ _) (by omega)

theorem bytesPerLineInt_palette (c : Nat) (hc : c ≤ 255) :
    bytesPerLineInt ((c : Int) + 1) 2 = 2 * ((c : Int) + 1) := by
  have h : ((2 : Int) % 32).toNat = 2 := by decide
  unfold bytesPerLineInt sarInt1 shlInt
  rw [h]
  unfold toS32 toU32
  split <;> omega

theorem RiceCRC32_palette_congr (mem : Mem) (p1 p2 stride : Int) (c : Nat) (hc : c ≤ 255)
    (hlive : ∀ j : Nat, j < 2 * (c + 1) →
      readU8 mem (p1 + (j : Int)) = readU8 mem (p2 + (j : Int)))
    (hpre : c = 0 → readU8 mem (p1 - 2) = readU8 mem (p2 - 2)
      ∧ readU8 mem (p1 - 1) = readU8 mem (p2 - 1)) :
    RiceCRC32 mem p1 ((c : Int) + 1) 1 2 stride = RiceCRC32 mem p2 ((c : Int) + 1) 1 2 stride := by
  have hbi := bytesPerLineInt_palette c hc
  have hb : bytesPerLine ((c : Int) + 1) 2 = 2 * (c + 1) := by
    have := bytesPerLine_of_int ((c : Int) + 1) 2 (by omega)
    omega
  by_cases h0 : c = 0
  · subst h0
    obtain ⟨e2, e1⟩ := hpre rfl
    have f0 := hlive 0 (by omega)
    have f1 := hlive 1 (by omega)
    simp only [Nat.cast_zero, add_zero, Nat.cast_one] at f0 f1
    have hw : readU32 mem (p1 + (-2)) = readU32 mem (p2 + (-2)) := by
      unfold readU32
      have a0 : p1 + (-2) = p1 - 2 := by ring
      have a1 : p1 + (-2) + 1 = p1 - 1 := by ring
      have a2 : p1 + (-2) + 2 = p1 := by ring
      have a3 : p1 + (-2) + 3 = p1 + 1 := by ring
      have b0 : p2 + (-2) = p2 - 2 := by ring
      have b1 : p2 + (-2) + 1 = p2 - 1 := by ring
      have b2 : p2 + (-2) + 2 = p2 := by ring
      have b3 : p2 + (-2) + 3 = p2 + 1 := by ring
      rw [a1, a2, a3, a0, b1, b2, b3, b0, e2, e1, f0, f1]
    have hx : toS32 (2 + 4294967296 - 4) = -2 := by decide
    have hy : ((1 : Int) - 1).toNat = 0 := by decide
    have hq : (-2 : Int).toNat / 4 = 0 := by decide
    simp only [Nat.cast_zero, zero_add, Nat.mul_one] at hb
    unfold RiceCRC32
    simp only [Nat.cast_zero, zero_add, hb, hy, riceOuter, riceRow, hx, hq, riceInner, riceStep, hw]
  · apply RiceCRC32_congr mem mem p1 p2 _ 1 2 stride (by omega) (by omega) (by omega)
    intro k hk j hj
    have hk0 : k = 0 := by
      have : (1 : Int).toNat = 1 := rfl
      omega
    subst hk0
    simp only [Nat.cast_zero, zero_mul, add_zero]
    exact hlive j (by omega)

theorem StrongCRC32_palette_congr (xxh : List Nat → Nat) (mem : Mem) (p1 p2 stride : Int)
    (c : Nat) (hc : c ≤ 255)
    (hlive : ∀ j : Nat, j < 2 * (c + 1) →
      readU8 mem (p1 + (j : Int)) = readU8 mem (p2 + (j : Int)))
    (hpre : c = 0 → readU8 mem (p1 - 2) = readU8 mem (p2 - 2)
      ∧ readU8 mem (p1 - 1) = readU8 mem (p2 - 1)) :
    StrongCRC32 xxh mem p1 ((c : Int) + 1) 1 2 stride
      = StrongCRC32 xxh mem p2 ((c : Int) + 1) 1 2 stride := by
  have hbi := bytesPerLineInt_palette c hc
  have hb : bytesPerLine ((c : Int) + 1) 2 = 2 * (c + 1) := by
    have := bytesPerLine_of_int ((c : Int) + 1) 2 (by omega)
    omega
  by_cases h0 : c = 0
  · subst h0
    obtain ⟨e2, e1⟩ := hpre rfl
    have f0 := hlive 0 (by omega)
    have f1 := hlive 1 (by omega)
    simp only [Nat.cast_zero, add_zero, Nat.cast_one] at f0 f1
    have hrow : strongRowBytes mem 2 p1 = strongRowBytes mem 2 p2 := by
      unfold strongRowBytes
      rw [if_pos (by omega), if_pos (by omega)]
      apply readBytes_congr
      intro j hj
      have hj' : j = 0 ∨ j = 1 ∨ j = 2 ∨ j = 3 := by omega
      rcases hj' with rfl | rfl | rfl | rfl
      · have a : p1 - 4 + ((2 : Nat) : Int) + ((0 : Nat) : Int) = p1 - 2 := by push_cast; ring
        have b : p2 - 4 + ((2 : Nat) : Int) + ((0 : Nat) : Int) = p2 - 2 := by push_cast; ring
        rw [a, b, e2]
      · have a : p1 - 4 + ((2 : Nat) : Int) + ((1 : Nat) : Int) = p1 - 1 := by push_cast; ring
        have b : p2 - 4 + ((2 : Nat) : Int) + ((1 : Nat) : Int) = p2 - 1 := by push_cast; ring
        rw [a, b, e1]
      · have a : p1 - 4 + ((2 : Nat) : Int) + ((2 : Nat) : Int) = p1 := by push_cast; ring
        have b : p2 - 4 + ((2 : Nat) : Int) + ((2 : Nat) : Int) = p2 := by push_cast; ring
        rw [a, b, f0]
      · have a : p1 - 4 + ((2 : Nat) : Int) + ((3 : Nat) : Int) = p1 + 1 := by push_cast; ring
        have b : p2 - 4 + ((2 : Nat) : Int) + ((3 : Nat) : Int) = p2 + 1 := by push_cast; ring
        rw [a, b, f1]
    have hy : (1 : Int).toNat = 1 := rfl
    simp only [Nat.cast_zero, zero_add, Nat.mul_one] at hb
    unfold StrongCRC32
    simp only [Nat.cast_zero, zero_add, hb, hy, strongCopy, hrow]
  · apply StrongCRC32_congr xxh mem mem p1 p2 _ 1 2 stride (by omega)
    intro k hk j hj
    have hk0 : k = 0 := by
      have : (1 : Int).toNat = 1 := rfl
      omega
    subst hk0
    simp only [Nat.cast_zero, zero_mul, add_zero]
    exact hlive j (by omega)

theorem checksum64strong_palette_congr (xxh : List Nat → Nat) (mem : Mem)
    (src width height size rowStride p1 p2 : Int) (hp1 : p1 ≠ 0) (hp2 : p2 ≠ 0)
    (h8 : toU32 size &&& 0xff = 1 →
      StrongCRC32 xxh mem p1
          (((StrongCRC32_CI8 xxh mem src width height rowStride).cimax : Int) + 1) 1 2 512
        = StrongCRC32 xxh mem p2
          (((StrongCRC32_CI8 xxh mem src width height rowStride).cimax : Int) + 1) 1 2 512)
    (h4 : toU32 size &&& 0xff = 0 →
      StrongCRC32 xxh mem p1
          (((StrongCRC32_CI4 xxh mem src width height rowStride).cimax : Int) + 1) 1 2 32
        = StrongCRC32 xxh mem p2
          (((StrongCRC32_CI4 xxh mem src width height rowStride).cimax : Int) + 1) 1 2 32) :
    checksum64strong xxh mem src width height size rowStride p1
      = checksum64strong xxh mem src width height size rowStride p2 := by
  have hblock : strongPaletteBlock xxh mem src width height size rowStride p1
      = strongPaletteBlock xxh mem src width height size rowStride p2 := by
    unfold strongPaletteBlock
    rw [if_pos hp1, if_pos hp2]
    split
    · rename_i heq
      simp only [h8 heq]
    · rename_i heq
      simp only [h4 heq]
    · rfl
  unfold checksum64strong
  rw [hblock]

/-- C10, as stated, fails for `cimax = 0`: the all-zero region at address 20
has `cimax = 0`, the palettes at addresses 4 and 10 have the same first entry,
and the two composite checksums differ, because with `bytesPerLine = 2` the
palette word is read from two bytes before the palette. -/
theorem C10_counterexample_cimax_zero :
    (RiceCRC32_CI8 palettesMem 20 4 1 4).cimax = 0
      ∧ (∀ j : Nat, j < 2 * (0 + 1) →
          readU8 palettesMem (4 + (j : Int)) = readU8 palettesMem (10 + (j : Int)))
      ∧ checksum64 palettesMem 20 4 1 1 4 4 ≠ checksum64 palettesMem 20 4 1 1 4 10
      ∧ checksum64strong List.sum palettesMem 20 4 1 1 4 4
          ≠ checksum64strong List.sum palettesMem 20 4 1 1 4 10 :=
  ⟨by decide, by decide, by decide, by decide⟩

/-- C10, amended: on the indexed composite path (non-null `src`, non-null
palettes, low byte of `size` 0 or 1), two palettes that agree on their first
`cimax + 1` two-byte entries and, when `cimax = 0`, also on the two bytes just
before them, give the same `checksum64` and the same `checksum64strong`. -/
theorem C10_palette_live_entries (xxh : List Nat → Nat) (mem : Mem)
    (src width height size rowStride p1 p2 : Int) (hs : src ≠ 0) (hp1 : p1 ≠ 0) (hp2 : p2 ≠ 0)
    (hlow : toU32 size &&& 0xff = 1 ∨ toU32 size &&& 0xff = 0)
    (hlive : ∀ j : Nat, j < 2 * (compositeCimax mem src width height size rowStride + 1) →
      readU8 mem (p1 + (j : Int)) = readU8 mem (p2 + (j : Int)))
    (hpre : compositeCimax mem src width height size rowStride = 0 →
      readU8 mem (p1 - 2) = readU8 mem (p2 - 2) ∧ readU8 mem (p1 - 1) = readU8 mem (p2 - 1)) :
    checksum64 mem src width height size rowStride p1
        = checksum64 mem src width height size rowStride p2
      ∧ checksum64strong xxh mem src width height size rowStride p1
        = checksum64strong xxh mem src width height size rowStride p2 := by
  rcases hlow with h1 | h0
  · have hc : compositeCimax mem src width height size rowStride
        = CalculateMaxCI8b mem src (toU32 width) (toU32 height) (toU32 rowStride) := by
      unfold compositeCimax; rw [if_pos h1]
    rw [hc] at hlive hpre
    have hle := CalculateMaxCI8b_le mem src (toU32 width) (toU32 height) (toU32 rowStride)
    constructor
    · rw [checksum64_ci8 mem src width height size rowStride p1 hs hp1 h1,
        checksum64_ci8 mem src width height size rowStride p2 hs hp2 h1]
      have : (RiceCRC32_CI8 mem src width height rowStride).cimax
          = CalculateMaxCI8b mem src (toU32 width) (toU32 height) (toU32 rowStride) := rfl
      rw [this, RiceCRC32_palette_congr mem p1 p2 512 _ hle hlive hpre]
    · apply checksum64strong_palette_congr xxh mem src width height size rowStride p1 p2 hp1 hp2
      · intro _
        exact StrongCRC32_palette_congr xxh mem p1 p2 512 _ hle hlive hpre
      · intro h0; omega
  · have hc : compositeCimax mem src width height size rowStride
        = CalculateMaxCI4b mem src (toU32 width) (toU32 height) (toU32 rowStride) := by
      unfold compositeCimax; rw [if_neg (by omega)]
    rw [hc] at hlive hpre
    have hle := CalculateMaxCI4b_le mem src (toU32 width) (toU32 height) (toU32 rowStride)
    constructor
    · rw [checksum64_ci4 mem src width height size rowStride p1 hs hp1 h0,
        checksum64_ci4 mem src width height size rowStride p2 hs hp2 h0]
      have : (RiceCRC32_CI4 mem src width height rowStride).cimax
          = CalculateMaxCI4b mem src (toU32 width) (toU32 height) (toU32 rowStride) := rfl
      rw [this, RiceCRC32_palette_congr mem p1 p2 32 _ hle hlive hpre]
    · apply checksum64strong_palette_congr xxh mem src width height size rowStride p1 p2 hp1 hp2
      · intro h1; omega
      · intro _
        exact StrongCRC32_palette_congr xxh mem p1 p2 32 _ hle hlive hpre

theorem C10_witness :
    (20 : Int) ≠ 0 ∧ (4 : Int) ≠ 0 ∧ (16 : Int) ≠ 0
    ∧ (toU32 1 &&& 0xff = 1 ∨ toU32 1 &&& 0xff = 0)
    ∧ (∀ j : Nat, j < 2 * (compositeCimax palettesMem 20 4 1 1 4 + 1) →
        readU8 palettesMem (4 + (j : Int)) = readU8 palettesMem (16 + (j : Int)))
    ∧ (compositeCimax palettesMem 20 4 1 1 4 = 0 →
        readU8 palettesMem (4 - 2) = readU8 palettesMem (16 - 2)
          ∧ readU8 palettesMem (4 - 1) = readU8 palettesMem (16 - 1))
    ∧ checksum64 palettesMem 20 4 1 1 4 4 = checksum64 palettesMem 20 4 1 1 4 16
    ∧ checksum64strong List.sum palettesMem 20 4 1 1 4 4
        = checksum64strong List.sum palettesMem 20 4 1 1 4 16 :=
  ⟨by decide, by decide, by decide, by decide, by decide, by decide,
    C10_palette_live_entries List.sum palettesMem 20 4 1 1 4 4 16 (by decide) (by decide)
      (by decide) (by decide) (by decide) (by decide)⟩

/-! ## The scratch buffer pool -/

theorem shutdown_state (st : TxMemBuf × Heap) :
    (TxMemBuf.shutdown st).1 = TxMemBuf.construct := by
  obtain ⟨s, h⟩ := st
  simp [TxMemBuf.shutdown, shutdownLoop, set2, TxMemBuf.construct]

theorem shutdown_construct (h : Heap) :
    TxMemBuf.shutdown (TxMemBuf.construct, h) = (TxMemBuf.construct, h) := by
  simp [TxMemBuf.shutdown, shutdownLoop, set2, get2, TxMemBuf.construct]

/-- C16: from every pool state `shutdown` produces the freshly constructed
state (both pointers null, both sizes 0, no per-thread buffer), and a second
`shutdown` changes nothing, neither in the pool nor in the allocator. -/
theorem C16_shutdown_resets_and_is_idempotent (st : TxMemBuf × Heap) :
    ((TxMemBuf.shutdown st).1._tex = (0, 0) ∧ (TxMemBuf.shutdown st).1._size = (0, 0)
        ∧ (TxMemBuf.shutdown st).1._bufs = [])
      ∧ (TxMemBuf.shutdown st).1 = TxMemBuf.construct
      ∧ TxMemBuf.shutdown (TxMemBuf.shutdown st) = TxMemBuf.shutdown st := by
  have h1 := shutdown_state st
  refine ⟨?_, h1, ?_⟩
  · rw [h1]; exact ⟨rfl, rfl, rfl⟩
  · have h2 : TxMemBuf.shutdown st = (TxMemBuf.construct, (TxMemBuf.shutdown st).2) := by
      rw [← h1]
    rw [h2, shutdown_construct]

theorem size_value (w h : Int) :
    toU32 (wrapInt (wrapInt (w * h) * 4)) = toU32 (w * h * 4) := by
  generalize w * h = p
  unfold wrapInt toS32 toU32
  split <;> split <;> omega

theorem initAlloc_held (w h : Int) (i : Nat) (st : TxMemBuf × Heap)
    (hi : get2 st.1._tex i ≠ 0) : initAlloc w h i st = st := by
  unfold initAlloc; rw [if_neg hi]

theorem initAlloc_null (w h : Int) (i : Nat) (st : TxMemBuf × Heap)
    (hi : get2 st.1._tex i = 0) :
    initAlloc w h i st
      = ({ st.1 with
            _tex := set2 st.1._tex i (malloc st.2).1,
            _size := set2 st.1._size i (toU32 (wrapInt (wrapInt (w * h) * 4))) },
          (malloc st.2).2) := by
  unfold initAlloc; rw [if_pos hi]

theorem initAlloc_bufs (w h : Int) (i : Nat) (st : TxMemBuf × Heap) :
    (initAlloc w h i st).1._bufs = st.1._bufs := by
  unfold initAlloc; split <;> rfl

theorem initAlloc_other (w h : Int) (st : TxMemBuf × Heap) :
    get2 (initAlloc w h 1 st).1._tex 0 = get2 st.1._tex 0 := by
  unfold initAlloc; split <;> simp [get2, set2]

theorem initLoop_two (w h : Int) (st : TxMemBuf × Heap) :
    initLoop w h 2 0 st
      = if get2 (initAlloc w h 0 st).1._tex 0 = 0 then
          (false, TxMemBuf.shutdown (initAlloc w h 0 st))
        else if get2 (initAlloc w h 1 (initAlloc w h 0 st)).1._tex 1 = 0 then
          (false, TxMemBuf.shutdown (initAlloc w h 1 (initAlloc w h 0 st)))
        else (true, initAlloc w h 1 (initAlloc w h 0 st)) := by
  simp only [initLoop]

theorem initLoop_ready (w h : Int) (st : TxMemBuf × Heap)
    (h0 : get2 st.1._tex 0 ≠ 0) (h1 : get2 st.1._tex 1 ≠ 0) :
    initLoop w h 2 0 st = (true, st) := by
  rw [initLoop_two, initAlloc_held w h 0 st h0, initAlloc_held w h 1 st h1, if_neg h0, if_neg h1]

theorem initLoop_true (w h : Int) (st : TxMemBuf × Heap)
    (ht : (initLoop w h 2 0 st).1 = true) :
    get2 (initLoop w h 2 0 st).2.1._tex 0 ≠ 0 ∧ get2 (initLoop w h 2 0 st).2.1._tex 1 ≠ 0
      ∧ (initLoop w h 2 0 st).2.1._bufs = st.1._bufs := by
  rw [initLoop_two] at ht ⊢
  split at ht
  · simp at ht
  · rename_i h0
    split at ht
    · simp at ht
    · rename_i h1
      rw [if_neg h0, if_neg h1]
      refine ⟨?_, h1, ?_⟩
      · rw [initAlloc_other]; exact h0
      · rw [initAlloc_bufs, initAlloc_bufs]

theorem vectorResize_nil {α : Type} (ok : Bool) (n : Nat) (fill : α) :
    vectorResize ok n fill ([] : List α)
      = if n = 0 then some [] else if ok then some (List.replicate n fill) else none := by
  unfold vectorResize
  by_cases hn : n = 0
  · subst hn; simp
  · have : ¬ n ≤ ([] : List α).length := by simp; omega
    rw [if_neg this, if_neg hn]
    simp

theorem init_of_ready (M : Nat) (ok : Bool) (w h : Int) (s : TxMemBuf) (hp : Heap)
    (h0 : get2 s._tex 0 ≠ 0) (h1 : get2 s._tex 1 ≠ 0)
    (hb : s._bufs = [] → getNumberofProcessors M = 0) :
    TxMemBuf.init M ok w h (s, hp) = (true, (s, hp)) := by
  unfold TxMemBuf.init
  simp only [initLoop_ready w h (s, hp) h0 h1]
  rw [if_neg (by simp)]
  by_cases he : s._bufs = []
  · have hn := hb he
    rw [he, hn]
    simp only [List.isEmpty_nil, if_true, Nat.zero_mul, vectorResize_nil]
    obtain ⟨t, z, b⟩ := s
    simp only at he
    subst he
    rfl
  · have : s._bufs.isEmpty = false := by
      cases hl : s._bufs with
      | nil => exact absurd hl he
      | cons a l => rfl
    rw [this]
    simp

theorem init_true (M : Nat) (ok : Bool) (w h : Int) (st : TxMemBuf × Heap)
    (ht : (TxMemBuf.init M ok w h st).1 = true) :
    get2 (TxMemBuf.init M ok w h st).2.1._tex 0 ≠ 0
      ∧ get2 (TxMemBuf.init M ok w h st).2.1._tex 1 ≠ 0
      ∧ ((TxMemBuf.init M ok w h st).2.1._bufs = [] → getNumberofProcessors M = 0) := by
  unfold TxMemBuf.init at ht ⊢
  simp only at ht ⊢
  by_cases hr : (initLoop w h 2 0 st).1 = false
  · rw [if_pos hr] at ht
    rw [hr] at ht
    exact absurd ht (by simp)
  · have hr2 : (initLoop w h 2 0 st).1 = true := by
      cases hx : (initLoop w h 2 0 st).1 with
      | true => rfl
      | false => exact absurd hx hr
    obtain ⟨t0, t1, _⟩ := initLoop_true w h st hr2
    rw [if_neg hr] at ht ⊢
    by_cases he : (initLoop w h 2 0 st).2.1._bufs.isEmpty = true
    · have hnil : (initLoop w h 2 0 st).2.1._bufs = [] := List.isEmpty_iff.mp he
      rw [if_pos he, hnil, vectorResize_nil] at ht ⊢
      by_cases hn : getNumberofProcessors M * 2 = 0
      · rw [if_pos hn] at ht ⊢
        have hn0 : getNumberofProcessors M = 0 := by omega
        exact ⟨t0, t1, fun _ => hn0⟩
      · rw [if_neg hn] at ht ⊢
        cases ok with
        | false => simp at ht
        | true =>
          simp only [if_true]
          refine ⟨t0, t1, ?_⟩
          intro hrep
          have hlen := congrArg List.length hrep
          simp only [List.length_replicate, List.length_nil] at hlen
          exact absurd hlen hn
    · rw [if_neg he] at ht ⊢
      refine ⟨t0, t1, ?_⟩
      intro hnil
      rw [hnil] at he
      simp at he

/-- C14: after an `init` that returned success, a further `init` with any
dimensions, whatever the allocator would answer, returns success and leaves
the pool and the allocator exactly as they were: no `malloc` is consumed and no
vector is resized. -/
theorem C14_init_idempotent (M : Nat) (ok ok1 : Bool) (w h w1 h1 : Int)
    (st : TxMemBuf × Heap) (ht : (TxMemBuf.init M ok w h st).1 = true) :
    TxMemBuf.init M ok1 w1 h1 (TxMemBuf.init M ok w h st).2
      = (true, (TxMemBuf.init M ok w h st).2) := by
  obtain ⟨t0, t1, hb⟩ := init_true M ok w h st ht
  exact init_of_ready M ok1 w1 h1 _ _ t0 t1 hb

theorem C14_witness :
    (TxMemBuf.init 8 true 4 4 (TxMemBuf.construct, { pending := [100, 200], live := [] })).1 = true
    ∧ TxMemBuf.init 8 false 7 9
        (TxMemBuf.init 8 true 4 4 (TxMemBuf.construct, { pending := [100, 200], live := [] })).2
      = (true,
          (TxMemBuf.init 8 true 4 4 (TxMemBuf.construct, { pending := [100, 200], live := [] })).2) :=
  ⟨by decide, C14_init_idempotent 8 true false 4 4 7 9 _ (by decide)⟩

theorem initLoop_fresh (w h : Int) (hp : Heap) (hm0 : (malloc hp).1 ≠ 0)
    (hm1 : (malloc (malloc hp).2).1 ≠ 0) :
    initLoop w h 2 0 (TxMemBuf.construct, hp)
      = (true,
          ({ _tex := ((malloc hp).1, (malloc (malloc hp).2).1),
             _size := (toU32 (w * h * 4), toU32 (w * h * 4)),
             _bufs := [] },
            (malloc (malloc hp).2).2)) := by
  rw [initLoop_two]
  simp [initAlloc, TxMemBuf.construct, get2, set2, hm0, hm1, size_value]

/-- C13, as stated, fails: from a fresh pool, with both `malloc` calls
returning blocks (100 and 200), `init` returns failure when `_bufs.resize`
throws `std::bad_alloc`, which `init` catches. -/
theorem C13_counterexample_resize_fails :
    (malloc { pending := [100, 200], live := [] }).1 ≠ 0
      ∧ (malloc (malloc { pending := [100, 200], live := [] }).2).1 ≠ 0
      ∧ (initLoop 4 4 2 0 (TxMemBuf.construct, { pending := [100, 200], live := [] })).1 = true
      ∧ (TxMemBuf.init 8 false 4 4
            (TxMemBuf.construct, { pending := [100, 200], live := [] })).1 = false := by
  decide

/-- C13, amended: from a freshly constructed (or shut-down) pool, an `init` in
which both `malloc` calls return a block and the sizing of `_bufs` does not
throw returns success, leaves `_tex` holding the two blocks,
`size_of(0) = size_of(1) = maxwidth*maxheight*4` (as a `uint32`) and `_bufs`
holding exactly `2 * getNumberofProcessors()` empty vectors. -/
theorem C13_init_from_fresh (M : Nat) (ok : Bool) (w h : Int) (hp : Heap)
    (hm0 : (malloc hp).1 ≠ 0) (hm1 : (malloc (malloc hp).2).1 ≠ 0)
    (hok : ok = true ∨ getNumberofProcessors M = 0) :
    (TxMemBuf.init M ok w h (TxMemBuf.construct, hp)).1 = true
      ∧ (TxMemBuf.init M ok w h (TxMemBuf.construct, hp)).2.1._tex
          = ((malloc hp).1, (malloc (malloc hp).2).1)
      ∧ TxMemBuf.size_of (TxMemBuf.init M ok w h (TxMemBuf.construct, hp)).2.1 0
          = some (toU32 (w * h * 4))
      ∧ TxMemBuf.size_of (TxMemBuf.init M ok w h (TxMemBuf.construct, hp)).2.1 1
          = some (toU32 (w * h * 4))
      ∧ (TxMemBuf.init M ok w h (TxMemBuf.construct, hp)).2.1._bufs
          = List.replicate (2 * getNumberofProcessors M) [] := by
  have hinit : TxMemBuf.init M ok w h (TxMemBuf.construct, hp)
      = (true,
          ({ _tex := ((malloc hp).1, (malloc (malloc hp).2).1),
             _size := (toU32 (w * h * 4), toU32 (w * h * 4)),
             _bufs := List.replicate (2 * getNumberofProcessors M) [] },
            (malloc (malloc hp).2).2)) := by
    unfold TxMemBuf.init
    simp only [initLoop_fresh w h hp hm0 hm1]
    rw [if_neg (by simp)]
    simp only [List.isEmpty_nil, if_true, vectorResize_nil]
    by_cases hn : getNumberofProcessors M * 2 = 0
    · have hn0 : getNumberofProcessors M = 0 := by omega
      rw [if_pos hn, hn0]
      rfl
    · rw [if_neg hn]
      rcases hok with hok | hok
      · subst hok
        simp only [if_true, Nat.mul_comm]
      · omega
  rw [hinit]
  exact ⟨rfl, rfl, rfl, rfl, rfl⟩

theorem C13_witness :
    (malloc { pending := [100, 200], live := [] }).1 ≠ 0
    ∧ (malloc (malloc { pending := [100, 200], live := [] }).2).1 ≠ 0
    ∧ ((true : Bool) = true ∨ getNumberofProcessors 8 = 0)
    ∧ (TxMemBuf.init 8 true 4 4 (TxMemBuf.construct, { pending := [100, 200], live := [] })).1 = true
    ∧ (TxMemBuf.init 8 true 4 4
          (TxMemBuf.construct, { pending := [100, 200], live := [] })).2.1._bufs
        = List.replicate (2 * getNumberofProcessors 8) [] :=
  ⟨by decide, by decide, Or.inl rfl,
    (C13_init_from_fresh 8 true 4 4 { pending := [100, 200], live := [] } (by decide) (by decide)
      (Or.inl rfl)).1,
    (C13_init_from_fresh 8 true 4 4 { pending := [100, 200], live := [] } (by decide) (by decide)
      (Or.inl rfl)).2.2.2.2⟩

theorem malloc_live_null (hp : Heap) (h : (malloc hp).1 = 0) : (malloc hp).2.live = hp.live := by
  unfold malloc at h ⊢
  cases hpd : hp.pending with
  | nil => simp
  | cons p rest =>
    rw [hpd] at h
    simp only at h
    simp [h]

theorem malloc_live_block (hp : Heap) (h : (malloc hp).1 ≠ 0) :
    (malloc hp).2.live = (malloc hp).1 :: hp.live := by
  unfold malloc at h ⊢
  cases hpd : hp.pending with
  | nil => rw [hpd] at h; simp at h
  | cons p rest =>
    rw [hpd] at h
    simp only at h
    simp [h]

theorem shutdown_live (s : TxMemBuf) (hp : Heap) :
    (TxMemBuf.shutdown (s, hp)).2.live
      = ((if s._tex.1 ≠ 0 then hp.live.erase s._tex.1 else hp.live) |>
          fun l => if s._tex.2 ≠ 0 then l.erase s._tex.2 else l) := by
  by_cases h0 : s._tex.1 = 0 <;> by_cases h1 : s._tex.2 = 0 <;>
    simp [TxMemBuf.shutdown, shutdownLoop, get2, set2, free, h0, h1]

theorem init_of_loop_false (M : Nat) (ok : Bool) (w h : Int) (st : TxMemBuf × Heap)
    (hr : (initLoop w h 2 0 st).1 = false) :
    TxMemBuf.init M ok w h st = initLoop w h 2 0 st := by
  unfold TxMemBuf.init
  simp only
  rw [if_pos hr]

/-- C15: when `malloc` returns null for `_tex[0]`, or for `_tex[1]` after
`_tex[0]` was obtained, `init` returns failure, leaves the pool in the
freshly constructed state (both pointers null, both sizes 0, `_bufs` empty),
and every block still held was held before the call. -/
theorem C15_init_unwinds_on_failure (M : Nat) (ok : Bool) (w h : Int) (st : TxMemBuf × Heap)
    (hfail : (get2 st.1._tex 0 = 0 ∧ (malloc st.2).1 = 0)
      ∨ (get2 (initAlloc w h 0 st).1._tex 0 ≠ 0 ∧ get2 st.1._tex 1 = 0
          ∧ (malloc (initAlloc w h 0 st).2).1 = 0)) :
    (TxMemBuf.init M ok w h st).1 = false
      ∧ (TxMemBuf.init M ok w h st).2.1 = TxMemBuf.construct
      ∧ (TxMemBuf.init M ok w h st).2.2.live.Sublist st.2.live := by
  obtain ⟨⟨⟨t0, t1⟩, ⟨z0, z1⟩, b⟩, hp⟩ := st
  simp only [get2, if_true, if_false, one_ne_zero] at hfail
  rcases hfail with ⟨ha, hm⟩ | ⟨hb0, hb1, hm⟩
  · -- `malloc` fails for `_tex[0]`
    have hA : initAlloc w h 0 (⟨(t0, t1), (z0, z1), b⟩, hp)
        = (⟨(0, t1), (toU32 (wrapInt (wrapInt (w * h) * 4)), z1), b⟩, (malloc hp).2) := by
      rw [initAlloc_null _ _ _ _ (by simpa [get2] using ha)]
      simp [set2, hm]
    have hloop : initLoop w h 2 0 (⟨(t0, t1), (z0, z1), b⟩, hp)
        = (false, TxMemBuf.shutdown
            (⟨(0, t1), (toU32 (wrapInt (wrapInt (w * h) * 4)), z1), b⟩, (malloc hp).2)) := by
      rw [initLoop_two, hA, if_pos (by simp [get2])]
    rw [init_of_loop_false M ok w h _ (by rw [hloop])]
    rw [hloop]
    refine ⟨rfl, shutdown_state _, ?_⟩
    rw [shutdown_live, malloc_live_null hp hm]
    simp only [ne_eq, not_true_eq_false, if_false]
    split
    · exact List.erase_sublist _ _
    · exact List.Sublist.refl _
  · -- `_tex[0]` is held and `malloc` fails for `_tex[1]`
    subst hb1
    by_cases h0 : t0 = 0
    · subst h0
      have hA : initAlloc w h 0 (⟨(0, 0), (z0, z1), b⟩, hp)
          = (⟨((malloc hp).1, 0), (toU32 (wrapInt (wrapInt (w * h) * 4)), z1), b⟩,
              (malloc hp).2) := by
        rw [initAlloc_null _ _ _ _ (by simp [get2])]
        simp [set2]
      rw [hA] at hb0 hm
      simp only at hb0 hm
      have hB : initAlloc w h 1
            (⟨((malloc hp).1, 0), (toU32 (wrapInt (wrapInt (w * h) * 4)), z1), b⟩, (malloc hp).2)
          = (⟨((malloc hp).1, 0), (toU32 (wrapInt (wrapInt (w * h) * 4)),
                toU32 (wrapInt (wrapInt (w * h) * 4))), b⟩,
              (malloc (malloc hp).2).2) := by
        rw [initAlloc_null _ _ _ _ (by simp [get2])]
        simp [set2, hm]
      have hloop : initLoop w h 2 0 (⟨(0, 0), (z0, z1), b⟩, hp)
          = (false, TxMemBuf.shutdown
              (⟨((malloc hp).1, 0), (toU32 (wrapInt (wrapInt (w * h) * 4)),
                  toU32 (wrapInt (wrapInt (w * h) * 4))), b⟩,
                (malloc (malloc hp).2).2)) := by
        rw [initLoop_two, hA, if_neg (by simpa [get2] using hb0), hB, if_pos (by simp [get2])]
      rw [init_of_loop_false M ok w h _ (by rw [hloop])]
      rw [hloop]
      refine ⟨rfl, shutdown_state _, ?_⟩
      rw [shutdown_live, malloc_live_null _ hm, malloc_live_block hp hb0]
      simp only [ne_eq, hb0, not_false_eq_true, if_true, not_true_eq_false, if_false,
        List.erase_cons_head]
      exact List.Sublist.refl _
    · have hA : initAlloc w h 0 (⟨(t0, 0), (z0, z1), b⟩, hp) = (⟨(t0, 0), (z0, z1), b⟩, hp) :=
        initAlloc_held _ _ _ _ (by simpa [get2] using h0)
      rw [hA] at hm
      simp only at hm
      have hB : initAlloc w h 1 (⟨(t0, 0), (z0, z1), b⟩, hp)
          = (⟨(t0, 0), (z0, toU32 (wrapInt (wrapInt (w * h) * 4))), b⟩, (malloc hp).2) := by
        rw [initAlloc_null _ _ _ _ (by simp [get2])]
        simp [set2, hm]
      have hloop : initLoop w h 2 0 (⟨(t0, 0), (z0, z1), b⟩, hp)
          = (false, TxMemBuf.shutdown
              (⟨(t0, 0), (z0, toU32 (wrapInt (wrapInt (w * h) * 4))), b⟩, (malloc hp).2)) := by
        rw [initLoop_two, hA, if_neg (by simpa [get2] using h0), hB, if_pos (by simp [get2])]
      rw [init_of_loop_false M ok w h _ (by rw [hloop])]
      rw [hloop]
      refine ⟨rfl, shutdown_state _, ?_⟩
      rw [shutdown_live, malloc_live_null _ hm]
      simp only [ne_eq, h0, not_false_eq_true, if_true, not_true_eq_false, if_false]
      exact List.erase_sublist _ _

theorem C15_witness :
    ((get2 (TxMemBuf.construct, ({ pending := [100, 0], live := [7] } : Heap)).1._tex 0 = 0
        ∧ (malloc (TxMemBuf.construct, ({ pending := [100, 0], live := [7] } : Heap)).2).1 = 0)
      ∨ (get2 (initAlloc 4 4 0
            (TxMemBuf.construct, ({ pending := [100, 0], live := [7] } : Heap))).1._tex 0 ≠ 0
          ∧ get2 (TxMemBuf.construct, ({ pending := [100, 0], live := [7] } : Heap)).1._tex 1 = 0
          ∧ (malloc (initAlloc 4 4 0
              (TxMemBuf.construct, ({ pending := [100, 0], live := [7] } : Heap))).2).1 = 0))
    ∧ (TxMemBuf.init 8 true 4 4
          (TxMemBuf.construct, ({ pending := [100, 0], live := [7] } : Heap))).1 = false
    ∧ (TxMemBuf.init 8 true 4 4
          (TxMemBuf.construct, ({ pending := [100, 0], live := [7] } : Heap))).2.1
        = TxMemBuf.construct
    ∧ (TxMemBuf.init 8 true 4 4
          (TxMemBuf.construct, ({ pending := [100, 0], live := [7] } : Heap))).2.2.live.Sublist
        (TxMemBuf.construct, ({ pending := [100, 0], live := [7] } : Heap)).2.live :=
  ⟨by decide,
    C15_init_unwinds_on_failure 8 true 4 4
      (TxMemBuf.construct, ({ pending := [100, 0], live := [7] } : Heap)) (by decide)⟩

theorem getD_set_same {α : Type} (l : List α) (i : Nat) (a d : α) (h : i < l.length) :
    (l.set i a).getD i d = a := by
  rw [List.getD_eq_getElem?_getD, List.getElem?_set_self h]
  rfl

theorem getD_set_other {α : Type} (l : List α) (i j : Nat) (a d : α) (h : j ≠ i) :
    (l.set i a).getD j d = l.getD j d := by
  rw [List.getD_eq_getElem?_getD, List.getD_eq_getElem?_getD, List.getElem?_set_ne (Ne.symm h)]

theorem getThreadBuf_some (ok : Bool) (threadIdx num size : Nat) (s s1 : TxMemBuf) (p : Nat)
    (hr : TxMemBuf.getThreadBuf ok threadIdx num size s = some (some p, s1)) :
    p = (threadIdx * 2 + num) % 4294967296
      ∧ p < s._bufs.length
      ∧ s1._bufs.getD p []
          = s._bufs.getD p [] ++ List.replicate (size - (s._bufs.getD p []).length) 0
      ∧ s1._bufs.length = s._bufs.length
      ∧ (∀ j, j ≠ p → s1._bufs.getD j [] = s._bufs.getD j [])
      ∧ s1._tex = s._tex ∧ s1._size = s._size := by
  unfold TxMemBuf.getThreadBuf at hr
  by_cases hnum : num < 2
  · rw [if_pos hnum] at hr
    simp only at hr
    by_cases hidx : (threadIdx * 2 + num) % 4294967296 < s._bufs.length
    · rw [if_pos hidx] at hr
      by_cases hlt : (s._bufs.getD ((threadIdx * 2 + num) % 4294967296) []).length < size
      · rw [if_pos hlt] at hr
        unfold vectorResize at hr
        rw [if_neg (by omega)] at hr
        cases ok with
        | false => simp at hr
        | true =>
          simp only [if_true, Option.some.injEq, Prod.mk.injEq] at hr
          obtain ⟨hp, hs⟩ := hr
          subst hp
          subst hs
          refine ⟨rfl, hidx, ?_, ?_, ?_, rfl, rfl⟩
          · exact getD_set_same _ _ _ _ hidx
          · exact List.length_set _ _ _
          · intro j hj
            exact getD_set_other _ _ _ _ _ hj
      · rw [if_neg hlt] at hr
        simp only [Option.some.injEq, Prod.mk.injEq] at hr
        obtain ⟨hp, hs⟩ := hr
        subst hp
        subst hs
        refine ⟨rfl, hidx, ?_, rfl, fun j _ => rfl, rfl, rfl⟩
        have : size - (s._bufs.getD ((threadIdx * 2 + num) % 4294967296) []).length = 0 := by
          omega
        rw [this]
        simp
    · rw [if_neg hidx] at hr
      simp at hr
  · rw [if_neg hnum] at hr
    simp at hr

theorem getThreadBuf_succeeds (ok : Bool) (threadIdx num size : Nat) (s : TxMemBuf)
    (hnum : num < 2) (hidx : (threadIdx * 2 + num) % 4294967296 < s._bufs.length)
    (hok : ok = true
      ∨ size ≤ (s._bufs.getD ((threadIdx * 2 + num) % 4294967296) []).length) :
    ∃ s1, TxMemBuf.getThreadBuf ok threadIdx num size s
      = some (some ((threadIdx * 2 + num) % 4294967296), s1) := by
  unfold TxMemBuf.getThreadBuf
  rw [if_pos hnum]
  simp only
  rw [if_pos hidx]
  by_cases hlt : (s._bufs.getD ((threadIdx * 2 + num) % 4294967296) []).length < size
  · rw [if_pos hlt]
    rcases hok with hok | hok
    · subst hok
      unfold vectorResize
      rw [if_neg (by omega)]
      exact ⟨_, rfl⟩
    · omega
  · rw [if_neg hlt]
    exact ⟨_, rfl⟩

/-- C12: for a slot index `idx = threadIdx*2 + num` inside the pool
(`num < 2`), `getThreadBuf` succeeds whenever the vector need not grow or its
growth does not throw; a successful call returns slot `idx`, leaves its vector
equal to the old one followed by `size - old length` zeros (so its length is
`max(old length, size)`), and leaves every other slot, the number of slots and
both fixed buffers unchanged; hence after two successful calls with sizes `N`
and then `M` on the same slot its length is at least `N` and at least `M`. -/
theorem C12_getThreadBuf_grows_only (ok : Bool) (threadIdx num size : Nat) (s : TxMemBuf)
    (hnum : num < 2) (hidx : (threadIdx * 2 + num) % 4294967296 < s._bufs.length) :
    ((ok = true ∨ size ≤ (s._bufs.getD ((threadIdx * 2 + num) % 4294967296) []).length) →
        ∃ s1, TxMemBuf.getThreadBuf ok threadIdx num size s
          = some (some ((threadIdx * 2 + num) % 4294967296), s1))
    ∧ (∀ p s1, TxMemBuf.getThreadBuf ok threadIdx num size s = some (some p, s1) →
        p = (threadIdx * 2 + num) % 4294967296
        ∧ s1._bufs.getD p []
            = s._bufs.getD p [] ++ List.replicate (size - (s._bufs.getD p []).length) 0
        ∧ (s1._bufs.getD p []).length = max (s._bufs.getD p []).length size
        ∧ s1._bufs.length = s._bufs.length
        ∧ (∀ j, j ≠ p → s1._bufs.getD j [] = s._bufs.getD j [])
        ∧ s1._tex = s._tex ∧ s1._size = s._size)
    ∧ (∀ (ok2 : Bool) (M : Nat) p1 s1 p2 s2,
        TxMemBuf.getThreadBuf ok threadIdx num size s = some (some p1, s1) →
        TxMemBuf.getThreadBuf ok2 threadIdx num M s1 = some (some p2, s2) →
        p2 = p1 ∧ size ≤ (s2._bufs.getD p1 []).length ∧ M ≤ (s2._bufs.getD p1 []).length) := by
  refine ⟨getThreadBuf_succeeds ok threadIdx num size s hnum hidx, ?_, ?_⟩
  · intro p s1 hr
    obtain ⟨h1, _, h3, h4, h5, h6, h7⟩ := getThreadBuf_some ok threadIdx num size s s1 p hr
    refine ⟨h1, h3, ?_, h4, h5, h6, h7⟩
    rw [h3, List.length_append, List.length_replicate]
    omega
  · intro ok2 M p1 s1 p2 s2 hr1 hr2
    obtain ⟨h1, _, h3, _, _, _, _⟩ := getThreadBuf_some ok threadIdx num size s s1 p1 hr1
    obtain ⟨g1, _, g3, _, _, _, _⟩ := getThreadBuf_some ok2 threadIdx num M s1 s2 p2 hr2
    have hp : p2 = p1 := by rw [g1, h1]
    subst hp
    have l1 : (s1._bufs.getD p2 []).length = max (s._bufs.getD p2 []).length size := by
      rw [h3, List.length_append, List.length_replicate]; omega
    have l2 : (s2._bufs.getD p2 []).length = max (s1._bufs.getD p2 []).length M := by
      rw [g3, List.length_append, List.length_replicate]; omega
    refine ⟨rfl, ?_, ?_⟩ <;> omega

theorem C12_witness :
    (1 : Nat) < 2
    ∧ (0 * 2 + 1) % 4294967296
        < ({ _tex := (100, 200), _size := (64, 64), _bufs := [[5], [6, 7]] } : TxMemBuf)._bufs.length
    ∧ ∃ s1, TxMemBuf.getThreadBuf true 0 1 4
          { _tex := (100, 200), _size := (64, 64), _bufs := [[5], [6, 7]] }
        = some (some ((0 * 2 + 1) % 4294967296), s1) :=
  ⟨by decide, by decide,
    (C12_getThreadBuf_grows_only true 0 1 4
      { _tex := (100, 200), _size := (64, 64), _bufs := [[5], [6, 7]] } (by decide) (by decide)).1
      (Or.inl rfl)⟩

/-! ## The pinned fixture -/

theorem checksum64_null_palette (mem : Mem) (src width height size rowStride : Int)
    (hs : src ≠ 0) :
    checksum64 mem src width height size rowStride 0
      = RiceCRC32 mem src width height size rowStride := by
  unfold checksum64
  rw [if_neg hs]
  simp

theorem zeroFixture_bytes :
    ∀ k : Nat, k < 4 → ∀ j : Nat, j < 16 →
      readU8 zeroFixture (0 + (k : Int) * 16 + (j : Int)) = 0 := by
  decide

theorem RiceCRC32_zeroFixture : RiceCRC32 zeroFixture 0 4 4 3 16 = 0x90859083 := by
  decide

theorem RiceCRC32_of_zero_region (mem : Mem) (src : Int)
    (hz : ∀ j : Nat, j < 64 → readU8 mem (src + (j : Int)) = 0) :
    RiceCRC32 mem src 4 4 3 16 = 0x90859083 := by
  rw [← RiceCRC32_zeroFixture]
  apply RiceCRC32_congr mem zeroFixture src 0 4 4 3 16 (by decide) (by decide) (by decide)
  intro k hk j hj
  have hk4 : k < 4 := hk
  have hj16 : j < 16 := hj
  rw [zeroFixture_bytes k hk4 j hj16]
  have := hz (k * 16 + j) (by omega)
  have e : src + (k : Int) * 16 + (j : Int) = src + ((k * 16 + j : Nat) : Int) := by
    push_cast; ring
  rw [e]; exact this

/-- C18: for a region of 64 zero bytes, `RiceCRC32(src, 4, 4, 3, 16)` is
0x90859083, and `checksum64` of the same arguments with a null palette (and
a non-null `src`) is 0x0000000090859083. -/
theorem C18_pinned_fixture_value (mem : Mem) (src : Int)
    (hz : ∀ j : Nat, j < 64 → readU8 mem (src + (j : Int)) = 0) :
    RiceCRC32 mem src 4 4 3 16 = 0x90859083
      ∧ (src ≠ 0 → checksum64 mem src 4 4 3 16 0 = 0x0000000090859083) := by
  refine ⟨RiceCRC32_of_zero_region mem src hz, ?_⟩
  intro hs
  rw [checksum64_null_palette mem src 4 4 3 16 hs]
  exact RiceCRC32_of_zero_region mem src hz

theorem C18_witness :
    (∀ j : Nat, j < 64 → readU8 (memOfList []) (1024 + (j : Int)) = 0)
    ∧ RiceCRC32 (memOfList []) 1024 4 4 3 16 = 0x90859083
    ∧ checksum64 (memOfList []) 1024 4 4 3 16 0 = 0x0000000090859083 :=
  ⟨by decide, (C18_pinned_fixture_value (memOfList []) 1024 (by decide)).1,
    (C18_pinned_fixture_value (memOfList []) 1024 (by decide)).2 (by decide)⟩

/-! ## The linear buffer of the strong checksum -/

/-- C19: for `height ≥ 0` (an `int`), `max(bytesPerLine, rowStride) ≥ 4` as
`uint32` values and `height * max(bytesPerLine, rowStride) < 2^32`, the bytes
copied by `StrongCRC32` number `height * (bytesPerLine if bytesPerLine ≥ 4
else 4)`, which is at most the allocated length
`height * max(bytesPerLine, rowStride)`, and the hash runs over exactly the
copied bytes. -/
theorem C19_linear_buffer_not_overrun (xxh : List Nat → Nat) (mem : Mem)
    (src width height size rowStride : Int) (hh : 0 ≤ height) (hh2 : height < 2147483648)
    (hmax : 4 ≤ max (bytesPerLine width size) (toU32 rowStride))
    (hnw : height.toNat * max (bytesPerLine width size) (toU32 rowStride) < 4294967296) :
    (strongCopy mem (bytesPerLine width size) rowStride height.toNat src []).length
        = height.toNat * (if bytesPerLine width size < 4 then 4 else bytesPerLine width size)
      ∧ strongBufSize width height size rowStride
        = height.toNat * max (bytesPerLine width size) (toU32 rowStride)
      ∧ (strongCopy mem (bytesPerLine width size) rowStride height.toNat src []).length
        ≤ strongBufSize width height size rowStride
      ∧ StrongCRC32 xxh mem src width height size rowStride
        = some (Uint64ToUint32
            (xxh (strongCopy mem (bytesPerLine width size) rowStride height.toNat src []))) := by
  have hlen := strongCopy_length mem (bytesPerLine width size) rowStride height.toNat src []
  simp only [List.length_nil, Nat.zero_add] at hlen
  have hu : toU32 height = height.toNat := by unfold toU32; omega
  have hbuf : strongBufSize width height size rowStride
      = height.toNat * max (bytesPerLine width size) (toU32 rowStride) := by
    unfold strongBufSize
    rw [hu, Nat.mod_eq_of_lt hnw]
  have hle : (strongCopy mem (bytesPerLine width size) rowStride height.toNat src []).length
      ≤ strongBufSize width height size rowStride := by
    rw [hlen, hbuf]
    apply Nat.mul_le_mul_left
    split
    · exact hmax
    · exact Nat.le_max_left _ _
  refine ⟨hlen, hbuf, hle, ?_⟩
  unfold StrongCRC32
  simp only
  rw [if_pos hle]

theorem C19_witness :
    (0 : Int) ≤ 2 ∧ (2 : Int) < 2147483648
    ∧ 4 ≤ max (bytesPerLine 1 2) (toU32 8)
    ∧ (2 : Int).toNat * max (bytesPerLine 1 2) (toU32 8) < 4294967296
    ∧ (strongCopy (memOfList [1, 2, 3, 4, 5, 6, 7, 8, 9, 10, 11, 12]) (bytesPerLine 1 2) 8
          (2 : Int).toNat 2 []).length ≤ strongBufSize 1 2 2 8 :=
  ⟨by decide, by decide, by decide, by decide,
    (C19_linear_buffer_not_overrun List.sum (memOfList [1, 2, 3, 4, 5, 6, 7, 8, 9, 10, 11, 12])
      2 1 2 2 8 (by decide) (by decide) (by decide) (by decide)).2.2.1⟩

/-! ## The degenerate case `bytesPerLine < 4` -/

theorem riceOuter_eq_foldl_of_row (mem : Mem) (b : Nat) (rs : Int) (R : Int → Nat → Nat → Nat)
    (hR : ∀ (src : Int) (y crc : Nat), y < 4294967296 → crc < 4294967296 →
      riceRow mem b src (y : Int) crc = R src y crc) :
    ∀ (fuel : Nat) (src : Int) (crc : Nat), fuel < 2147483648 → crc < 4294967296 →
      riceOuter mem b rs fuel src (fuel : Int) crc
        = (List.range (fuel + 1)).foldl
            (fun (acc k : Nat) => R (src + (k : Int) * rs) (fuel + 1 - 1 - k) acc) crc := by
  intro fuel
  induction fuel with
  | zero =>
    intro src crc _ hc
    simp only [riceOuter, List.range_succ, List.range_zero, List.nil_append, List.foldl_cons,
      List.foldl_nil]
    rw [hR src 0 crc (by omega) hc]
    simp
  | succ n ih =>
    intro src crc hf hc
    have hy : (0 : Int) ≤ ((n + 1 : Nat) : Int) - 1 := by omega
    simp only [riceOuter, if_pos hy]
    have hcast : ((n + 1 : Nat) : Int) - 1 = (n : Int) := by omega
    rw [hcast, ih (src + rs) _ (by omega) (riceRow_lt _ _ _ _ _)]
    rw [hR src (n + 1) crc (by omega) hc]
    rw [List.range_succ_eq_map (n + 1), List.foldl_cons, List.foldl_map]
    simp only [Nat.cast_zero, zero_mul, add_zero, Nat.sub_zero, Nat.add_sub_cancel]
    congr 1
    funext acc k
    have h1 : src + rs + (k : Int) * rs = src + ((k.succ : Nat) : Int) * rs := by
      push_cast; ring
    have h2 : n - k = n + 1 - k.succ := by omega
    rw [h1, h2]

theorem riceRow_degenerate (mem : Mem) (b : Nat) (src : Int) (y crc : Nat) (hb : b < 4)
    (hy : y < 4294967296) (hc : crc < 4294967296) :
    riceRow mem b src (y : Int) crc
      = (((rotateLeft32 crc 4
              + (readU32 mem (src - (4 - (b : Int))) ^^^ toU32 ((b : Int) - 4))) % 4294967296)
          + ((readU32 mem (src - (4 - (b : Int))) ^^^ toU32 ((b : Int) - 4)) ^^^ y))
        % 4294967296 := by
  have hx : toS32 (b + 4294967296 - 4) = (b : Int) - 4 := by
    unfold toS32; split <;> omega
  have hq : ((b : Int) - 4).toNat / 4 = 0 := by omega
  have ha : src + ((b : Int) - 4) = src - (4 - (b : Int)) := by ring
  unfold riceRow
  simp only [hx, hq, riceInner, riceStep, ha, riceRotate_eq crc hc, toU32_of_nat y hy]

theorem RiceCRC32_eq_riceSingleWord (mem : Mem) (src width height size rowStride : Int)
    (hb : bytesPerLine width size < 4) (hh : 1 ≤ height) (hh2 : height < 2147483648) :
    RiceCRC32 mem src width height size rowStride
      = riceSingleWord mem src (bytesPerLine width size) height.toNat rowStride := by
  obtain ⟨n, hn⟩ : ∃ n : Nat, height = (n : Int) + 1 := ⟨(height - 1).toNat, by omega⟩
  subst hn
  unfold RiceCRC32 riceSingleWord
  have h1 : ((n : Int) + 1 - 1) = (n : Int) := by omega
  have h2 : ((n : Int) + 1).toNat = n + 1 := by omega
  simp only [h1, h2, Int.toNat_ofNat]
  rw [riceOuter_eq_foldl_of_row mem (bytesPerLine width size) rowStride
    (fun src y crc =>
      (((rotateLeft32 crc 4
              + (readU32 mem (src - (4 - (bytesPerLine width size : Int)))
                  ^^^ toU32 ((bytesPerLine width size : Int) - 4))) % 4294967296)
          + ((readU32 mem (src - (4 - (bytesPerLine width size : Int)))
                  ^^^ toU32 ((bytesPerLine width size : Int) - 4)) ^^^ y)) % 4294967296)
    (fun src y crc hy hc => riceRow_degenerate mem _ src y crc hb hy hc)
    n src 0 (by omega) (by omega)]
  rfl

theorem strongCopy_eq_degenerateRows (mem : Mem) (b : Nat) (rs : Int) (hb : b < 4) :
    ∀ (n : Nat) (src : Int) (data : List Nat),
      strongCopy mem b rs n src data
        = (List.range n).foldl
            (fun (l : List Nat) (k : Nat) => l ++ readBytes mem (degenerateAddr src b rs k) 4)
            data := by
  intro n
  induction n with
  | zero => intro src data; rfl
  | succ n ih =>
    intro src data
    have hrow : strongRowBytes mem b src = readBytes mem (degenerateAddr src b rs 0) 4 := by
      unfold strongRowBytes degenerateAddr
      rw [if_pos hb]
      congr 1
      push_cast; ring
    simp only [strongCopy, hrow]
    rw [ih, List.range_succ_eq_map, List.foldl_cons, List.foldl_map]
    congr 1
    funext l k
    have h1 : degenerateAddr (src + rs) b rs k = degenerateAddr src b rs k.succ := by
      unfold degenerateAddr; push_cast; ring
    rw [h1]

theorem readU32_of_readBytes (mem1 mem2 : Mem) (a : Int)
    (h : readBytes mem1 a 4 = readBytes mem2 a 4) : readU32 mem1 a = readU32 mem2 a := by
  simp only [readBytes, List.cons.injEq, and_true] at h
  obtain ⟨h0, h1, h2, h3⟩ := h
  have e2 : a + 1 + 1 = a + 2 := by ring
  have e3 : a + 1 + 1 + 1 = a + 3 := by ring
  rw [e2] at h2
  rw [e3] at h3
  unfold readU32
  rw [h0, h1, h2, h3]

theorem xor_all_ones (e : Nat) (h : e < 4294967296) : e ^^^ 4294967295 = 4294967295 - e := by
  apply Nat.eq_of_testBit_eq
  intro i
  have h1 : (4294967295 : Nat) = 2 ^ 32 - 1 := by norm_num
  have h2 : 4294967295 - e = 2 ^ 32 - (e + 1) := by omega
  rw [h2, Nat.testBit_xor, h1, Nat.testBit_two_pow_sub_one, Nat.testBit_two_pow_sub_succ (by omega)]
  by_cases hi : i < 32
  · simp [hi]
  · have : e.testBit i = false := by
      apply Nat.testBit_lt_two_pow
      calc e < 2 ^ 32 := by omega
        _ ≤ 2 ^ i := Nat.pow_le_pow_right (by omega) (by omega)
    simp [hi, this]

theorem readU32_lt (mem : Mem) (a : Int) : readU32 mem a < 4294967296 := by
  have h0 := readU8_le mem a
  have h1 := readU8_le mem (a + 1)
  have h2 := readU8_le mem (a + 2)
  have h3 := readU8_le mem (a + 3)
  unfold readU32; omega

theorem xor_lt_u32 (a b : Nat) (ha : a < 4294967296) (hb : b < 4294967296) :
    a ^^^ b < 4294967296 := by
  have ha2 : a < 2 ^ 32 := by omega
  have hb2 : b < 2 ^ 32 := by omega
  have := Nat.xor_lt_two_pow ha2 hb2
  omega

/-- With `height = 0` the `do` loops of `RiceCRC32` still run once, and in the
degenerate case the result is the constant 0xFFFFFFFF: the single word is
added once as it is and once XORed with `y = -1`. -/
theorem RiceCRC32_height_zero (mem : Mem) (src width size rowStride : Int)
    (hb : bytesPerLine width size < 4) :
    RiceCRC32 mem src width 0 size rowStride = 4294967295 := by
  have hx : toS32 (bytesPerLine width size + 4294967296 - 4)
      = (bytesPerLine width size : Int) - 4 := by
    unfold toS32; split <;> omega
  have hq : ((bytesPerLine width size : Int) - 4).toNat / 4 = 0 := by omega
  have hy : ((0 : Int) - 1).toNat = 0 := by decide
  have hm : toU32 ((0 : Int) - 1) = 4294967295 := by decide
  have hr : riceRotate 0 = 0 := by decide
  unfold RiceCRC32
  simp only [hy, riceOuter, riceRow, hx, hq, riceInner, riceStep, hm, hr, Nat.zero_add]
  have he := xor_lt_u32 _ _ (readU32_lt mem (src + ((bytesPerLine width size : Int) - 4)))
    (toU32_lt ((bytesPerLine width size : Int) - 4))
  rw [xor_all_ones _ he]
  omega

/-- C17: in the degenerate case `bytesPerLine < 4`, the strong engine copies
for each row `k < height` exactly the four bytes at
`src + k*rowStride - (4 - bytesPerLine)`; for `height ≥ 1` `RiceCRC32` is the
fold that reads its single word of row `k` at that same address; and for
`height ≥ 0` two memories that hold the same four bytes there for every row
give the same `RiceCRC32` and the same `StrongCRC32`. -/
theorem C17_degenerate_same_bytes (xxh : List Nat → Nat) (mem : Mem)
    (src width height size rowStride : Int)
    (hb : bytesPerLine width size < 4) (hh : 0 ≤ height) (hh2 : height < 2147483648) :
    strongCopy mem (bytesPerLine width size) rowStride height.toNat src []
        = degenerateRows mem src (bytesPerLine width size) height.toNat rowStride
      ∧ (1 ≤ height → RiceCRC32 mem src width height size rowStride
          = riceSingleWord mem src (bytesPerLine width size) height.toNat rowStride)
      ∧ ∀ mem2 : Mem,
          (∀ k : Nat, k < height.toNat →
            readBytes mem (degenerateAddr src (bytesPerLine width size) rowStride k) 4
              = readBytes mem2 (degenerateAddr src (bytesPerLine width size) rowStride k) 4) →
          RiceCRC32 mem src width height size rowStride
              = RiceCRC32 mem2 src width height size rowStride
            ∧ StrongCRC32 xxh mem src width height size rowStride
              = StrongCRC32 xxh mem2 src width height size rowStride := by
  have hcopy : ∀ m : Mem, strongCopy m (bytesPerLine width size) rowStride height.toNat src []
      = degenerateRows m src (bytesPerLine width size) height.toNat rowStride :=
    fun m => strongCopy_eq_degenerateRows m _ rowStride hb _ src []
  refine ⟨hcopy mem,
    fun h1 => RiceCRC32_eq_riceSingleWord mem src width height size rowStride hb h1 hh2, ?_⟩
  intro mem2 hagree
  constructor
  · by_cases h1 : 1 ≤ height
    · rw [RiceCRC32_eq_riceSingleWord mem src width height size rowStride hb h1 hh2,
        RiceCRC32_eq_riceSingleWord mem2 src width height size rowStride hb h1 hh2]
      unfold riceSingleWord
      apply List.foldl_ext
      intro acc k hk
      rw [readU32_of_readBytes mem mem2 _ (hagree k (List.mem_range.mp hk))]
    · have h0 : height = 0 := by omega
      subst h0
      rw [RiceCRC32_height_zero mem src width size rowStride hb,
        RiceCRC32_height_zero mem2 src width size rowStride hb]
  · have hrows : degenerateRows mem src (bytesPerLine width size) height.toNat rowStride
        = degenerateRows mem2 src (bytesPerLine width size) height.toNat rowStride := by
      unfold degenerateRows
      apply List.foldl_ext
      intro l k hk
      rw [hagree k (List.mem_range.mp hk)]
    unfold StrongCRC32
    simp only
    rw [hcopy mem, hcopy mem2, hrows]

theorem C17_witness :
    bytesPerLine 1 2 < 4 ∧ (0 : Int) ≤ 2 ∧ (2 : Int) < 2147483648
    ∧ strongCopy (memOfList [1, 2, 3, 4, 5, 6, 7, 8, 9, 10, 11, 12, 13, 14]) (bytesPerLine 1 2) 8
          (2 : Int).toNat 4 []
        = degenerateRows (memOfList [1, 2, 3, 4, 5, 6, 7, 8, 9, 10, 11, 12, 13, 14]) 4
            (bytesPerLine 1 2) (2 : Int).toNat 8
    ∧ RiceCRC32 (memOfList [1, 2, 3, 4, 5, 6, 7, 8, 9, 10, 11, 12, 13, 14]) 4 1 2 2 8
        = riceSingleWord (memOfList [1, 2, 3, 4, 5, 6, 7, 8, 9, 10, 11, 12, 13, 14]) 4
            (bytesPerLine 1 2) (2 : Int).toNat 8 :=
  ⟨by decide, by decide, by decide,
    (C17_degenerate_same_bytes List.sum (memOfList [1, 2, 3, 4, 5, 6, 7, 8, 9, 10, 11, 12, 13, 14])
      4 1 2 2 8 (by decide) (by decide) (by decide)).1,
    (C17_degenerate_same_bytes List.sum (memOfList [1, 2, 3, 4, 5, 6, 7, 8, 9, 10, 11, 12, 13, 14])
      4 1 2 2 8 (by decide) (by decide) (by decide)).2.1 (by decide)⟩

/-! ## Changes confined to one word -/

theorem foldl_ne_of_ne {β : Type} (f1 f2 : Nat → β → Nat) (l : List β)
    (hb1 : ∀ a x, f1 a x < 4294967296) (hb2 : ∀ a x, f2 a x < 4294967296)
    (hinj : ∀ x, x ∈ l → ∀ a a', a < 4294967296 → a' < 4294967296 → a ≠ a' →
      f1 a x ≠ f2 a' x) :
    ∀ a a', a < 4294967296 → a' < 4294967296 → a ≠ a' → l.foldl f1 a ≠ l.foldl f2 a' := by
  induction l with
  | nil => intro a a' _ _ h; exact h
  | cons x t ih =>
    intro a a' ha ha' h
    simp only [List.foldl_cons]
    exact ih (fun y hy => hinj y (List.mem_cons_of_mem _ hy)) _ _ (hb1 _ _) (hb2 _ _)
      (hinj x (List.mem_cons_self _ _) a a' ha ha' h)

theorem foldl_ne_of_single {β : Type} (f1 f2 : Nat → β → Nat) (x0 : β) (l : List β)
    (hmem : x0 ∈ l) (hnd : l.Nodup)
    (hb1 : ∀ a x, f1 a x < 4294967296) (hb2 : ∀ a x, f2 a x < 4294967296)
    (hsame : ∀ x, x ∈ l → x ≠ x0 → ∀ a, f1 a x = f2 a x)
    (hinj : ∀ x, x ∈ l → x ≠ x0 → ∀ a a', a < 4294967296 → a' < 4294967296 → a ≠ a' →
      f1 a x ≠ f2 a' x)
    (hdiff : ∀ a, a < 4294967296 → f1 a x0 ≠ f2 a x0) :
    ∀ a, a < 4294967296 → l.foldl f1 a ≠ l.foldl f2 a := by
  induction l with
  | nil => exact absurd hmem (List.not_mem_nil _)
  | cons x t ih =>
    intro a ha
    simp only [List.foldl_cons]
    have hnd2 := List.nodup_cons.mp hnd
    by_cases hx : x = x0
    · subst hx
      apply foldl_ne_of_ne f1 f2 t hb1 hb2 _ _ _ (hb1 _ _) (hb2 _ _) (hdiff a ha)
      intro y hy
      have hne : y ≠ x := fun e => hnd2.1 (e ▸ hy)
      exact hinj y (List.mem_cons_of_mem _ hy) hne
    · have hin : x0 ∈ t := by
        rcases List.mem_cons.mp hmem with e | e
        · exact absurd e.symm hx
        · exact e
      rw [hsame x (List.mem_cons_self _ _) hx a]
      exact ih hin hnd2.2 (fun y hy => hsame y (List.mem_cons_of_mem _ hy))
        (fun y hy => hinj y (List.mem_cons_of_mem _ hy)) _ (hb2 _ _)

theorem rotateLeft32_four (a : Nat) (ha : a < 4294967296) :
    rotateLeft32 a 4 = (16 * a + a / 268435456) % 4294967296 := by
  unfold rotateLeft32
  have h1 : a >>> 28 = a / 268435456 := by rw [Nat.shiftRight_eq_div_pow]
  have h2 : a <<< 4 = 2 ^ 4 * a := by rw [Nat.shiftLeft_eq, Nat.mul_comm]
  have hlt : a >>> 28 < 2 ^ 4 := by rw [h1]; omega
  rw [show 32 - 4 = 28 from rfl, h2, ← Nat.mul_add_lt_is_or hlt, h1]

theorem rotateLeft32_lt (a n : Nat) : rotateLeft32 a n < 4294967296 := by
  unfold rotateLeft32; omega

theorem rotateLeft32_split (a : Nat) (ha : a < 4294967296) :
    rotateLeft32 a 4 = 16 * (a % 268435456) + a / 268435456 := by
  rw [rotateLeft32_four a ha]
  have h1 : a = 268435456 * (a / 268435456) + a % 268435456 := (Nat.div_add_mod a 268435456).symm
  have h2 : a / 268435456 < 16 := by omega
  have h3 : a % 268435456 < 268435456 := Nat.mod_lt _ (by omega)
  generalize a / 268435456 = hi at h1 h2 ⊢
  generalize a % 268435456 = lo at h1 h3 ⊢
  subst h1
  omega

theorem rotateLeft32_inj (a a' : Nat) (ha : a < 4294967296) (ha' : a' < 4294967296)
    (h : rotateLeft32 a 4 = rotateLeft32 a' 4) : a = a' := by
  have e1 := rotateLeft32_split a ha
  have e2 := rotateLeft32_split a' ha'
  have d1 := Nat.div_add_mod a 268435456
  have d2 := Nat.div_add_mod a' 268435456
  have l1 : a % 268435456 < 268435456 := Nat.mod_lt _ (by omega)
  have l2 : a' % 268435456 < 268435456 := Nat.mod_lt _ (by omega)
  have q1 : a / 268435456 < 16 := by omega
  have q2 : a' / 268435456 < 16 := by omega
  generalize a / 268435456 = hi1 at *
  generalize a' / 268435456 = hi2 at *
  generalize a % 268435456 = lo1 at *
  generalize a' % 268435456 = lo2 at *
  omega

theorem refAccStep_lt (mem : Mem) (row : Int) (a x : Nat) :
    refAccStep mem row a x < 4294967296 := by
  unfold refAccStep; omega

theorem refAccStep_inj (mem1 mem2 : Mem) (row1 row2 : Int) (x : Nat)
    (hw : readU32 mem1 (row1 + (x : Int)) = readU32 mem2 (row2 + (x : Int)))
    (a a' : Nat) (ha : a < 4294967296) (ha' : a' < 4294967296) (hne : a ≠ a') :
    refAccStep mem1 row1 a x ≠ refAccStep mem2 row2 a' x := by
  unfold refAccStep
  rw [hw]
  have h1 := rotateLeft32_lt a 4
  have h2 := rotateLeft32_lt a' 4
  have h3 : rotateLeft32 a 4 ≠ rotateLeft32 a' 4 := fun e => hne (rotateLeft32_inj a a' ha ha' e)
  omega

theorem xor_right_inj (a b x : Nat) (h : a ^^^ x = b ^^^ x) : a = b := by
  have := congrArg (fun t => t ^^^ x) h
  simp only [Nat.xor_assoc, Nat.xor_self, Nat.xor_zero] at this
  exact this

theorem refAccStep_ne_of_word (mem1 mem2 : Mem) (row1 row2 : Int) (x : Nat)
    (hx : x < 4294967296)
    (hw : readU32 mem1 (row1 + (x : Int)) ≠ readU32 mem2 (row2 + (x : Int))) (a : Nat) :
    refAccStep mem1 row1 a x ≠ refAccStep mem2 row2 a x := by
  unfold refAccStep
  have h1 := xor_lt_u32 _ _ (readU32_lt mem1 (row1 + (x : Int))) hx
  have h2 := xor_lt_u32 _ _ (readU32_lt mem2 (row2 + (x : Int))) hx
  have h3 : readU32 mem1 (row1 + (x : Int)) ^^^ x ≠ readU32 mem2 (row2 + (x : Int)) ^^^ x :=
    fun e => hw (xor_right_inj _ _ _ e)
  omega

theorem refFold_fst (mem : Mem) (row : Int) :
    ∀ (l : List Nat) (s : Nat × Nat),
      (l.foldl (refWordStep mem row) s).1 = l.foldl (refAccStep mem row) s.1 := by
  intro l
  induction l with
  | nil => intro s; rfl
  | cons x t ih =>
    intro s
    simp only [List.foldl_cons]
    rw [ih]
    rfl

theorem refFold_snd_concat (mem : Mem) (row : Int) (l : List Nat) (z : Nat) (s : Nat × Nat) :
    ((l ++ [z]).foldl (refWordStep mem row) s).2 = readU32 mem (row + (z : Int)) ^^^ z := by
  rw [List.foldl_append]
  rfl

theorem refOffsets_concat (b : Nat) (h : 4 ≤ b) :
    refOffsets b
      = (List.range (b / 4 - 1)).map (fun i => b - 4 - 4 * i) ++ [b % 4] := by
  unfold refOffsets
  obtain ⟨n, hn⟩ : ∃ n, b / 4 = n + 1 := ⟨b / 4 - 1, by omega⟩
  rw [hn, List.range_succ, List.map_append]
  simp only [Nat.add_sub_cancel, List.map_cons, List.map_nil, List.append_cancel_left_eq,
    List.cons.injEq, and_true]
  omega

theorem refOffsets_mod (b x : Nat) (h : x ∈ refOffsets b) : x % 4 = b % 4 := by
  unfold refOffsets at h
  simp only [List.mem_map, List.mem_range] at h
  obtain ⟨i, hi, rfl⟩ := h
  omega

theorem refOffsets_nodup (b : Nat) : (refOffsets b).Nodup := by
  unfold refOffsets
  apply List.Nodup.map_on _ (List.nodup_range _)
  intro i hi j hj hij
  simp only [List.mem_range] at hi hj
  omega

theorem refRow_eq (mem : Mem) (row : Int) (b y acc : Nat) (hb : 4 ≤ b) :
    refRow mem row b y acc
      = ((refOffsets b).foldl (refAccStep mem row) acc
          + ((readU32 mem (row + ((b % 4 : Nat) : Int)) ^^^ (b % 4)) ^^^ y)) % 4294967296 := by
  unfold refRow
  simp only
  rw [refFold_fst]
  congr 2
  rw [refOffsets_concat b hb, refFold_snd_concat]

theorem refFold_lt (mem : Mem) (row : Int) (b acc : Nat) (hb : 4 ≤ b) :
    (refOffsets b).foldl (refAccStep mem row) acc < 4294967296 := by
  rw [refOffsets_concat b hb, List.foldl_append]
  exact refAccStep_lt _ _ _ _

theorem refRow_lt (mem : Mem) (row : Int) (b y acc : Nat) :
    refRow mem row b y acc < 4294967296 := by
  unfold refRow; simp only; omega

theorem refRow_inj (mem : Mem) (row : Int) (b y : Nat) (hb : 4 ≤ b) (a a' : Nat)
    (ha : a < 4294967296) (ha' : a' < 4294967296) (hne : a ≠ a') :
    refRow mem row b y a ≠ refRow mem row b y a' := by
  rw [refRow_eq mem row b y a hb, refRow_eq mem row b y a' hb]
  have h1 := refFold_lt mem row b a hb
  have h2 := refFold_lt mem row b a' hb
  have h3 : (refOffsets b).foldl (refAccStep mem row) a
      ≠ (refOffsets b).foldl (refAccStep mem row) a' :=
    foldl_ne_of_ne _ _ _ (refAccStep_lt mem row) (refAccStep_lt mem row)
      (fun x _ => refAccStep_inj mem mem row row x rfl) a a' ha ha' hne
  omega

theorem refOffsets_last_mem (b : Nat) (hb : 4 ≤ b) : b % 4 ∈ refOffsets b := by
  rw [refOffsets_concat b hb]
  simp

theorem refRow_ne_of_word (mem1 mem2 : Mem) (row1 row2 : Int) (b y x0 : Nat) (hb : 4 ≤ b)
    (hb2 : b < 4294967296) (hx0 : x0 ∈ refOffsets b) (hx1 : x0 ≠ b % 4)
    (hsame : ∀ x, x ∈ refOffsets b → x ≠ x0 →
      readU32 mem1 (row1 + (x : Int)) = readU32 mem2 (row2 + (x : Int)))
    (hdiff : readU32 mem1 (row1 + (x0 : Int)) ≠ readU32 mem2 (row2 + (x0 : Int)))
    (a : Nat) (ha : a < 4294967296) :
    refRow mem1 row1 b y a ≠ refRow mem2 row2 b y a := by
  rw [refRow_eq mem1 row1 b y a hb, refRow_eq mem2 row2 b y a hb]
  have h1 := refFold_lt mem1 row1 b a hb
  have h2 := refFold_lt mem2 row2 b a hb
  have hx0b := refOffsets_mem b x0 hx0
  have h3 : (refOffsets b).foldl (refAccStep mem1 row1) a
      ≠ (refOffsets b).foldl (refAccStep mem2 row2) a := by
    apply foldl_ne_of_single _ _ x0 _ hx0 (refOffsets_nodup b) (refAccStep_lt mem1 row1)
      (refAccStep_lt mem2 row2)
    · intro x hx hne c
      unfold refAccStep
      rw [hsame x hx hne]
    · intro x hx hne
      exact refAccStep_inj mem1 mem2 row1 row2 x (hsame x hx hne)
    · intro c _
      exact refAccStep_ne_of_word mem1 mem2 row1 row2 x0 (by omega) hdiff c
    · exact ha
  rw [hsame (b % 4) (refOffsets_last_mem b hb) (Ne.symm hx1)]
  omega

theorem refRow_ne_of_last_word (mem1 mem2 : Mem) (row1 row2 : Int) (b y : Nat) (hb : 4 ≤ b)
    (hsame : ∀ x, x ∈ refOffsets b → x ≠ b % 4 →
      readU32 mem1 (row1 + (x : Int)) = readU32 mem2 (row2 + (x : Int)))
    (hdiff : ((readU32 mem1 (row1 + ((b % 4 : Nat) : Int)) ^^^ (b % 4))
          + ((readU32 mem1 (row1 + ((b % 4 : Nat) : Int)) ^^^ (b % 4)) ^^^ y)) % 4294967296
        ≠ ((readU32 mem2 (row2 + ((b % 4 : Nat) : Int)) ^^^ (b % 4))
          + ((readU32 mem2 (row2 + ((b % 4 : Nat) : Int)) ^^^ (b % 4)) ^^^ y)) % 4294967296)
    (a : Nat) :
    refRow mem1 row1 b y a ≠ refRow mem2 row2 b y a := by
  rw [refRow_eq mem1 row1 b y a hb, refRow_eq mem2 row2 b y a hb]
  have hnd := refOffsets_nodup b
  rw [refOffsets_concat b hb] at hnd ⊢
  have hpre : ∀ x, x ∈ (List.range (b / 4 - 1)).map (fun i => b - 4 - 4 * i) →
      x ∈ refOffsets b ∧ x ≠ b % 4 := by
    intro x hx
    constructor
    · rw [refOffsets_concat b hb]
      exact List.mem_append_left _ hx
    · intro e
      have := (List.nodup_append.mp hnd).2.2
      exact this hx (by rw [e]; exact List.mem_singleton_self _)
  have hP : ((List.range (b / 4 - 1)).map (fun i => b - 4 - 4 * i)).foldl
        (refAccStep mem1 row1) a
      = ((List.range (b / 4 - 1)).map (fun i => b - 4 - 4 * i)).foldl
        (refAccStep mem2 row2) a := by
    apply List.foldl_ext
    intro c x hx
    unfold refAccStep
    rw [hsame x (hpre x hx).1 (hpre x hx).2]
  rw [List.foldl_append, List.foldl_append, hP]
  simp only [List.foldl_cons, List.foldl_nil]
  unfold refAccStep
  have r := rotateLeft32_lt
    (((List.range (b / 4 - 1)).map (fun i => b - 4 - 4 * i)).foldl (refAccStep mem2 row2) a) 4
  generalize rotateLeft32
    (((List.range (b / 4 - 1)).map (fun i => b - 4 - 4 * i)).foldl (refAccStep mem2 row2) a) 4
    = R at r ⊢
  omega

theorem riceReference_ne_of_row (mem1 mem2 : Mem) (src1 src2 : Int) (b h : Nat) (rs : Int)
    (k0 : Nat) (hb : 4 ≤ b) (hk : k0 < h)
    (hrows : ∀ k : Nat, k < h → k ≠ k0 → ∀ j : Nat, j < b →
      readU8 mem1 (src1 + (k : Int) * rs + (j : Int))
        = readU8 mem2 (src2 + (k : Int) * rs + (j : Int)))
    (hk0 : ∀ a, a < 4294967296 →
      refRow mem1 (src1 + (k0 : Int) * rs) b (h - 1 - k0) a
        ≠ refRow mem2 (src2 + (k0 : Int) * rs) b (h - 1 - k0) a) :
    riceReference mem1 src1 b h rs ≠ riceReference mem2 src2 b h rs := by
  unfold riceReference
  apply foldl_ne_of_single _ _ k0 _ (List.mem_range.mpr hk) (List.nodup_range h)
    (fun a k => refRow_lt _ _ _ _ _) (fun a k => refRow_lt _ _ _ _ _)
  · intro k hk1 hne a
    exact refRow_congr _ _ _ _ _ _ _ (hrows k (List.mem_range.mp hk1) hne)
  · intro k hk1 hne a a' ha ha' haa
    rw [refRow_congr mem1 mem2 _ _ b _ a (hrows k (List.mem_range.mp hk1) hne)]
    exact refRow_inj mem2 _ b _ hb a a' ha ha' haa
  · exact hk0
  · omega

theorem refOffsets_mem_of_aligned (b x0 : Nat) (hb4 : b % 4 = 0) (hxa : x0 % 4 = 0)
    (hx1 : x0 + 4 ≤ b) : x0 ∈ refOffsets b := by
  unfold refOffsets
  simp only [List.mem_map, List.mem_range]
  exact ⟨(b - 4 - x0) / 4, by omega, by omega⟩

/-- C20: for `height ≥ 1` and `bytesPerLine` a multiple of 4 that is at least
8, if two memories differ in the aligned word at offset `x0` in
`{4, 8, ..., bytesPerLine-4}` of row `k0` and agree on every other byte of the
region's rows, their `RiceCRC32` values differ. -/
theorem C20_non_leading_word_change_detected (mem1 mem2 : Mem)
    (src width height size rowStride : Int) (k0 x0 : Nat)
    (hh : 1 ≤ height) (hh2 : height < 2147483648) (hb8 : 8 ≤ bytesPerLineInt width size)
    (hb4 : bytesPerLine width size % 4 = 0)
    (hk : k0 < height.toNat) (hx0 : 4 ≤ x0) (hx1 : x0 + 4 ≤ bytesPerLine width size)
    (hxa : x0 % 4 = 0)
    (hdiff : readU32 mem1 (src + (k0 : Int) * rowStride + (x0 : Int))
      ≠ readU32 mem2 (src + (k0 : Int) * rowStride + (x0 : Int)))
    (hagree : ∀ k : Nat, k < height.toNat → ∀ j : Nat, j < bytesPerLine width size →
      ¬ (k = k0 ∧ x0 ≤ j ∧ j < x0 + 4) →
      readU8 mem1 (src + (k : Int) * rowStride + (j : Int))
        = readU8 mem2 (src + (k : Int) * rowStride + (j : Int))) :
    RiceCRC32 mem1 src width height size rowStride
      ≠ RiceCRC32 mem2 src width height size rowStride := by
  have hbl := bytesPerLine_of_int width size (by omega)
  have hlt := bytesPerLineInt_lt width size
  rw [RiceCRC32_eq_riceReference mem1 src width height size rowStride hh hh2 (by omega),
    RiceCRC32_eq_riceReference mem2 src width height size rowStride hh hh2 (by omega)]
  apply riceReference_ne_of_row mem1 mem2 src src _ _ rowStride k0 (by omega) hk
  · intro k hk1 hne j hj
    exact hagree k hk1 j hj (fun h => hne h.1)
  · intro a ha
    apply refRow_ne_of_word mem1 mem2 _ _ _ _ x0 (by omega) (by omega)
      (refOffsets_mem_of_aligned _ x0 hb4 hxa hx1) (by omega) _ hdiff a ha
    intro x hx hne
    have hx4 := refOffsets_mem _ x hx
    have hxm := refOffsets_mod _ x hx
    apply readU32_congr
    intro t ht
    have := hagree k0 hk (x + t) (by omega) (by omega)
    have e1 : src + (k0 : Int) * rowStride + (x : Int) + (t : Int)
        = src + (k0 : Int) * rowStride + ((x + t : Nat) : Int) := by push_cast; ring
    rw [e1]; exact this

theorem C20_witness :
    (1 : Int) ≤ 2 ∧ (2 : Int) < 2147483648 ∧ 8 ≤ bytesPerLineInt 4 2
    ∧ bytesPerLine 4 2 % 4 = 0 ∧ 1 < (2 : Int).toNat ∧ 4 ≤ 4 ∧ 4 + 4 ≤ bytesPerLine 4 2
    ∧ 4 % 4 = 0
    ∧ readU32 (memOfList [1, 2, 3, 4, 5, 6, 7, 8, 9, 10, 11, 12, 13, 14, 15, 16])
          (0 + ((1 : Nat) : Int) * 8 + ((4 : Nat) : Int))
        ≠ readU32 (memOfList [1, 2, 3, 4, 5, 6, 7, 8, 9, 10, 11, 12, 13, 14, 15, 17])
          (0 + ((1 : Nat) : Int) * 8 + ((4 : Nat) : Int))
    ∧ RiceCRC32 (memOfList [1, 2, 3, 4, 5, 6, 7, 8, 9, 10, 11, 12, 13, 14, 15, 16]) 0 4 2 2 8
        ≠ RiceCRC32 (memOfList [1, 2, 3, 4, 5, 6, 7, 8, 9, 10, 11, 12, 13, 14, 15, 17]) 0 4 2 2 8 :=
  ⟨by decide, by decide, by decide, by decide, by decide, by decide, by decide, by decide,
    by decide,
    C20_non_leading_word_change_detected _ _ 0 4 2 2 8 1 4 (by decide) (by decide) (by decide)
      (by decide) (by decide) (by decide) (by decide) (by decide) (by decide) (by decide)⟩

/-! ## Single-byte changes of the pinned fixture -/

theorem readU32_zero (mem : Mem) (a : Int)
    (h : ∀ t : Nat, t < 4 → readU8 mem (a + (t : Int)) = 0) : readU32 mem a = 0 := by
  have h0 := h 0 (by omega)
  have h1 := h 1 (by omega)
  have h2 := h 2 (by omega)
  have h3 := h 3 (by omega)
  simp only [Nat.cast_zero, add_zero, Nat.cast_one, Nat.cast_ofNat] at h0 h1 h2 h3
  unfold readU32
  rw [h0, h1, h2, h3]

theorem readU32_single (mem : Mem) (a : Int) (i v : Nat) (hi : i < 4)
    (hv : readU8 mem (a + (i : Int)) = v)
    (h : ∀ t : Nat, t < 4 → t ≠ i → readU8 mem (a + (t : Int)) = 0) :
    readU32 mem a = v * 256 ^ i := by
  have g0 := h 0 (by omega)
  have g1 := h 1 (by omega)
  have g2 := h 2 (by omega)
  have g3 := h 3 (by omega)
  simp only [Nat.cast_zero, add_zero, Nat.cast_one, Nat.cast_ofNat] at g0 g1 g2 g3
  unfold readU32
  have hc : i = 0 ∨ i = 1 ∨ i = 2 ∨ i = 3 := by omega
  rcases hc with rfl | rfl | rfl | rfl
  · simp only [Nat.cast_zero, add_zero] at hv
    rw [hv, g1 (by omega), g2 (by omega), g3 (by omega)]; omega
  · simp only [Nat.cast_one] at hv
    rw [hv, g0 (by omega), g2 (by omega), g3 (by omega)]; omega
  · simp only [Nat.cast_ofNat] at hv
    rw [hv, g0 (by omega), g1 (by omega), g3 (by omega)]; omega
  · simp only [Nat.cast_ofNat] at hv
    rw [hv, g0 (by omega), g1 (by omega), g2 (by omega)]; omega

set_option maxRecDepth 100000 in
theorem fixture_last_word :
    ∀ k : Nat, k < 4 → ∀ i : Nat, i < 4 → ∀ v : Nat, v < 256 →
      v = 0 ∨ fixtureCollisions.contains (16 * k + i, v) = true ∨
      ((v * 256 ^ i ^^^ 0) + ((v * 256 ^ i ^^^ 0) ^^^ (4 - 1 - k))) % 4294967296
        ≠ ((0 ^^^ 0) + ((0 ^^^ 0) ^^^ (4 - 1 - k))) % 4294967296 := by
  decide

/-- Each of the nine single-byte changes listed in `fixtureCollisions` leaves
the fast checksum of the all-zero fixture unchanged: none of the exceptions of
the amended C11 can be dropped. -/
theorem fixtureCollisions_collide :
    ∀ p, p ∈ fixtureCollisions →
      p.1 < 64 ∧ p.2 ≠ 0 ∧
      RiceCRC32 (memOfList ((List.replicate 64 0).set p.1 p.2)) 0 4 4 3 16
        = RiceCRC32 zeroFixture 0 4 4 3 16 := by
  decide

/-- C11, as stated, fails: in the all-zero 4x4 fixture at address 0, setting
the single byte at position 3 to 0x80 (all other bytes stay 0) leaves the fast
checksum `RiceCRC32(src, 4, 4, 3, 16)` equal to that of the all-zero buffer. -/
theorem C11_counterexample_colliding_bytes :
    (3 : Nat) < 64 ∧ (128 : Nat) ≠ 0
      ∧ (∀ j : Nat, j < 64 → readU8 zeroFixture (0 + (j : Int)) = 0)
      ∧ readU8 (memOfList ((List.replicate 64 0).set 3 128)) (0 + ((3 : Nat) : Int)) = 128
      ∧ (∀ j : Nat, j < 64 → j ≠ 3 →
          readU8 (memOfList ((List.replicate 64 0).set 3 128)) (0 + (j : Int)) = 0)
      ∧ RiceCRC32 (memOfList ((List.replicate 64 0).set 3 128)) 0 4 4 3 16
          = RiceCRC32 zeroFixture 0 4 4 3 16 :=
  ⟨by decide, by decide, by decide, by decide, by decide, by decide⟩

/-- C11, amended: in the all-zero 4x4 fixture (`rowStride = 16`), changing
exactly one byte, at any of the 64 positions and to any non-zero value other
than the nine pairs of `fixtureCollisions`, gives a fast checksum different
from that of the all-zero buffer. -/
theorem C11_fixture_single_byte_change (mem1 mem2 : Mem) (src : Int) (pos v : Nat)
    (hz : ∀ j : Nat, j < 64 → readU8 mem2 (src + (j : Int)) = 0)
    (hpos : pos < 64) (hv : readU8 mem1 (src + (pos : Int)) = v) (hv0 : v ≠ 0)
    (hother : ∀ j : Nat, j < 64 → j ≠ pos → readU8 mem1 (src + (j : Int)) = 0)
    (hexc : (pos, v) ∉ fixtureCollisions) :
    RiceCRC32 mem1 src 4 4 3 16 ≠ RiceCRC32 mem2 src 4 4 3 16 := by
  have hb : bytesPerLine 4 3 = 16 := by decide
  have ht : (4 : Int).toNat = 4 := rfl
  have hv8 : v < 256 := by
    have := readU8_le mem1 (src + (pos : Int))
    omega
  -- a byte of the region, addressed by row and column
  have addr : ∀ (k : Nat) (x t : Nat),
      src + (k : Int) * 16 + (x : Int) + (t : Int) = src + ((16 * k + x + t : Nat) : Int) := by
    intro k x t; push_cast; ring
  have zero2 : ∀ (k x : Nat), k < 4 → x + 4 ≤ 16 →
      readU32 mem2 (src + (k : Int) * 16 + (x : Int)) = 0 := by
    intro k x hk hx
    apply readU32_zero
    intro t ht
    rw [addr]
    exact hz _ (by omega)
  have zero1 : ∀ (k x : Nat), k < 4 → x + 4 ≤ 16 → (pos < 16 * k + x ∨ 16 * k + x + 4 ≤ pos) →
      readU32 mem1 (src + (k : Int) * 16 + (x : Int)) = 0 := by
    intro k x hk hx hne
    apply readU32_zero
    intro t ht
    rw [addr]
    exact hother _ (by omega) (by omega)
  have one1 : ∀ (x : Nat), x + 4 ≤ 16 → 16 * (pos / 16) + x ≤ pos →
      pos < 16 * (pos / 16) + x + 4 →
      readU32 mem1 (src + ((pos / 16 : Nat) : Int) * 16 + (x : Int))
        = v * 256 ^ (pos - (16 * (pos / 16) + x)) := by
    intro x hx h1 h2
    apply readU32_single _ _ _ _ (by omega)
    · rw [addr]
      have : 16 * (pos / 16) + x + (pos - (16 * (pos / 16) + x)) = pos := by omega
      rw [this]; exact hv
    · intro t ht hne
      rw [addr]
      exact hother _ (by omega) (by omega)
  rw [RiceCRC32_eq_riceReference mem1 src 4 4 3 16 (by decide) (by decide) (by decide),
    RiceCRC32_eq_riceReference mem2 src 4 4 3 16 (by decide) (by decide) (by decide), hb, ht]
  apply riceReference_ne_of_row mem1 mem2 src src 16 4 16 (pos / 16) (by omega) (by omega)
  · intro k hk hne j hj
    have e : src + (k : Int) * 16 + (j : Int) = src + ((16 * k + j : Nat) : Int) := by
      push_cast; ring
    rw [e, hz _ (by omega), hother _ (by omega) (by omega)]
  · intro a ha
    by_cases hlast : pos % 16 < 4
    · -- the changed byte lies in the last word read of its row (offset 0)
      apply refRow_ne_of_last_word mem1 mem2 _ _ 16 _ (by omega)
      · intro x hx hne
        have hx4 := refOffsets_mem 16 x hx
        have hxm := refOffsets_mod 16 x hx
        rw [zero2 _ x (by omega) hx4, zero1 _ x (by omega) hx4 (by omega)]
      · have hw1 := one1 0 (by omega) (by omega) (by omega)
        have hw2 := zero2 (pos / 16) 0 (by omega) (by omega)
        have hi : pos - (16 * (pos / 16) + 0) = pos % 16 := by omega
        rw [hi] at hw1
        simp only [show (16 % 4 : Nat) = 0 from rfl]
        rw [hw1, hw2]
        have hbf := fixture_last_word (pos / 16) (by omega) (pos % 16) hlast v hv8
        have hp : 16 * (pos / 16) + pos % 16 = pos := by omega
        rw [hp] at hbf
        rcases hbf with h | h | h
        · exact absurd h hv0
        · exact absurd (by simpa using h) hexc
        · exact h
    · -- the changed byte lies in a word at offset 4, 8 or 12
      have hx0 : 4 * (pos % 16 / 4) + 4 ≤ 16 := by omega
      apply refRow_ne_of_word mem1 mem2 _ _ 16 _ (4 * (pos % 16 / 4)) (by omega) (by omega)
        (refOffsets_mem_of_aligned 16 _ (by omega) (by omega) hx0) (by omega) _ _ a ha
      · intro x hx hne
        have hx4 := refOffsets_mem 16 x hx
        have hxm := refOffsets_mod 16 x hx
        rw [zero2 _ x (by omega) hx4, zero1 _ x (by omega) hx4 (by omega)]
      · rw [one1 _ hx0 (by omega) (by omega), zero2 _ _ (by omega) hx0]
        have : 0 < 256 ^ (pos - (16 * (pos / 16) + 4 * (pos % 16 / 4))) := pow_pos (by omega) _
        exact Nat.ne_of_gt (Nat.mul_pos (Nat.pos_of_ne_zero hv0) this)

theorem C11_witness :
    (∀ j : Nat, j < 64 → readU8 zeroFixture (0 + (j : Int)) = 0)
    ∧ 21 < 64
    ∧ readU8 (memOfList ((List.replicate 64 0).set 21 128)) (0 + ((21 : Nat) : Int)) = 128
    ∧ 128 ≠ 0
    ∧ (∀ j : Nat, j < 64 → j ≠ 21 →
        readU8 (memOfList ((List.replicate 64 0).set 21 128)) (0 + (j : Int)) = 0)
    ∧ (21, 128) ∉ fixtureCollisions
    ∧ RiceCRC32 (memOfList ((List.replicate 64 0).set 21 128)) 0 4 4 3 16
        ≠ RiceCRC32 zeroFixture 0 4 4 3 16 :=
  ⟨by decide, by decide, by decide, by decide, by decide, by decide,
    C11_fixture_single_byte_change _ _ 0 21 128 (by decide) (by decide) (by decide) (by decide)
      (by decide) (by decide)⟩

end TxUtil
